import Mathlib

/-! # bmp-maze-gen: a shallow embedding of `bmp_maze_gen.c`

The program carves a random perfect maze with a recursive depth-first search and
renders it, while carving, into a 1-bit-per-pixel BMP image held in `filebuf`.

Modelling conventions.

* The build-time macros `MAZE_W` and `MAZE_H` are parameters `W H : Nat` of every
  definition that depends on them; the other macros are functions of them, written
  exactly as in the source (`/` is truncating division on non-negative values).
* C `int` values are natural numbers.  Every `int` the program computes is
  non-negative; every subtraction in the source is either guarded by the test that
  precedes it (`current >= MAZE_W`, `col_off`, `req_bit`) or is an offset from the
  pointer `img_data`, which itself lies `IMG_OFFSET + IMG_PACKED_ROW_W` bytes into
  `filebuf`, so that the absolute index into `filebuf` never truncates.
* An `int` has 32 bits.  The largest `int` that `gen_maze_dfs` computes is the bit index
  assigned to `req_bit` (all operands are non-negative, so no intermediate product or sum
  of that expression exceeds its value); when the bit index of the last cell fits, so do
  the cell indices, `req_byte` and its offsets (`intFits_bounds`).  When a bit index
  exceeds `INT_MAX` the C program has no defined behaviour.  The state carries a flag
  `overflow` that records this; the model then goes on with the mathematical value, so
  that `mazebuf` and the control flow, which never depend on `req_bit`, are still
  described, while statements about the bytes of `filebuf` that are written are made for
  runs in which `overflow` stays `false`.  A run from zeroed buffers raises `overflow`
  exactly when the bit index of the last cell exceeds `INT_MAX` (`run_overflow_iff`).
* The buffers `mazebuf` and `filebuf` are total maps `Nat → Nat` from index to byte
  value.  Every access is recorded in a log, so that the bounds of the C arrays are
  statable.
* `rand()` is an arbitrary infinite sequence `rng : Nat → Nat` of non-negative
  draws together with a counter of the draws consumed so far.
* The recursion of `gen_maze_dfs` is modelled with a fuel parameter bounding the
  depth of the call stack; `none` means the fuel ran out.
-/

namespace BmpMaze

/-! ## Geometry macros -/

/-- Macro `MAZE_A`: number of cells. -/
def MAZE_A (W H : Nat) : Nat := W * H

/-- Macro `TILE_N`. -/
def TILE_N : Nat := 1 <<< 0
/-- Macro `TILE_E`. -/
def TILE_E : Nat := 1 <<< 1
/-- Macro `TILE_S`. -/
def TILE_S : Nat := 1 <<< 2
/-- Macro `TILE_W`. -/
def TILE_W : Nat := 1 <<< 3
/-- Macro `TILE_UNVISITED`. -/
def TILE_UNVISITED : Nat := 0

/-- Macro `PIX_BIT`. -/
def PIX_BIT : Nat := 1
/-- Macro `FILE_H_SZ`. -/
def FILE_H_SZ : Nat := 14
/-- Macro `INFO_H_SZ`. -/
def INFO_H_SZ : Nat := 12
/-- Macro `COLOR_TBL_SZ`. -/
def COLOR_TBL_SZ : Nat := (1 <<< PIX_BIT) * 3
/-- Macro `IMG_OFFSET`. -/
def IMG_OFFSET : Nat := FILE_H_SZ + INFO_H_SZ + COLOR_TBL_SZ

/-- Macro `TILE_PIX_W`. -/
def TILE_PIX_W : Nat := 1
/-- Macro `TILE_PIX_H`. -/
def TILE_PIX_H : Nat := TILE_PIX_W
/-- Macro `IMG_PIX_W`. -/
def IMG_PIX_W (W : Nat) : Nat := (W * 2 + 1) * TILE_PIX_W
/-- Macro `IMG_PIX_H`. -/
def IMG_PIX_H (H : Nat) : Nat := (H * 2 + 1) * TILE_PIX_H
/-- Macro `IMG_PACKED_ROW_W`: the row stride in bytes used by all pixel addressing. -/
def IMG_PACKED_ROW_W (W : Nat) : Nat := (PIX_BIT * IMG_PIX_W W + 31) / 8
/-- Macro `IMG_BYTES`. -/
def IMG_BYTES (W H : Nat) : Nat := IMG_PACKED_ROW_W W * IMG_PIX_H H
/-- Macro `FILE_SZ`. -/
def FILE_SZ (W H : Nat) : Nat := IMG_OFFSET + IMG_BYTES W H

/-! ## Byte order helpers and header writers -/

/-- In-memory bytes of a `uint16_t` on a host that is big-endian (`be = true`) or
little-endian (`be = false`), in increasing address order. -/
def mem16 (be : Bool) (v : Nat) : List Nat :=
  if be then [v / 256 % 256, v % 256] else [v % 256, v / 256 % 256]

/-- In-memory bytes of a `uint32_t` on the host, in increasing address order. -/
def mem32 (be : Bool) (v : Nat) : List Nat :=
  if be then [v / 16777216 % 256, v / 65536 % 256, v / 256 % 256, v % 256]
  else [v % 256, v / 256 % 256, v / 65536 % 256, v / 16777216 % 256]

/-- Value of a `uint16_t` whose in-memory bytes are `p`. -/
def val16 (be : Bool) (p : List Nat) : Nat :=
  if be then p.getD 0 0 * 256 + p.getD 1 0 else p.getD 0 0 + p.getD 1 0 * 256

/-- Value of a `uint32_t` whose in-memory bytes are `p`. -/
def val32 (be : Bool) (p : List Nat) : Nat :=
  if be then p.getD 0 0 * 16777216 + p.getD 1 0 * 65536 + p.getD 2 0 * 256 + p.getD 3 0
  else p.getD 0 0 + p.getD 1 0 * 256 + p.getD 2 0 * 65536 + p.getD 3 0 * 16777216

/-- Function `is_be`: the first byte of the `uint16_t` value 1 is zero. -/
def is_be (be : Bool) : Bool := (mem16 be 1).getD 0 0 == 0

/-- Function `le_32`: on a big-endian host the four bytes of the argument are
reversed in place (`p[0] <-> p[3]`, `p[1] <-> p[2]`); the argument is a `uint32_t`. -/
def le_32 (be : Bool) (i : Nat) : Nat :=
  let i := i % 4294967296
  if is_be be then
    let p := mem32 be i
    let t := p.getD 0 0
    let p := p.set 0 (p.getD 3 0)
    let p := p.set 3 t
    let t := p.getD 1 0
    let p := p.set 1 (p.getD 2 0)
    let p := p.set 2 t
    val32 be p
  else i

/-- Function `le_16`: on a big-endian host the two bytes are exchanged. -/
def le_16 (be : Bool) (i : Nat) : Nat :=
  let i := i % 65536
  if is_be be then
    let p := mem16 be i
    let t := p.getD 0 0
    let p := p.set 0 (p.getD 1 0)
    let p := p.set 1 t
    val16 be p
  else i

/-- Assignment `buf[k] = v` on a byte buffer. -/
def setByte (buf : Nat → Nat) (k v : Nat) : Nat → Nat :=
  fun j => if j = k then v else buf j

/-- Store of the bytes `p` at consecutive addresses starting at `k`. -/
def storeBytes (buf : Nat → Nat) (k : Nat) : List Nat → Nat → Nat
  | [] => buf
  | b :: bs => storeBytes (setByte buf k b) (k + 1) bs

/-- Store `*p32 = v` with `p32 = (uint32_t*)(&filebuf[k])`, in host byte order. -/
def store32 (be : Bool) (buf : Nat → Nat) (k v : Nat) : Nat → Nat :=
  storeBytes buf k (mem32 be v)

/-- Store `*p16 = v` with `p16 = (uint16_t*)(&filebuf[k])`, in host byte order. -/
def store16 (be : Bool) (buf : Nat → Nat) (k v : Nat) : Nat → Nat :=
  storeBytes buf k (mem16 be v)

/-- Function `write_file_header`. -/
def write_file_header (W H : Nat) (be : Bool) (filebuf : Nat → Nat) : Nat → Nat :=
  let filebuf := setByte filebuf 0 ('B').toNat
  let filebuf := setByte filebuf 1 ('M').toNat
  let filebuf := store32 be filebuf 2 (le_32 be (FILE_SZ W H))
  store32 be filebuf 10 (le_32 be IMG_OFFSET)

/-- Function `write_info_header`. -/
def write_info_header (W H : Nat) (be : Bool) (filebuf : Nat → Nat) : Nat → Nat :=
  let filebuf := store32 be filebuf 14 (le_32 be INFO_H_SZ)
  let filebuf := store16 be filebuf 18 (le_16 be (IMG_PIX_W W))
  let filebuf := store16 be filebuf 20 (le_16 be (IMG_PIX_H H))
  let filebuf := store16 be filebuf 22 (le_16 be 1)
  store16 be filebuf 24 (le_16 be PIX_BIT)

/-- Function `write_color_table`. -/
def write_color_table (filebuf : Nat → Nat) : Nat → Nat :=
  let filebuf := setByte filebuf 26 0x00
  let filebuf := setByte filebuf 27 0x00
  let filebuf := setByte filebuf 28 0x00
  let filebuf := setByte filebuf 29 0xFF
  let filebuf := setByte filebuf 30 0xFF
  setByte filebuf 31 0xFF

/-- The three header writers in the order `main` calls them. -/
def write_headers (W H : Nat) (be : Bool) (filebuf : Nat → Nat) : Nat → Nat :=
  write_color_table (write_info_header W H be (write_file_header W H be filebuf))

/-- Little-endian decoding of the four bytes at `k`. -/
def decode_le32 (buf : Nat → Nat) (k : Nat) : Nat :=
  buf k + 256 * buf (k + 1) + 65536 * buf (k + 2) + 16777216 * buf (k + 3)

/-- Little-endian decoding of the two bytes at `k`. -/
def decode_le16 (buf : Nat → Nat) (k : Nat) : Nat :=
  buf k + 256 * buf (k + 1)

/-- The zero-initialised static buffer. -/
def zeroBuf : Nat → Nat := fun _ => 0

/-! ## The maze generator -/

/-- Direction `NORTH` of the anonymous enum. -/
def NORTH : Nat := 0
/-- Direction `EAST`. -/
def EAST : Nat := 1
/-- Direction `SOUTH`. -/
def SOUTH : Nat := 2
/-- Direction `WEST`. -/
def WEST : Nat := 3

/-- Largest value of a 32-bit `int`. -/
def INT_MAX : Nat := 2147483647

/-- The mutable program state seen by `gen_maze_dfs`: the two static buffers, the
number of `rand()` calls made so far, the access logs (most recent first) of
the `mazebuf` indices read or written and of the `filebuf` indices written, and whether
an `int` computation has exceeded `INT_MAX` so far. -/
structure MazeState where
  mazebuf : Nat → Nat
  filebuf : Nat → Nat
  draws : Nat
  mazeLog : List Nat
  fileLog : List Nat
  overflow : Bool

/-- A read of `mazebuf[i]`: only the log changes. -/
def MazeState.readMaze (s : MazeState) (i : Nat) : MazeState :=
  { s with mazeLog := i :: s.mazeLog }

/-- Statement `mazebuf[i] |= f`.  Both operands are byte values, so is the result. -/
def MazeState.orMaze (s : MazeState) (i f : Nat) : MazeState :=
  { s with mazebuf := setByte s.mazebuf i (s.mazebuf i ||| f), mazeLog := i :: s.mazeLog }

/-- Statement `filebuf[j] |= m` for a mask `m` below 256. -/
def MazeState.orFile (s : MazeState) (j m : Nat) : MazeState :=
  { s with filebuf := setByte s.filebuf j (s.filebuf j ||| m), fileLog := j :: s.fileLog }

/-- An `int` expression of mathematical value `v` is evaluated: `overflow` is raised when
`v` does not fit in an `int`. -/
def MazeState.checkInt (s : MazeState) (v : Nat) : MazeState :=
  { s with overflow := s.overflow || decide (INT_MAX < v) }

/-- Absolute `filebuf` index of `img_data[k]`, where
`img_data = &filebuf[IMG_OFFSET + IMG_PACKED_ROW_W]`. -/
def img_data (W : Nat) (k : Nat) : Nat := IMG_OFFSET + IMG_PACKED_ROW_W W + k

/-- One exchange `t = dirs[i]; dirs[i] = dirs[j]; dirs[j] = t`. -/
def swapDirs (dirs : List Nat) (i j : Nat) : List Nat :=
  let t := dirs.getD i 0
  let dirs := dirs.set i (dirs.getD j 0)
  dirs.set j t

/-- The shuffle loop at the top of `gen_maze_dfs`, for `i = 3, 2, 1`, where the
`k`-th and the next two values of the `rand()` sequence are drawn. -/
def shuffle_dirs (rng : Nat → Nat) (k : Nat) : List Nat :=
  let dirs := [NORTH, EAST, SOUTH, WEST]
  let dirs := swapDirs dirs 3 (rng k % (3 + 1))
  let dirs := swapDirs dirs 2 (rng (k + 1) % (2 + 1))
  swapDirs dirs 1 (rng (k + 2) % (1 + 1))

/-- One iteration of the neighbour loop: the `switch (dirs[i])` statement, with the
recursive call abstracted as `call`. -/
def visit_dir (W H : Nat) (call : Nat → MazeState → Option MazeState)
    (current col_off req_byte req_bit : Nat) (d : Nat) (s : MazeState) :
    Option MazeState :=
  if d = NORTH then
    if current ≥ W then
      let next := current - W
      let s := s.readMaze next
      if s.mazebuf next = TILE_UNVISITED then
        let s := s.orMaze current TILE_N
        let s := s.orMaze next TILE_S
        let s := s.orFile (img_data W req_byte - IMG_PACKED_ROW_W W) (0x80 >>> req_bit)
        call next s
      else some s
    else some s
  else if d = EAST then
    if current % W ≠ W - 1 then
      let next := current + 1
      let s := s.readMaze next
      if s.mazebuf next = TILE_UNVISITED then
        let s := s.orMaze current TILE_E
        let s := s.orMaze next TILE_W
        let s :=
          if req_bit = 7 then s.orFile (img_data W (req_byte + 1)) 0x80
          else s.orFile (img_data W req_byte) (0x80 >>> ((req_bit % 8) + 1))
        call next s
      else some s
    else some s
  else if d = SOUTH then
    if current < MAZE_A W H - W then
      let next := current + W
      let s := s.readMaze next
      if s.mazebuf next = TILE_UNVISITED then
        let s := s.orMaze current TILE_S
        let s := s.orMaze next TILE_N
        let s := s.orFile (img_data W req_byte + IMG_PACKED_ROW_W W) (0x80 >>> req_bit)
        call next s
      else some s
    else some s
  else if d = WEST then
    if col_off ≠ 0 then
      let next := current - 1
      let s := s.readMaze next
      if s.mazebuf next = TILE_UNVISITED then
        let s := s.orMaze current TILE_W
        let s := s.orMaze next TILE_E
        let s :=
          if req_bit ≠ 0 then s.orFile (img_data W req_byte) (0x80 >>> ((req_bit % 8) - 1))
          else s.orFile (img_data W req_byte - 1) (0x80 >>> 7)
        call next s
      else some s
    else some s
  else some s

/-- The body of `gen_maze_dfs(current)`, with the recursive call abstracted. -/
def dfs_body (W H : Nat) (rng : Nat → Nat) (call : Nat → MazeState → Option MazeState)
    (current : Nat) (s : MazeState) : Option MazeState :=
  let dirs := shuffle_dirs rng s.draws
  let s := { s with draws := s.draws + 3 }
  let row_off := current / W
  let col_off := current % W
  let req_bit := (row_off * IMG_PACKED_ROW_W W * 8 * 2) + (col_off * 2) + 1
  let s := s.checkInt req_bit
  let req_byte := req_bit / 8
  let req_bit := req_bit % 8
  let s := s.orFile (img_data W req_byte) (0x80 >>> req_bit)
  [0, 1, 2, 3].foldlM
    (fun s i => visit_dir W H call current col_off req_byte req_bit (dirs.getD i 0) s) s

/-- Function `gen_maze_dfs`; `fuel` bounds the depth of the recursion. -/
def gen_maze_dfs (W H : Nat) (rng : Nat → Nat) : Nat → Nat → MazeState → Option MazeState
  | 0, _, _ => none
  | fuel + 1, current, s => dfs_body W H rng (gen_maze_dfs W H rng fuel) current s

/-- State at the call in `main`: given buffers, no draws consumed by the generator
yet (`k` draws were consumed before), empty logs, no overflow. -/
def initState (mazebuf filebuf : Nat → Nat) (k : Nat) : MazeState :=
  { mazebuf := mazebuf, filebuf := filebuf, draws := k, mazeLog := [], fileLog := [],
    overflow := false }

/-- The header bytes of the reference configuration `MAZE_W = MAZE_H = 256`: the three
header writers applied to the zero-initialised `filebuf`. -/
def referenceHeader (be : Bool) : Nat → Nat := write_headers 256 256 be zeroBuf

/-- All logged accesses are inside the arrays: `mazebuf` indices are below `MAZE_A`, and
the `filebuf` bytes written lie in the pixel data region. -/
def LogOK (W H : Nat) (s : MazeState) : Prop :=
  (∀ i, i ∈ s.mazeLog → i < MAZE_A W H) ∧
  (∀ j, j ∈ s.fileLog → IMG_OFFSET ≤ j ∧ j < FILE_SZ W H)

/-- The logs only grow from `s0` to `s`, and a buffer byte that differs between `s0` and
`s` is in the log of `s`. -/
def Changed (s0 s : MazeState) : Prop :=
  (∀ i, i ∈ s0.mazeLog → i ∈ s.mazeLog) ∧ (∀ j, j ∈ s0.fileLog → j ∈ s.fileLog) ∧
  (∀ i, s.mazebuf i ≠ s0.mazebuf i → i ∈ s.mazeLog) ∧
  (∀ j, s.filebuf j ≠ s0.filebuf j → j ∈ s.fileLog)

/-- Invariant of the access logs at a call of `gen_maze_dfs(c)`. -/
def LogPre (W H c : Nat) (s : MazeState) : Prop := c < W * H ∧ LogOK W H s

/-- Invariant of the access logs in the neighbour loop. -/
def LogMid (W H c : Nat) (s0 : MazeState) (_ds : List Nat) (s : MazeState) : Prop :=
  c < W * H ∧ LogOK W H s ∧ Changed s0 s

/-- Invariant of the access logs when the call returns. -/
def LogPost (W H : Nat) (_c : Nat) (s0 s : MazeState) : Prop :=
  LogOK W H s ∧ Changed s0 s

/-- Row stride in the words of the specification: the bytes that hold the
`2W+1` bits of a row, rounded up to a 4-byte boundary. -/
def rowStrideSpec (W : Nat) : Nat := 4 * ((2 * W + 1 + 31) / 32)

/-! ## Specification-level notions -/

/-- Pixel bit at stored row `y`, column `x` of the packed image: byte
`IMG_OFFSET + y*IMG_PACKED_ROW_W + x/8`, mask `0x80 >> (x%8)`. -/
def pixel (W : Nat) (filebuf : Nat → Nat) (y x : Nat) : Bool :=
  filebuf (IMG_OFFSET + y * IMG_PACKED_ROW_W W + x / 8) &&& (0x80 >>> (x % 8)) != 0

/-- The mask `m` carries the direction flag `f`. -/
def hasFlag (m f : Nat) : Prop := m &&& f ≠ 0

instance (m f : Nat) : Decidable (hasFlag m f) := by
  unfold hasFlag; infer_instance

/-- Open passage between cell `i` and its east neighbour `i + 1` (same row): the two
masks carry the matching flags `TILE_E` and `TILE_W`. -/
def openE (W H : Nat) (maze : Nat → Nat) (i : Nat) : Prop :=
  i < W * H ∧ i % W + 1 < W ∧ hasFlag (maze i) TILE_E ∧ hasFlag (maze (i + 1)) TILE_W

/-- Open passage between cell `i` and its south neighbour `i + W`: the two masks carry
the matching flags `TILE_S` and `TILE_N`. -/
def openS (W H : Nat) (maze : Nat → Nat) (i : Nat) : Prop :=
  i + W < W * H ∧ hasFlag (maze i) TILE_S ∧ hasFlag (maze (i + W)) TILE_N

instance (W H : Nat) (maze : Nat → Nat) (i : Nat) : Decidable (openE W H maze i) := by
  unfold openE; infer_instance

instance (W H : Nat) (maze : Nat → Nat) (i : Nat) : Decidable (openS W H maze i) := by
  unfold openS; infer_instance

/-- Cells `a` and `b` are adjacent and joined by an open passage. -/
def Linked (W H : Nat) (maze : Nat → Nat) (a b : Nat) : Prop :=
  (b = a + 1 ∧ openE W H maze a) ∨ (a = b + 1 ∧ openE W H maze b) ∨
    (b = a + W ∧ openS W H maze a) ∨ (a = b + W ∧ openS W H maze b)

/-- The passage graph recorded in `mazebuf`: vertices are cell indices, edges are the
open passages. -/
def mazeGraph (W H : Nat) (maze : Nat → Nat) : SimpleGraph Nat where
  Adj := Linked W H maze
  symm := by
    intro a b h
    unfold Linked at h ⊢
    tauto
  loopless := by
    intro a h
    unfold Linked openS at h
    rcases h with h | h | h | h
    · omega
    · omega
    · have h1 := h.2.1
      have h2 : W = 0 := by omega
      subst h2
      simp at h1
    · have h1 := h.2.1
      have h2 : W = 0 := by omega
      subst h2
      simp at h1

/-- Number of open passages, each bidirectional passage counted once: horizontal ones
at their west cell, vertical ones at their north cell. -/
def passageCount (W H : Nat) (maze : Nat → Nat) : Nat :=
  ((Finset.range (W * H)).filter (fun i => openE W H maze i)).card +
    ((Finset.range (W * H)).filter (fun i => openS W H maze i)).card

/-! ## An abstract view of one call

The following definitions restate the effect of the statements of `gen_maze_dfs` in
terms of pixel coordinates; `visit_dir_eq_step` and `dfs_body_eq` below prove that the
code computes exactly these. -/

/-- Stored image row of the pixel of cell `c`. -/
def cellRow (W c : Nat) : Nat := 2 * (c / W) + 1

/-- Image column of the pixel of cell `c`. -/
def cellCol (W c : Nat) : Nat := 2 * (c % W) + 1

/-- Set the pixel bit at stored row `y`, column `x`. -/
def setPixel (W : Nat) (s : MazeState) (y x : Nat) : MazeState :=
  s.orFile (IMG_OFFSET + y * IMG_PACKED_ROW_W W + x / 8) (0x80 >>> (x % 8))

/-- The mathematical value of the expression assigned to `req_bit` before it is reduced:
the bit index of the pixel of cell `current` relative to `img_data`.  It is the value of the
`int` whenever it does not exceed `INT_MAX`. -/
def reqBitIndex (W current : Nat) : Nat :=
  (current / W * IMG_PACKED_ROW_W W * 8 * 2) + (current % W * 2) + 1

/-- Effect of the statements before the neighbour loop: three draws, the bit index
evaluated, cell pixel set. -/
def enter (W c : Nat) (s : MazeState) : MazeState :=
  setPixel W (MazeState.checkInt { s with draws := s.draws + 3 } (reqBitIndex W c))
    (cellRow W c) (cellCol W c)

/-- The neighbour of `c` in direction `d`, when the bounds test of that case passes. -/
def neighbor (W H c d : Nat) : Option Nat :=
  if d = NORTH then (if W ≤ c then some (c - W) else none)
  else if d = EAST then (if c % W ≠ W - 1 then some (c + 1) else none)
  else if d = SOUTH then (if c < MAZE_A W H - W then some (c + W) else none)
  else if d = WEST then (if c % W ≠ 0 then some (c - 1) else none)
  else none

/-- Flag set on the current cell when carving in direction `d`. -/
def dirFlag (d : Nat) : Nat :=
  if d = NORTH then TILE_N else if d = EAST then TILE_E
  else if d = SOUTH then TILE_S else TILE_W

/-- Flag set on the neighbour when carving in direction `d`. -/
def oppFlag (d : Nat) : Nat :=
  if d = NORTH then TILE_S else if d = EAST then TILE_W
  else if d = SOUTH then TILE_N else TILE_E

/-- Stored row of the passage pixel from cell `c` in direction `d`. -/
def passRow (W c d : Nat) : Nat :=
  if d = NORTH then cellRow W c - 1 else if d = SOUTH then cellRow W c + 1 else cellRow W c

/-- Column of the passage pixel from cell `c` in direction `d`. -/
def passCol (W c d : Nat) : Nat :=
  if d = EAST then cellCol W c + 1 else if d = WEST then cellCol W c - 1 else cellCol W c

/-- Effect of the statements of a case of the `switch` between the test of the
neighbour and the recursive call. -/
def carve (W c d nb : Nat) (s : MazeState) : MazeState :=
  setPixel W (((s.readMaze nb).orMaze c (dirFlag d)).orMaze nb (oppFlag d))
    (passRow W c d) (passCol W c d)

/-- One iteration of the neighbour loop in terms of `neighbor` and `carve`. -/
def step (W H : Nat) (call : Nat → MazeState → Option MazeState) (c d : Nat)
    (s : MazeState) : Option MazeState :=
  match neighbor W H c d with
  | none => some s
  | some nb =>
    if s.mazebuf nb = TILE_UNVISITED then call nb (carve W c d nb s)
    else some (s.readMaze nb)

/-- The four directions in the order the neighbour loop visits them. -/
def dirOrder (rng : Nat → Nat) (k : Nat) : List Nat :=
  [0, 1, 2, 3].map (fun i => (shuffle_dirs rng k).getD i 0)

/-- Proof obligations of an invariant of the recursion: `Pre c s` holds when
`gen_maze_dfs(c)` is called in state `s`, `Mid c s0 ds s` holds in the neighbour loop of the
call entered in state `s0` after the directions `ds` have been handled, and `Post c s0 s`
holds when the call returns. -/
structure DfsRule (W H : Nat) (Pre : Nat → MazeState → Prop)
    (Mid : Nat → MazeState → List Nat → MazeState → Prop)
    (Post : Nat → MazeState → MazeState → Prop) : Prop where
  enter : ∀ c s, Pre c s → Mid c s [] (enter W c s)
  absent : ∀ c s0 ds s d, Mid c s0 ds s → neighbor W H c d = none → Mid c s0 (d :: ds) s
  seen : ∀ c s0 ds s d nb, Mid c s0 ds s → neighbor W H c d = some nb →
    s.mazebuf nb ≠ 0 → Mid c s0 (d :: ds) (s.readMaze nb)
  call : ∀ c s0 ds s d nb, Mid c s0 ds s → neighbor W H c d = some nb →
    s.mazebuf nb = 0 → Pre nb (carve W c d nb s)
  ret : ∀ c s0 ds s d nb s', Mid c s0 ds s → neighbor W H c d = some nb →
    s.mazebuf nb = 0 → Post nb (carve W c d nb s) s' → Mid c s0 (d :: ds) s'
  exit : ∀ c s0 ds s, Mid c s0 ds s → (∀ d, d < 4 → d ∈ ds) → Post c s0 s

/-! ## Invariants of the generator -/

/-- Mask array after the passage between `b` and its east neighbour `b + 1` is opened. -/
def addE (m : Nat → Nat) (b : Nat) : Nat → Nat :=
  fun i => if i = b then m b ||| TILE_E else if i = b + 1 then m (b + 1) ||| TILE_W else m i

/-- Mask array after the passage between `b` and its south neighbour `b + W` is opened. -/
def addS (W : Nat) (m : Nat → Nat) (b : Nat) : Nat → Nat :=
  fun i => if i = b then m b ||| TILE_S else if i = b + W then m (b + W) ||| TILE_N else m i

/-- Every existing neighbour of cell `i` has a non-zero mask. -/
def closedAt (W H : Nat) (m : Nat → Nat) (i : Nat) : Prop :=
  ∀ d nb, neighbor W H i d = some nb → m nb ≠ 0

/-- The passages recorded in `m` form a tree on the cells with a non-zero mask together
with the cell `c` in focus. -/
structure TreeInv (W H c : Nat) (m : Nat → Nat) : Prop where
  cur : c < W * H
  conn : ∀ i, i < W * H → m i ≠ 0 → (mazeGraph W H m).Reachable c i
  count : passageCount W H m + 1
    = ((Finset.range (W * H)).filter (fun i => m i ≠ 0 ∨ i = c)).card
  acyc : (mazeGraph W H m).IsAcyclic

/-- Invariant of `mazebuf` at a call of `gen_maze_dfs(c)`. -/
def MazePre (W H c : Nat) (s : MazeState) : Prop := TreeInv W H c s.mazebuf

/-- Invariant of `mazebuf` in the neighbour loop of the call on `c` entered in `s0`. -/
def MazeMid (W H c : Nat) (s0 : MazeState) (ds : List Nat) (s : MazeState) : Prop :=
  TreeInv W H c s.mazebuf ∧
  (∀ i, s0.mazebuf i ≠ 0 → s.mazebuf i ≠ 0) ∧
  (∀ i, i < W * H → i ≠ c → s0.mazebuf i = 0 → s.mazebuf i ≠ 0 →
    closedAt W H s.mazebuf i) ∧
  (∀ d, d ∈ ds → ∀ nb, neighbor W H c d = some nb → s.mazebuf nb ≠ 0)

/-- Invariant of `mazebuf` when the call on `c` entered in `s0` returns. -/
def MazePost (W H c : Nat) (s0 s : MazeState) : Prop :=
  TreeInv W H c s.mazebuf ∧
  (∀ i, s0.mazebuf i ≠ 0 → s.mazebuf i ≠ 0) ∧
  (∀ i, i < W * H → (i = c ∨ (s0.mazebuf i = 0 ∧ s.mazebuf i ≠ 0)) →
    closedAt W H s.mazebuf i)

/-- Termination measure: the number of cells other than `c` whose mask is still zero. -/
def unvisited (W H c : Nat) (s : MazeState) : Nat :=
  ((Finset.range (W * H)).filter (fun i => s.mazebuf i = 0 ∧ i ≠ c)).card

/-- The picture agrees with the maze: within the image rows, a pixel bit is set exactly
when it is the pixel of a cell that has been entered, or the pixel between two cells joined
by an open passage. -/
def PixInv (W H : Nat) (entered : Nat → Prop) (s : MazeState) : Prop :=
  ∀ y x, y < IMG_PIX_H H → x < 8 * IMG_PACKED_ROW_W W →
    (pixel W s.filebuf y x = true ↔
      (∃ i, i < W * H ∧ entered i ∧ y = cellRow W i ∧ x = cellCol W i) ∨
      (∃ i, openE W H s.mazebuf i ∧ y = cellRow W i ∧ x = cellCol W i + 1) ∨
      (∃ i, openS W H s.mazebuf i ∧ y = cellRow W i + 1 ∧ x = cellCol W i))

/-- Invariant of the picture at a call of `gen_maze_dfs(c)`: the entered cells are those
with a non-zero mask other than `c`. -/
def FilePre (W H c : Nat) (s : MazeState) : Prop :=
  c < W * H ∧ PixInv W H (fun i => s.mazebuf i ≠ 0 ∧ i ≠ c) s

/-- Invariant of the picture in the neighbour loop of the call on `c`. -/
def FileMid (W H c : Nat) (s0 : MazeState) (_ds : List Nat) (s : MazeState) : Prop :=
  c < W * H ∧ (∀ i, s0.mazebuf i ≠ 0 → s.mazebuf i ≠ 0) ∧
    PixInv W H (fun i => s.mazebuf i ≠ 0 ∨ i = c) s

/-- Invariant of the picture when the call on `c` returns. -/
def FilePost (W H c : Nat) (s0 s : MazeState) : Prop :=
  (∀ i, s0.mazebuf i ≠ 0 → s.mazebuf i ≠ 0) ∧
    PixInv W H (fun i => s.mazebuf i ≠ 0 ∨ i = c) s

/-- The pixel of cell `i` is set. -/
def cellPix (W : Nat) (s : MazeState) (i : Nat) : Prop :=
  pixel W s.filebuf (cellRow W i) (cellCol W i) = true

/-- Pixel bits that are set in `s0` are set in `s`, and masks that are non-zero stay so. -/
def Grows (W : Nat) (s0 s : MazeState) : Prop :=
  (∀ i, s0.mazebuf i ≠ 0 → s.mazebuf i ≠ 0) ∧
  (∀ y x, x < 8 * IMG_PACKED_ROW_W W → pixel W s0.filebuf y x = true →
    pixel W s.filebuf y x = true)

/-- Invariant for the visitation pixels at a call of `gen_maze_dfs(c)`. -/
def VisitPre (W H c : Nat) (_s : MazeState) : Prop := c < W * H

/-- Invariant for the visitation pixels in the neighbour loop of the call on `c`: the pixel
of `c` and of every cell marked since the call was entered is set. -/
def VisitMid (W H c : Nat) (s0 : MazeState) (_ds : List Nat) (s : MazeState) : Prop :=
  c < W * H ∧ Grows W s0 s ∧ cellPix W s c ∧
    ∀ i, i < W * H → i ≠ c → s0.mazebuf i = 0 → s.mazebuf i ≠ 0 → cellPix W s i

/-- Invariant for the visitation pixels when the call on `c` returns. -/
def VisitPost (W H c : Nat) (s0 s : MazeState) : Prop :=
  Grows W s0 s ∧ cellPix W s c ∧
    ∀ i, i < W * H → s0.mazebuf i = 0 → s.mazebuf i ≠ 0 → cellPix W s i

/-- The order of `dirs` after the shuffle loop as a function of the three reduced draws
`j3 = rand() % 4`, `j2 = rand() % 3`, `j1 = rand() % 2`. -/
def shuffleOf (j3 j2 j1 : Nat) : List Nat :=
  swapDirs (swapDirs (swapDirs [NORTH, EAST, SOUTH, WEST] 3 j3) 2 j2) 1 j1

/-- Direction flags only point to existing neighbours that carry the opposite flag, and no
mask has a bit outside the four flags. -/
def FlagsOK (W H : Nat) (m : Nat → Nat) : Prop :=
  ∀ i, i < W * H →
    m i < 16 ∧
    (hasFlag (m i) TILE_N → W ≤ i ∧ hasFlag (m (i - W)) TILE_S) ∧
    (hasFlag (m i) TILE_E → i % W ≠ W - 1 ∧ hasFlag (m (i + 1)) TILE_W) ∧
    (hasFlag (m i) TILE_S → i + W < W * H ∧ hasFlag (m (i + W)) TILE_N) ∧
    (hasFlag (m i) TILE_W → i % W ≠ 0 ∧ hasFlag (m (i - 1)) TILE_E)

/-- The masks are symmetric and in bounds, in the form of the specification: a cell has a
flag exactly when the neighbour in that direction exists and has the opposite flag; and no
mask has a bit outside `TILE_N | TILE_E | TILE_S | TILE_W`. -/
def FlagsMatch (W H : Nat) (m : Nat → Nat) : Prop :=
  ∀ i, i < W * H →
    (hasFlag (m i) TILE_N ↔ W ≤ i ∧ hasFlag (m (i - W)) TILE_S) ∧
    (hasFlag (m i) TILE_E ↔ i % W ≠ W - 1 ∧ hasFlag (m (i + 1)) TILE_W) ∧
    (hasFlag (m i) TILE_S ↔ i + W < W * H ∧ hasFlag (m (i + W)) TILE_N) ∧
    (hasFlag (m i) TILE_W ↔ i % W ≠ 0 ∧ hasFlag (m (i - 1)) TILE_E) ∧
    m i &&& (TILE_N ||| TILE_E ||| TILE_S ||| TILE_W) = m i

/-- Invariant of the flags at a call and in the neighbour loop. -/
def FlagsPre (W H c : Nat) (s : MazeState) : Prop := c < W * H ∧ FlagsOK W H s.mazebuf

/-- Invariant of the flags in the neighbour loop. -/
def FlagsMid (W H c : Nat) (_s0 : MazeState) (_ds : List Nat) (s : MazeState) : Prop :=
  c < W * H ∧ FlagsOK W H s.mazebuf

/-- Invariant of the flags when a call returns. -/
def FlagsPost (W H : Nat) (_c : Nat) (_s0 s : MazeState) : Prop := FlagsOK W H s.mazebuf

/-- No `int` computation of the build `MAZE_W = W`, `MAZE_H = H` exceeds `INT_MAX`: neither
the numerator `PIX_BIT * IMG_PIX_W + 31` in the macro `IMG_PACKED_ROW_W`, nor the bit index
assigned to `req_bit` for the last cell, which is the largest bit index; `MAZE_A`,
`FILE_SZ` and the byte offsets then fit as well. -/
def IntFits (W H : Nat) : Prop :=
  PIX_BIT * IMG_PIX_W W + 31 ≤ INT_MAX ∧ reqBitIndex W (W * H - 1) ≤ INT_MAX

instance (W H : Nat) : Decidable (IntFits W H) := by
  unfold IntFits
  infer_instance

/-- Invariant at a call of `gen_maze_dfs(c)`: no `int` has overflowed. -/
def FitsPre (W H c : Nat) (s : MazeState) : Prop := c < W * H ∧ s.overflow = false

/-- Invariant in the neighbour loop: no `int` has overflowed. -/
def FitsMid (W H c : Nat) (_s0 : MazeState) (_ds : List Nat) (s : MazeState) : Prop :=
  c < W * H ∧ s.overflow = false

/-- Invariant when a call returns: no `int` has overflowed. -/
def FitsPost (_c : Nat) (_s0 s : MazeState) : Prop := s.overflow = false

/-- At a call of `gen_maze_dfs(c)`: the bit index of `c` does not fit, or an `int` has
overflowed before. -/
def OvfPre (W c : Nat) (s : MazeState) : Prop :=
  INT_MAX < reqBitIndex W c ∨ s.overflow = true

/-- In the neighbour loop of a call that started as in `OvfPre`: an `int` has overflowed. -/
def OvfMid (_c : Nat) (_s0 : MazeState) (_ds : List Nat) (s : MazeState) : Prop :=
  s.overflow = true

/-- When a call that started as in `OvfPre` returns: an `int` has overflowed. -/
def OvfPost (_c : Nat) (_s0 s : MazeState) : Prop := s.overflow = true

/-- In the neighbour loop of the call on `c` entered in `s0`: masks and `overflow` only grow,
and `overflow` is raised if the bit index of `c` or of a cell marked since does not fit. -/
def RaisedMid (W H c : Nat) (s0 : MazeState) (_ds : List Nat) (s : MazeState) : Prop :=
  c < W * H ∧ (∀ i, s0.mazebuf i ≠ 0 → s.mazebuf i ≠ 0) ∧
  (s0.overflow = true → s.overflow = true) ∧
  ∀ i, (i = c ∨ (s0.mazebuf i = 0 ∧ s.mazebuf i ≠ 0)) → INT_MAX < reqBitIndex W i →
    s.overflow = true

/-- When the call on `c` entered in `s0` returns: as `RaisedMid`. -/
def RaisedPost (W c : Nat) (s0 s : MazeState) : Prop :=
  (∀ i, s0.mazebuf i ≠ 0 → s.mazebuf i ≠ 0) ∧
  (s0.overflow = true → s.overflow = true) ∧
  ∀ i, (i = c ∨ (s0.mazebuf i = 0 ∧ s.mazebuf i ≠ 0)) → INT_MAX < reqBitIndex W i →
    s.overflow = true

/-- Claim C1, evaluated on the code: for `MAZE_W = MAZE_H = 4` the macros give image width 9,
height 9 and pixel data offset 32, but the row stride `IMG_PACKED_ROW_W` is 5 bytes (not 4)
and the file size `FILE_SZ` is `32 + 9*5 = 77` bytes (not 68). -/
theorem C1_geometry_4x4 :
    IMG_PIX_W 4 = 9 ∧ IMG_PIX_H 4 = 9 ∧ IMG_OFFSET = 14 + 12 + 6 ∧ IMG_OFFSET = 32 ∧
      IMG_PACKED_ROW_W 4 = 5 ∧ FILE_SZ 4 4 = 32 + 9 * 5 ∧ FILE_SZ 4 4 = 77 := by
  decide

/-- Claim C2, evaluated on the code: for maze width 4 the row stride used by the program is
5 bytes, which is not a multiple of 4 and differs from the 4 bytes that rounding
`ceil(9/8) = 2` up to a 4-byte boundary gives. -/
theorem C2_row_stride_width4 :
    IMG_PACKED_ROW_W 4 = 5 ∧ IMG_PACKED_ROW_W 4 % 4 ≠ 0 ∧ rowStrideSpec 4 = 4 ∧
      IMG_PACKED_ROW_W 4 ≠ rowStrideSpec 4 := by
  decide

/-- Claim C3: in the reference configuration (256 x 256), on either host byte order, the
header writers turn the zero-initialised `filebuf` into: magic "BM", little-endian file size
`34916 = 32 + 68*513`, zero reserved bytes 6-9, pixel data offset 32, header size 12, width
513, height 513, 1 plane, 1 bit per pixel, colour table 0,0,0,255,255,255; all of them byte
values; and the row stride 68 is a multiple of 4 that holds 513 bits. -/
theorem C3_reference_header (be : Bool) :
    referenceHeader be 0 = ('B').toNat ∧ referenceHeader be 1 = ('M').toNat ∧
    decode_le32 (referenceHeader be) 2 = 34916 ∧ FILE_SZ 256 256 = 34916 ∧
    32 + 68 * 513 = 34916 ∧
    (referenceHeader be 6 = 0 ∧ referenceHeader be 7 = 0 ∧ referenceHeader be 8 = 0 ∧
      referenceHeader be 9 = 0) ∧
    decode_le32 (referenceHeader be) 10 = 32 ∧ decode_le32 (referenceHeader be) 14 = 12 ∧
    decode_le16 (referenceHeader be) 18 = 513 ∧ decode_le16 (referenceHeader be) 20 = 513 ∧
    decode_le16 (referenceHeader be) 22 = 1 ∧ decode_le16 (referenceHeader be) 24 = 1 ∧
    (referenceHeader be 26 = 0 ∧ referenceHeader be 27 = 0 ∧ referenceHeader be 28 = 0) ∧
    (referenceHeader be 29 = 255 ∧ referenceHeader be 30 = 255 ∧
      referenceHeader be 31 = 255) ∧
    (∀ k < 32, referenceHeader be k < 256) ∧
    IMG_PACKED_ROW_W 256 = 68 ∧ 68 % 4 = 0 ∧ 513 ≤ 68 * 8 := by
  cases be <;> decide

/-! ## The code computes the abstract view -/

theorem stride_pos (W : Nat) : 4 ≤ IMG_PACKED_ROW_W W := by
  unfold IMG_PACKED_ROW_W IMG_PIX_W PIX_BIT TILE_PIX_W
  omega

theorem stride_bits (W : Nat) : 2 * W + 25 ≤ 8 * IMG_PACKED_ROW_W W := by
  unfold IMG_PACKED_ROW_W IMG_PIX_W PIX_BIT TILE_PIX_W
  omega

theorem req_byte_eq (r S q : Nat) :
    (r * S * 8 * 2 + q * 2 + 1) / 8 = 2 * (r * S) + (2 * q + 1) / 8 := by
  have hrS : r * S * 8 * 2 = 8 * (2 * (r * S)) := by ring
  rw [hrS]; omega

theorem req_bit_eq (r S q : Nat) :
    (r * S * 8 * 2 + q * 2 + 1) % 8 = (2 * q + 1) % 8 := by
  have hrS : r * S * 8 * 2 = 8 * (2 * (r * S)) := by ring
  rw [hrS]; omega

theorem orFile_congr (s : MazeState) {a b m n : Nat} (h1 : a = b) (h2 : m = n) :
    s.orFile a m = s.orFile b n := by
  rw [h1, h2]

theorem orFile_cell (W c : Nat) (s : MazeState) :
    s.orFile (img_data W (((c / W * IMG_PACKED_ROW_W W * 8 * 2) + (c % W * 2) + 1) / 8))
        (0x80 >>> (((c / W * IMG_PACKED_ROW_W W * 8 * 2) + (c % W * 2) + 1) % 8))
      = setPixel W s (cellRow W c) (cellCol W c) := by
  unfold setPixel img_data cellRow cellCol
  rw [req_byte_eq, req_bit_eq]
  apply orFile_congr
  · have : (2 * (c / W) + 1) * IMG_PACKED_ROW_W W
        = 2 * (c / W * IMG_PACKED_ROW_W W) + IMG_PACKED_ROW_W W := by ring
    rw [this]; omega
  · rfl

theorem orFile_north (W c : Nat) (s : MazeState) :
    s.orFile (img_data W (((c / W * IMG_PACKED_ROW_W W * 8 * 2) + (c % W * 2) + 1) / 8)
          - IMG_PACKED_ROW_W W)
        (0x80 >>> (((c / W * IMG_PACKED_ROW_W W * 8 * 2) + (c % W * 2) + 1) % 8))
      = setPixel W s (passRow W c NORTH) (passCol W c NORTH) := by
  have hr : passRow W c NORTH = 2 * (c / W) := by simp [passRow, cellRow]
  have hc : passCol W c NORTH = 2 * (c % W) + 1 := by simp [passCol, cellCol, NORTH, EAST, WEST]
  rw [hr, hc]
  unfold setPixel img_data
  rw [req_byte_eq, req_bit_eq]
  apply orFile_congr
  · have : 2 * (c / W) * IMG_PACKED_ROW_W W = 2 * (c / W * IMG_PACKED_ROW_W W) := by ring
    rw [this]; omega
  · rfl

theorem orFile_south (W c : Nat) (s : MazeState) :
    s.orFile (img_data W (((c / W * IMG_PACKED_ROW_W W * 8 * 2) + (c % W * 2) + 1) / 8)
          + IMG_PACKED_ROW_W W)
        (0x80 >>> (((c / W * IMG_PACKED_ROW_W W * 8 * 2) + (c % W * 2) + 1) % 8))
      = setPixel W s (passRow W c SOUTH) (passCol W c SOUTH) := by
  have hr : passRow W c SOUTH = 2 * (c / W) + 2 := by simp [passRow, cellRow, NORTH, SOUTH]
  have hc : passCol W c SOUTH = 2 * (c % W) + 1 := by simp [passCol, cellCol, SOUTH, EAST, WEST]
  rw [hr, hc]
  unfold setPixel img_data
  rw [req_byte_eq, req_bit_eq]
  apply orFile_congr
  · have : (2 * (c / W) + 2) * IMG_PACKED_ROW_W W
        = 2 * (c / W * IMG_PACKED_ROW_W W) + IMG_PACKED_ROW_W W + IMG_PACKED_ROW_W W := by ring
    rw [this]; omega
  · rfl

theorem orFile_east (W c : Nat) (s : MazeState) :
    (if ((c / W * IMG_PACKED_ROW_W W * 8 * 2) + (c % W * 2) + 1) % 8 = 7 then
        s.orFile (img_data W
          ((((c / W * IMG_PACKED_ROW_W W * 8 * 2) + (c % W * 2) + 1) / 8) + 1)) 0x80
      else
        s.orFile (img_data W (((c / W * IMG_PACKED_ROW_W W * 8 * 2) + (c % W * 2) + 1) / 8))
          (0x80 >>> (((((c / W * IMG_PACKED_ROW_W W * 8 * 2) + (c % W * 2) + 1) % 8) % 8) + 1)))
      = setPixel W s (passRow W c EAST) (passCol W c EAST) := by
  have hr : passRow W c EAST = 2 * (c / W) + 1 := by simp [passRow, cellRow, NORTH, SOUTH, EAST]
  have hc : passCol W c EAST = 2 * (c % W) + 2 := by simp [passCol, cellCol, EAST]
  rw [hr, hc]
  unfold setPixel img_data
  rw [req_byte_eq, req_bit_eq]
  have hmul : (2 * (c / W) + 1) * IMG_PACKED_ROW_W W
      = 2 * (c / W * IMG_PACKED_ROW_W W) + IMG_PACKED_ROW_W W := by ring
  rw [hmul]
  by_cases h7 : (2 * (c % W) + 1) % 8 = 7
  · rw [if_pos h7]
    apply orFile_congr
    · omega
    · have : (2 * (c % W) + 2) % 8 = 0 := by omega
      rw [this]; rfl
  · rw [if_neg h7]
    apply orFile_congr
    · omega
    · have : (2 * (c % W) + 1) % 8 % 8 + 1 = (2 * (c % W) + 2) % 8 := by omega
      rw [this]

theorem orFile_west (W c : Nat) (s : MazeState) :
    (if ((c / W * IMG_PACKED_ROW_W W * 8 * 2) + (c % W * 2) + 1) % 8 ≠ 0 then
        s.orFile (img_data W (((c / W * IMG_PACKED_ROW_W W * 8 * 2) + (c % W * 2) + 1) / 8))
          (0x80 >>> (((((c / W * IMG_PACKED_ROW_W W * 8 * 2) + (c % W * 2) + 1) % 8) % 8) - 1))
      else
        s.orFile (img_data W (((c / W * IMG_PACKED_ROW_W W * 8 * 2) + (c % W * 2) + 1) / 8) - 1)
          (0x80 >>> 7))
      = setPixel W s (passRow W c WEST) (passCol W c WEST) := by
  have hr : passRow W c WEST = 2 * (c / W) + 1 := by simp [passRow, cellRow, NORTH, SOUTH, WEST]
  have hc : passCol W c WEST = 2 * (c % W) := by simp [passCol, cellCol, EAST, WEST]
  rw [hr, hc]
  unfold setPixel img_data
  rw [req_byte_eq, req_bit_eq]
  have hmul : (2 * (c / W) + 1) * IMG_PACKED_ROW_W W
      = 2 * (c / W * IMG_PACKED_ROW_W W) + IMG_PACKED_ROW_W W := by ring
  rw [hmul]
  have h0 : (2 * (c % W) + 1) % 8 ≠ 0 := by omega
  rw [if_pos h0]
  apply orFile_congr
  · omega
  · have : (2 * (c % W) + 1) % 8 % 8 - 1 = (2 * (c % W)) % 8 := by omega
    rw [this]

theorem visit_dir_eq_step (W H : Nat) (call : Nat → MazeState → Option MazeState)
    (c d : Nat) (s : MazeState) :
    visit_dir W H call c (c % W)
        (((c / W * IMG_PACKED_ROW_W W * 8 * 2) + (c % W * 2) + 1) / 8)
        (((c / W * IMG_PACKED_ROW_W W * 8 * 2) + (c % W * 2) + 1) % 8) d s
      = step W H call c d s := by
  unfold visit_dir step neighbor carve
  simp only [orFile_north, orFile_south, orFile_east, orFile_west]
  by_cases h0 : d = NORTH
  · subst h0
    simp only [if_true, ge_iff_le, dirFlag, oppFlag]
    by_cases hg : W ≤ c
    · simp only [if_pos hg]; rfl
    · simp only [if_neg hg]
  · by_cases h1 : d = EAST
    · subst h1
      simp only [h0, if_true, if_false, dirFlag, oppFlag]
      by_cases hg : c % W ≠ W - 1
      · simp only [if_pos hg]; rfl
      · simp only [if_neg hg]
    · by_cases h2 : d = SOUTH
      · subst h2
        simp only [h0, h1, if_true, if_false, dirFlag, oppFlag]
        by_cases hg : c < MAZE_A W H - W
        · simp only [if_pos hg]; rfl
        · simp only [if_neg hg]
      · by_cases h3 : d = WEST
        · subst h3
          simp only [h0, h1, h2, if_true, if_false, dirFlag, oppFlag]
          by_cases hg : c % W ≠ 0
          · simp only [if_pos hg]; rfl
          · simp only [if_neg hg]
        · simp only [h0, h1, h2, h3, if_false]

theorem dfs_body_eq (W H : Nat) (rng : Nat → Nat)
    (call : Nat → MazeState → Option MazeState) (c : Nat) (s : MazeState) :
    dfs_body W H rng call c s
      = (dirOrder rng s.draws).foldlM (fun s d => step W H call c d s) (enter W c s) := by
  unfold dfs_body dirOrder enter reqBitIndex
  simp only [visit_dir_eq_step, orFile_cell, List.foldlM_map]

/-! ## Proof rules for the recursion -/

theorem shuffle_complete (rng : Nat → Nat) (k d : Nat) (hd : d < 4) :
    d ∈ dirOrder rng k := by
  unfold dirOrder shuffle_dirs
  have h3 : rng k % (3 + 1) < 4 := Nat.mod_lt _ (by norm_num)
  have h2 : rng (k + 1) % (2 + 1) < 3 := Nat.mod_lt _ (by norm_num)
  have h1 : rng (k + 2) % (1 + 1) < 2 := Nat.mod_lt _ (by norm_num)
  generalize rng k % (3 + 1) = a at h3
  generalize rng (k + 1) % (2 + 1) = b at h2
  generalize rng (k + 2) % (1 + 1) = e at h1
  interval_cases a <;> interval_cases b <;> interval_cases e <;> interval_cases d <;> decide

theorem step_partial {W H : Nat} {Pre : Nat → MazeState → Prop}
    {Mid : Nat → MazeState → List Nat → MazeState → Prop}
    {Post : Nat → MazeState → MazeState → Prop} (R : DfsRule W H Pre Mid Post)
    (call : Nat → MazeState → Option MazeState)
    (hcall : ∀ nb s s', Pre nb s → call nb s = some s' → Post nb s s')
    (c : Nat) (s0 : MazeState) (ds : List Nat) (d : Nat) (s s' : MazeState)
    (hm : Mid c s0 ds s) (hs : step W H call c d s = some s') : Mid c s0 (d :: ds) s' := by
  unfold step at hs
  cases hn : neighbor W H c d with
  | none =>
    rw [hn] at hs
    simp only [Option.some.injEq] at hs
    subst hs
    exact R.absent c s0 ds s d hm hn
  | some nb =>
    rw [hn] at hs
    simp only [TILE_UNVISITED] at hs
    by_cases hz : s.mazebuf nb = 0
    · rw [if_pos hz] at hs
      exact R.ret c s0 ds s d nb s' hm hn hz (hcall nb _ s' (R.call c s0 ds s d nb hm hn hz) hs)
    · rw [if_neg hz] at hs
      simp only [Option.some.injEq] at hs
      subst hs
      exact R.seen c s0 ds s d nb hm hn hz

theorem loop_partial {W H : Nat} {Pre : Nat → MazeState → Prop}
    {Mid : Nat → MazeState → List Nat → MazeState → Prop}
    {Post : Nat → MazeState → MazeState → Prop} (R : DfsRule W H Pre Mid Post)
    (call : Nat → MazeState → Option MazeState)
    (hcall : ∀ nb s s', Pre nb s → call nb s = some s' → Post nb s s')
    (c : Nat) (s0 : MazeState) (l : List Nat) :
    ∀ (ds : List Nat) (s s' : MazeState), Mid c s0 ds s →
      l.foldlM (fun s d => step W H call c d s) s = some s' →
      Mid c s0 (l.reverse ++ ds) s' := by
  induction l with
  | nil =>
    intro ds s s' hm hs
    simp only [List.foldlM_nil] at hs
    have : s = s' := by simpa using hs
    subst this
    simpa using hm
  | cons d l ih =>
    intro ds s s' hm hs
    rw [List.foldlM_cons] at hs
    cases h1 : step W H call c d s with
    | none => rw [h1] at hs; simp at hs
    | some s1 =>
      rw [h1] at hs
      have hm1 := step_partial R call hcall c s0 ds d s s1 hm h1
      have := ih (d :: ds) s1 s' hm1 (by simpa using hs)
      simpa using this

/-- Partial correctness: an invariant that satisfies the obligations of `DfsRule` holds
of every call of `gen_maze_dfs` that returns. -/
theorem dfsRule_partial {W H : Nat} {Pre : Nat → MazeState → Prop}
    {Mid : Nat → MazeState → List Nat → MazeState → Prop}
    {Post : Nat → MazeState → MazeState → Prop} (R : DfsRule W H Pre Mid Post)
    (rng : Nat → Nat) :
    ∀ (fuel c : Nat) (s s' : MazeState), Pre c s →
      gen_maze_dfs W H rng fuel c s = some s' → Post c s s' := by
  intro fuel
  induction fuel with
  | zero => intro c s s' _ h; simp [gen_maze_dfs] at h
  | succ n ih =>
    intro c s s' hpre h
    rw [gen_maze_dfs, dfs_body_eq] at h
    have hm := loop_partial R (gen_maze_dfs W H rng n) ih c s (dirOrder rng s.draws) []
      (enter W c s) s' (R.enter c s hpre) h
    apply R.exit c s _ s' hm
    intro d hd
    simpa using shuffle_complete rng s.draws d hd

theorem step_total {W H : Nat} {Pre : Nat → MazeState → Prop}
    {Mid : Nat → MazeState → List Nat → MazeState → Prop}
    {Post : Nat → MazeState → MazeState → Prop} (R : DfsRule W H Pre Mid Post)
    (mu : Nat → MazeState → Nat)
    (hmu : ∀ c s0 ds s d nb, Mid c s0 ds s → neighbor W H c d = some nb →
      s.mazebuf nb = 0 → mu nb (carve W c d nb s) < mu c s0)
    (n : Nat) (call : Nat → MazeState → Option MazeState)
    (hcall : ∀ nb s, Pre nb s → mu nb s < n → ∃ s', call nb s = some s' ∧ Post nb s s')
    (c : Nat) (s0 : MazeState) (hn : mu c s0 < n + 1) (ds : List Nat) (d : Nat)
    (s : MazeState) (hm : Mid c s0 ds s) :
    ∃ s', step W H call c d s = some s' ∧ Mid c s0 (d :: ds) s' := by
  unfold step
  cases hnb : neighbor W H c d with
  | none => exact ⟨s, rfl, R.absent c s0 ds s d hm hnb⟩
  | some nb =>
    simp only [TILE_UNVISITED]
    by_cases hz : s.mazebuf nb = 0
    · rw [if_pos hz]
      have hlt := hmu c s0 ds s d nb hm hnb hz
      obtain ⟨s', h1, h2⟩ := hcall nb _ (R.call c s0 ds s d nb hm hnb hz) (by omega)
      exact ⟨s', h1, R.ret c s0 ds s d nb s' hm hnb hz h2⟩
    · rw [if_neg hz]
      exact ⟨_, rfl, R.seen c s0 ds s d nb hm hnb hz⟩

theorem loop_total {W H : Nat} {Pre : Nat → MazeState → Prop}
    {Mid : Nat → MazeState → List Nat → MazeState → Prop}
    {Post : Nat → MazeState → MazeState → Prop} (R : DfsRule W H Pre Mid Post)
    (mu : Nat → MazeState → Nat)
    (hmu : ∀ c s0 ds s d nb, Mid c s0 ds s → neighbor W H c d = some nb →
      s.mazebuf nb = 0 → mu nb (carve W c d nb s) < mu c s0)
    (n : Nat) (call : Nat → MazeState → Option MazeState)
    (hcall : ∀ nb s, Pre nb s → mu nb s < n → ∃ s', call nb s = some s' ∧ Post nb s s')
    (c : Nat) (s0 : MazeState) (hn : mu c s0 < n + 1) (l : List Nat) :
    ∀ (ds : List Nat) (s : MazeState), Mid c s0 ds s →
      ∃ s', l.foldlM (fun s d => step W H call c d s) s = some s' ∧
        Mid c s0 (l.reverse ++ ds) s' := by
  induction l with
  | nil =>
    intro ds s hm
    exact ⟨s, rfl, by simpa using hm⟩
  | cons d l ih =>
    intro ds s hm
    obtain ⟨s1, h1, hm1⟩ := step_total R mu hmu n call hcall c s0 hn ds d s hm
    obtain ⟨s', h2, hm2⟩ := ih (d :: ds) s1 hm1
    refine ⟨s', ?_, by simpa using hm2⟩
    rw [List.foldlM_cons, h1]
    simpa using h2

/-- Total correctness: with a measure that decreases at every recursive call, fuel
above the measure makes the call return, in a state where the invariant holds. -/
theorem dfsRule_total {W H : Nat} {Pre : Nat → MazeState → Prop}
    {Mid : Nat → MazeState → List Nat → MazeState → Prop}
    {Post : Nat → MazeState → MazeState → Prop} (R : DfsRule W H Pre Mid Post)
    (mu : Nat → MazeState → Nat)
    (hmu : ∀ c s0 ds s d nb, Mid c s0 ds s → neighbor W H c d = some nb →
      s.mazebuf nb = 0 → mu nb (carve W c d nb s) < mu c s0)
    (rng : Nat → Nat) :
    ∀ (fuel c : Nat) (s : MazeState), Pre c s → mu c s < fuel →
      ∃ s', gen_maze_dfs W H rng fuel c s = some s' ∧ Post c s s' := by
  intro fuel
  induction fuel with
  | zero => intro c s _ h; omega
  | succ n ih =>
    intro c s hpre hlt
    obtain ⟨s', h1, hm⟩ := loop_total R mu hmu n (gen_maze_dfs W H rng n) ih c s hlt
      (dirOrder rng s.draws) [] (enter W c s) (R.enter c s hpre)
    refine ⟨s', ?_, ?_⟩
    · rw [gen_maze_dfs, dfs_body_eq]; exact h1
    · apply R.exit c s _ s' hm
      intro d hd
      simpa using shuffle_complete rng s.draws d hd

/-! ## Arithmetic of cell indices -/

theorem or_eq_zero_iff (a b : Nat) : a ||| b = 0 ↔ a = 0 ∧ b = 0 := by
  constructor
  · intro h
    constructor
    · apply Nat.eq_of_testBit_eq
      intro i
      have := congrArg (fun n => Nat.testBit n i) h
      simp only [Nat.testBit_or, Nat.zero_testBit, Bool.or_eq_false_iff] at this
      simp [this.1]
    · apply Nat.eq_of_testBit_eq
      intro i
      have := congrArg (fun n => Nat.testBit n i) h
      simp only [Nat.testBit_or, Nat.zero_testBit, Bool.or_eq_false_iff] at this
      simp [this.2]
  · rintro ⟨rfl, rfl⟩; rfl

theorem and_or_right (a b c : Nat) : (a ||| b) &&& c = (a &&& c) ||| (b &&& c) := by
  apply Nat.eq_of_testBit_eq
  intro i
  simp only [Nat.testBit_and, Nat.testBit_or]
  cases a.testBit i <;> cases b.testBit i <;> cases c.testBit i <;> rfl

theorem hasFlag_or (m f g : Nat) : hasFlag (m ||| f) g ↔ hasFlag m g ∨ hasFlag f g := by
  unfold hasFlag
  rw [and_or_right, Ne, or_eq_zero_iff]
  tauto

theorem hasFlag_zero (g : Nat) : ¬ hasFlag 0 g := by
  unfold hasFlag; simp

theorem divmod_of_eq {W x q r : Nat} (hr : r < W) (hx : x = W * q + r) :
    x / W = q ∧ x % W = r := by
  have hW : 0 < W := by omega
  subst hx
  constructor
  · rw [Nat.mul_add_div hW, Nat.div_eq_of_lt hr]; rfl
  · rw [Nat.mul_add_mod, Nat.mod_eq_of_lt hr]

theorem cell_row_lt {W H c : Nat} (hc : c < W * H) : c / W < H :=
  Nat.div_lt_of_lt_mul hc

theorem cell_col_lt {W H c : Nat} (hc : c < W * H) : c % W < W := by
  apply Nat.mod_lt
  rcases Nat.eq_zero_or_pos W with h | h
  · subst h; simp at hc
  · exact h

theorem cell_succ {W c : Nat} (h : c % W + 1 < W) :
    (c + 1) / W = c / W ∧ (c + 1) % W = c % W + 1 := by
  apply divmod_of_eq h
  have := Nat.div_add_mod c W
  omega

theorem cell_pred {W c : Nat} (hW : 0 < W) (h : c % W ≠ 0) :
    (c - 1) / W = c / W ∧ (c - 1) % W = c % W - 1 := by
  have hlt := Nat.mod_lt c hW
  apply divmod_of_eq (r := c % W - 1) (by omega)
  have := Nat.div_add_mod c W
  omega

theorem cell_add_W {W c : Nat} (hW : 0 < W) :
    (c + W) / W = c / W + 1 ∧ (c + W) % W = c % W := by
  have hlt := Nat.mod_lt c hW
  apply divmod_of_eq hlt
  have := Nat.div_add_mod c W
  rw [Nat.mul_add]
  omega

theorem cell_sub_W {W c : Nat} (hW : 0 < W) (h : W ≤ c) :
    (c - W) / W + 1 = c / W ∧ (c - W) % W = c % W := by
  have h1 := cell_add_W (c := c - W) hW
  have h2 : c - W + W = c := by omega
  rw [h2] at h1
  exact ⟨h1.1.symm, h1.2.symm⟩

theorem lt_of_row_col {W H c : Nat} (hW : 0 < W) (hr : c / W + 1 < H) :
    c + W < W * H := by
  have h1 := Nat.div_add_mod c W
  have hlt := Nat.mod_lt c hW
  have h2 : W * (c / W + 2) ≤ W * H := Nat.mul_le_mul_left W (by omega)
  rw [Nat.mul_add] at h2
  omega

theorem row_of_lt {W H c : Nat} (h : c + W < W * H) : c / W + 1 < H := by
  rcases Nat.eq_zero_or_pos W with h0 | hW
  · subst h0; simp at h
  · have := (cell_add_W (c := c) hW).1
    have h2 := cell_row_lt h
    omega

theorem succ_lt_of_col {W H c : Nat} (hc : c < W * H) (h : c % W + 1 < W) :
    c + 1 < W * H := by
  have h1 := Nat.div_add_mod c W
  have h2 : W * (c / W + 1) ≤ W * H := Nat.mul_le_mul_left W (cell_row_lt hc)
  rw [Nat.mul_add] at h2
  omega

theorem neighbor_some_iff (W H c d nb : Nat) :
    neighbor W H c d = some nb ↔
      (d = 0 ∧ W ≤ c ∧ nb = c - W) ∨ (d = 1 ∧ c % W ≠ W - 1 ∧ nb = c + 1) ∨
      (d = 2 ∧ c < W * H - W ∧ nb = c + W) ∨ (d = 3 ∧ c % W ≠ 0 ∧ nb = c - 1) := by
  unfold neighbor NORTH EAST SOUTH WEST MAZE_A
  by_cases h0 : d = 0
  · subst h0
    by_cases hg : W ≤ c <;> simp [hg, eq_comm]
  · by_cases h1 : d = 1
    · subst h1
      by_cases hg : c % W = W - 1 <;> simp [hg, eq_comm]
    · by_cases h2 : d = 2
      · subst h2
        by_cases hg : c < W * H - W <;> simp [hg, eq_comm]
      · by_cases h3 : d = 3
        · subst h3
          by_cases hg : c % W = 0 <;> simp [hg, eq_comm]
        · simp [h0, h1, h2, h3]

theorem neighbor_lt {W H c d nb : Nat} (hc : c < W * H) (hn : neighbor W H c d = some nb) :
    nb < W * H ∧ nb ≠ c ∧ d < 4 := by
  have hW : 0 < W := by
    rcases Nat.eq_zero_or_pos W with h | h
    · subst h; simp at hc
    · exact h
  have hcol := cell_col_lt hc
  have hle := Nat.mod_le c W
  rw [neighbor_some_iff] at hn
  rcases hn with ⟨hd, hg, rfl⟩ | ⟨hd, hg, rfl⟩ | ⟨hd, hg, rfl⟩ | ⟨hd, hg, rfl⟩
  · omega
  · have := succ_lt_of_col hc (by omega)
    omega
  · omega
  · omega

/-! ## Effect of carving on masks, passages and the passage graph -/

theorem tile_flags :
    hasFlag TILE_N TILE_N ∧ ¬ hasFlag TILE_N TILE_E ∧ ¬ hasFlag TILE_N TILE_S ∧
    ¬ hasFlag TILE_N TILE_W ∧ ¬ hasFlag TILE_E TILE_N ∧ hasFlag TILE_E TILE_E ∧
    ¬ hasFlag TILE_E TILE_S ∧ ¬ hasFlag TILE_E TILE_W ∧ ¬ hasFlag TILE_S TILE_N ∧
    ¬ hasFlag TILE_S TILE_E ∧ hasFlag TILE_S TILE_S ∧ ¬ hasFlag TILE_S TILE_W ∧
    ¬ hasFlag TILE_W TILE_N ∧ ¬ hasFlag TILE_W TILE_E ∧ ¬ hasFlag TILE_W TILE_S ∧
    hasFlag TILE_W TILE_W := by
  decide

theorem flags_addE (m : Nat → Nat) (b i : Nat) :
    (hasFlag (addE m b i) TILE_E ↔ hasFlag (m i) TILE_E ∨ i = b) ∧
    (hasFlag (addE m b i) TILE_W ↔ hasFlag (m i) TILE_W ∨ i = b + 1) ∧
    (hasFlag (addE m b i) TILE_S ↔ hasFlag (m i) TILE_S) ∧
    (hasFlag (addE m b i) TILE_N ↔ hasFlag (m i) TILE_N) := by
  obtain ⟨_, _, _, _, h5, h6, h7, h8, _, _, _, _, h13, h14, h15, h16⟩ := tile_flags
  unfold addE
  by_cases h1 : i = b
  · subst h1
    simp [hasFlag_or, h5, h6, h7, h8]
  · by_cases h2 : i = b + 1
    · subst h2
      simp [hasFlag_or, h13, h14, h15, h16]
    · simp [h1, h2]

theorem flags_addS {W : Nat} (hW : 0 < W) (m : Nat → Nat) (b i : Nat) :
    (hasFlag (addS W m b i) TILE_S ↔ hasFlag (m i) TILE_S ∨ i = b) ∧
    (hasFlag (addS W m b i) TILE_N ↔ hasFlag (m i) TILE_N ∨ i = b + W) ∧
    (hasFlag (addS W m b i) TILE_E ↔ hasFlag (m i) TILE_E) ∧
    (hasFlag (addS W m b i) TILE_W ↔ hasFlag (m i) TILE_W) := by
  obtain ⟨h1, h2, h3, h4, _, _, _, _, h9, h10, h11, h12, _, _, _, _⟩ := tile_flags
  unfold addS
  by_cases e1 : i = b
  · subst e1
    have : i ≠ i + W := by omega
    simp [hasFlag_or, h9, h10, h11, h12, this]
  · by_cases e2 : i = b + W
    · subst e2
      simp [hasFlag_or, h1, h2, h3, h4, e1]
    · simp [e1, e2]

theorem nonzero_addE (m : Nat → Nat) (b i : Nat) :
    addE m b i ≠ 0 ↔ m i ≠ 0 ∨ i = b ∨ i = b + 1 := by
  unfold addE
  by_cases h1 : i = b
  · subst h1
    simp [or_eq_zero_iff, TILE_E]
  · by_cases h2 : i = b + 1
    · subst h2
      simp [or_eq_zero_iff, TILE_W]
    · simp [h1, h2]

theorem nonzero_addS (W : Nat) (m : Nat → Nat) (b i : Nat) :
    addS W m b i ≠ 0 ↔ m i ≠ 0 ∨ i = b ∨ i = b + W := by
  unfold addS
  by_cases h1 : i = b
  · subst h1
    simp [or_eq_zero_iff, TILE_S]
  · by_cases h2 : i = b + W
    · subst h2
      simp only [if_neg h1, if_true]
      simp [or_eq_zero_iff, TILE_N]
    · simp [h1, h2]

theorem openE_addE {W H : Nat} (m : Nat → Nat) {b : Nat} (hb : b < W * H)
    (hcol : b % W + 1 < W) (j : Nat) :
    openE W H (addE m b) j ↔ openE W H m j ∨ j = b := by
  unfold openE
  rw [(flags_addE m b j).1, (flags_addE m b (j + 1)).2.1]
  constructor
  · rintro ⟨h1, h2, h3 | h3, h4 | h4⟩
    · exact Or.inl ⟨h1, h2, h3, h4⟩
    · right; omega
    · exact Or.inr h3
    · exact Or.inr h3
  · rintro (⟨h1, h2, h3, h4⟩ | h)
    · exact ⟨h1, h2, Or.inl h3, Or.inl h4⟩
    · subst h
      exact ⟨hb, hcol, Or.inr rfl, Or.inr rfl⟩

theorem openS_addE {W H : Nat} (m : Nat → Nat) (b j : Nat) :
    openS W H (addE m b) j ↔ openS W H m j := by
  unfold openS
  rw [(flags_addE m b j).2.2.1, (flags_addE m b (j + W)).2.2.2]

theorem openS_addS {W H : Nat} (m : Nat → Nat) {b : Nat} (hb : b + W < W * H) (j : Nat) :
    openS W H (addS W m b) j ↔ openS W H m j ∨ j = b := by
  have hW : 0 < W := by
    rcases Nat.eq_zero_or_pos W with h | h
    · subst h; simp at hb
    · exact h
  unfold openS
  rw [(flags_addS hW m b j).1, (flags_addS hW m b (j + W)).2.1]
  constructor
  · rintro ⟨h1, h3 | h3, h4 | h4⟩
    · exact Or.inl ⟨h1, h3, h4⟩
    · right; omega
    · exact Or.inr h3
    · exact Or.inr h3
  · rintro (⟨h1, h3, h4⟩ | h)
    · exact ⟨h1, Or.inl h3, Or.inl h4⟩
    · subst h
      exact ⟨hb, Or.inr rfl, Or.inr rfl⟩

theorem openE_addS {W H : Nat} (hW : 0 < W) (m : Nat → Nat) (b j : Nat) :
    openE W H (addS W m b) j ↔ openE W H m j := by
  unfold openE
  rw [(flags_addS hW m b j).2.2.1, (flags_addS hW m b (j + 1)).2.2.2]

theorem linked_addE {W H : Nat} (m : Nat → Nat) {b : Nat} (hb : b < W * H)
    (hcol : b % W + 1 < W) (x y : Nat) :
    Linked W H (addE m b) x y ↔ Linked W H m x y ∨ (x = b ∧ y = b + 1) ∨ (x = b + 1 ∧ y = b) := by
  unfold Linked
  simp only [openE_addE m hb hcol, openS_addE]
  constructor
  · rintro (⟨h1, h2 | h2⟩ | ⟨h1, h2 | h2⟩ | h | h)
    · exact Or.inl (Or.inl ⟨h1, h2⟩)
    · right; left; omega
    · exact Or.inl (Or.inr (Or.inl ⟨h1, h2⟩))
    · right; right; omega
    · exact Or.inl (Or.inr (Or.inr (Or.inl h)))
    · exact Or.inl (Or.inr (Or.inr (Or.inr h)))
  · rintro ((⟨h1, h2⟩ | ⟨h1, h2⟩ | h | h) | ⟨h1, h2⟩ | ⟨h1, h2⟩)
    · exact Or.inl ⟨h1, Or.inl h2⟩
    · exact Or.inr (Or.inl ⟨h1, Or.inl h2⟩)
    · exact Or.inr (Or.inr (Or.inl h))
    · exact Or.inr (Or.inr (Or.inr h))
    · exact Or.inl ⟨by omega, Or.inr h1⟩
    · exact Or.inr (Or.inl ⟨by omega, Or.inr h2⟩)

theorem linked_addS {W H : Nat} (m : Nat → Nat) {b : Nat} (hb : b + W < W * H)
    (x y : Nat) :
    Linked W H (addS W m b) x y ↔
      Linked W H m x y ∨ (x = b ∧ y = b + W) ∨ (x = b + W ∧ y = b) := by
  have hW : 0 < W := by
    rcases Nat.eq_zero_or_pos W with h | h
    · subst h; simp at hb
    · exact h
  unfold Linked
  simp only [openS_addS m hb, openE_addS hW]
  constructor
  · rintro (h | h | ⟨h1, h2 | h2⟩ | ⟨h1, h2 | h2⟩)
    · exact Or.inl (Or.inl h)
    · exact Or.inl (Or.inr (Or.inl h))
    · exact Or.inl (Or.inr (Or.inr (Or.inl ⟨h1, h2⟩)))
    · right; left; omega
    · exact Or.inl (Or.inr (Or.inr (Or.inr ⟨h1, h2⟩)))
    · right; right; omega
  · rintro ((h | h | ⟨h1, h2⟩ | ⟨h1, h2⟩) | ⟨h1, h2⟩ | ⟨h1, h2⟩)
    · exact Or.inl h
    · exact Or.inr (Or.inl h)
    · exact Or.inr (Or.inr (Or.inl ⟨h1, Or.inl h2⟩))
    · exact Or.inr (Or.inr (Or.inr ⟨h1, Or.inl h2⟩))
    · exact Or.inr (Or.inr (Or.inl ⟨by omega, Or.inr h1⟩))
    · exact Or.inr (Or.inr (Or.inr ⟨by omega, Or.inr h2⟩))

theorem not_linked_of_zero {W H : Nat} {m : Nat → Nat} {a : Nat} (h : m a = 0) (x : Nat) :
    ¬ Linked W H m a x := by
  unfold Linked openE openS
  rintro (⟨h1, h2⟩ | ⟨h1, h2⟩ | ⟨h1, h2⟩ | ⟨h1, h2⟩)
  · exact hasFlag_zero _ (h ▸ h2.2.2.1)
  · subst h1
    exact hasFlag_zero _ (h ▸ h2.2.2.2)
  · exact hasFlag_zero _ (h ▸ h2.2.1)
  · subst h1
    exact hasFlag_zero _ (h ▸ h2.2.2)

theorem count_addE {W H : Nat} (m : Nat → Nat) {b : Nat} (hb : b < W * H)
    (hcol : b % W + 1 < W) (hnew : ¬ openE W H m b) :
    passageCount W H (addE m b) = passageCount W H m + 1 := by
  unfold passageCount
  have h1 : (Finset.range (W * H)).filter (fun i => openE W H (addE m b) i)
      = insert b ((Finset.range (W * H)).filter (fun i => openE W H m i)) := by
    ext j
    simp only [Finset.mem_filter, Finset.mem_range, Finset.mem_insert, openE_addE m hb hcol]
    constructor
    · rintro ⟨_, h | h⟩
      · exact Or.inr ⟨by assumption, h⟩
      · exact Or.inl h
    · rintro (h | ⟨h1, h2⟩)
      · subst h; exact ⟨hb, Or.inr rfl⟩
      · exact ⟨h1, Or.inl h2⟩
  have h2 : (Finset.range (W * H)).filter (fun i => openS W H (addE m b) i)
      = (Finset.range (W * H)).filter (fun i => openS W H m i) := by
    apply Finset.filter_congr
    intro j _
    exact openS_addE m b j
  rw [h1, h2, Finset.card_insert_of_not_mem]
  · omega
  · simp [hnew]

theorem count_addS {W H : Nat} (m : Nat → Nat) {b : Nat} (hb : b + W < W * H)
    (hnew : ¬ openS W H m b) :
    passageCount W H (addS W m b) = passageCount W H m + 1 := by
  have hW : 0 < W := by
    rcases Nat.eq_zero_or_pos W with h | h
    · subst h; simp at hb
    · exact h
  unfold passageCount
  have h1 : (Finset.range (W * H)).filter (fun i => openS W H (addS W m b) i)
      = insert b ((Finset.range (W * H)).filter (fun i => openS W H m i)) := by
    ext j
    simp only [Finset.mem_filter, Finset.mem_range, Finset.mem_insert, openS_addS m hb]
    constructor
    · rintro ⟨_, h | h⟩
      · exact Or.inr ⟨by assumption, h⟩
      · exact Or.inl h
    · rintro (h | ⟨h1, h2⟩)
      · subst h; exact ⟨by omega, Or.inr rfl⟩
      · exact ⟨h1, Or.inl h2⟩
  have h2 : (Finset.range (W * H)).filter (fun i => openE W H (addS W m b) i)
      = (Finset.range (W * H)).filter (fun i => openE W H m i) := by
    apply Finset.filter_congr
    intro j _
    exact openE_addS hW m b j
  rw [h1, h2, Finset.card_insert_of_not_mem]
  · omega
  · simp [hnew]

theorem pos_of_cell {W H c : Nat} (hc : c < W * H) : 0 < W := by
  rcases Nat.eq_zero_or_pos W with h | h
  · subst h; simp at hc
  · exact h

/-- Every carving step opens either a horizontal passage at some base cell `b` (between
`b` and `b + 1`) or a vertical one (between `b` and `b + W`), and sets the pixel between
the two cell pixels. -/
theorem carve_shape {W H c d nb : Nat} (hc : c < W * H)
    (hn : neighbor W H c d = some nb) :
    (∃ b, b < W * H ∧ b % W + 1 < W ∧ ((c = b ∧ nb = b + 1) ∨ (c = b + 1 ∧ nb = b)) ∧
        (∀ s : MazeState, (carve W c d nb s).mazebuf = addE s.mazebuf b) ∧
        passRow W c d = cellRow W b ∧ passCol W c d = cellCol W b + 1) ∨
    (∃ b, b + W < W * H ∧ ((c = b ∧ nb = b + W) ∨ (c = b + W ∧ nb = b)) ∧
        (∀ s : MazeState, (carve W c d nb s).mazebuf = addS W s.mazebuf b) ∧
        passRow W c d = cellRow W b + 1 ∧ passCol W c d = cellCol W b) := by
  have hW := pos_of_cell hc
  have hcol := cell_col_lt hc
  have hle := Nat.mod_le c W
  rw [neighbor_some_iff] at hn
  rcases hn with ⟨hd, hg, rfl⟩ | ⟨hd, hg, rfl⟩ | ⟨hd, hg, rfl⟩ | ⟨hd, hg, rfl⟩
  · subst hd
    right
    refine ⟨c - W, by omega, Or.inr ⟨by omega, rfl⟩, ?_, ?_, ?_⟩
    · intro s
      funext i
      simp only [carve, setPixel, MazeState.orFile, MazeState.orMaze, MazeState.readMaze,
        setByte, addS, dirFlag, oppFlag, NORTH, if_true]
      have e : c - W + W = c := by omega
      rw [e]
      by_cases h1 : i = c - W
      · have h2 : c - W ≠ c := by omega
        simp [h1, h2]
      · simp [h1]
    · have := cell_sub_W hW hg
      simp only [passRow, cellRow, NORTH, if_true]
      omega
    · have := cell_sub_W hW hg
      simp only [passCol, cellCol, NORTH, EAST, WEST]
      simp
      omega
  · subst hd
    left
    refine ⟨c, hc, by omega, Or.inl ⟨rfl, rfl⟩, ?_, ?_, ?_⟩
    · intro s
      funext i
      simp only [carve, setPixel, MazeState.orFile, MazeState.orMaze, MazeState.readMaze,
        setByte, addE, dirFlag, oppFlag, NORTH, EAST]
      by_cases h1 : i = c + 1
      · have h2 : c + 1 ≠ c := by omega
        simp [h1, h2]
      · simp [h1]
    · simp [passRow, NORTH, SOUTH]
    · simp [passCol, EAST]
  · subst hd
    right
    refine ⟨c, by omega, Or.inl ⟨rfl, rfl⟩, ?_, ?_, ?_⟩
    · intro s
      funext i
      simp only [carve, setPixel, MazeState.orFile, MazeState.orMaze, MazeState.readMaze,
        setByte, addS, dirFlag, oppFlag, NORTH, EAST, SOUTH]
      by_cases h1 : i = c + W
      · have h2 : c + W ≠ c := by omega
        simp [h1, h2]
      · simp [h1]
    · simp [passRow, NORTH, SOUTH]
    · simp [passCol, EAST, WEST, SOUTH]
  · subst hd
    left
    have hp := cell_pred hW hg
    refine ⟨c - 1, by omega, by omega, Or.inr ⟨by omega, rfl⟩, ?_, ?_, ?_⟩
    · intro s
      funext i
      simp only [carve, setPixel, MazeState.orFile, MazeState.orMaze, MazeState.readMaze,
        setByte, addE, dirFlag, oppFlag, NORTH, EAST, SOUTH, WEST]
      have e : c - 1 + 1 = c := by omega
      rw [e]
      by_cases h1 : i = c - 1
      · have h2 : c - 1 ≠ c := by omega
        simp [h1, h2]
      · simp [h1]
    · simp only [passRow, cellRow, NORTH, SOUTH, WEST]
      simp
      omega
    · simp only [passCol, cellCol, EAST, WEST]
      simp
      omega

theorem carve_nonzero {W H c d nb : Nat} (hc : c < W * H)
    (hn : neighbor W H c d = some nb) (s : MazeState) (i : Nat) :
    (carve W c d nb s).mazebuf i ≠ 0 ↔ s.mazebuf i ≠ 0 ∨ i = c ∨ i = nb := by
  rcases carve_shape hc hn with ⟨b, _, _, hcb, hm, _, _⟩ | ⟨b, _, hcb, hm, _, _⟩
  · rw [hm s, nonzero_addE]
    rcases hcb with ⟨rfl, rfl⟩ | ⟨rfl, rfl⟩ <;> tauto
  · rw [hm s, nonzero_addS]
    rcases hcb with ⟨rfl, rfl⟩ | ⟨rfl, rfl⟩ <;> tauto

theorem carve_linked {W H c d nb : Nat} (hc : c < W * H)
    (hn : neighbor W H c d = some nb) (s : MazeState) (x y : Nat) :
    Linked W H (carve W c d nb s).mazebuf x y ↔
      Linked W H s.mazebuf x y ∨ (x = c ∧ y = nb) ∨ (x = nb ∧ y = c) := by
  rcases carve_shape hc hn with ⟨b, hb, hcol, hcb, hm, _, _⟩ | ⟨b, hb, hcb, hm, _, _⟩
  · rw [hm s, linked_addE _ hb hcol]
    rcases hcb with ⟨rfl, rfl⟩ | ⟨rfl, rfl⟩ <;> tauto
  · rw [hm s, linked_addS _ hb]
    rcases hcb with ⟨rfl, rfl⟩ | ⟨rfl, rfl⟩ <;> tauto

theorem carve_count {W H c d nb : Nat} (hc : c < W * H)
    (hn : neighbor W H c d = some nb) (s : MazeState) (hz : s.mazebuf nb = 0) :
    passageCount W H (carve W c d nb s).mazebuf = passageCount W H s.mazebuf + 1 := by
  rcases carve_shape hc hn with ⟨b, hb, hcol, hcb, hm, _, _⟩ | ⟨b, hb, hcb, hm, _, _⟩
  · rw [hm s]
    apply count_addE _ hb hcol
    unfold openE
    rintro ⟨_, _, h3, h4⟩
    rcases hcb with ⟨rfl, rfl⟩ | ⟨rfl, rfl⟩
    · rw [hz] at h4; exact hasFlag_zero _ h4
    · rw [hz] at h3; exact hasFlag_zero _ h3
  · rw [hm s]
    apply count_addS _ hb
    unfold openS
    rintro ⟨_, h3, h4⟩
    rcases hcb with ⟨rfl, rfl⟩ | ⟨rfl, rfl⟩
    · rw [hz] at h4; exact hasFlag_zero _ h4
    · rw [hz] at h3; exact hasFlag_zero _ h3

/-- Adding one edge to a vertex without edges keeps a graph acyclic. -/
theorem acyclic_add_pendant {V : Type} [DecidableEq V] {G G' : SimpleGraph V}
    (hG : G.IsAcyclic) (c nb : V)
    (hiso : ∀ x, ¬ G.Adj nb x)
    (hsub : ∀ a b, G'.Adj a b → G.Adj a b ∨ (a = c ∧ b = nb) ∨ (a = nb ∧ b = c)) :
    G'.IsAcyclic := by
  intro v p hp
  have hstep : ∀ x, G'.Adj nb x → x = c := by
    intro x hx
    rcases hsub nb x hx with h | h | h
    · exact absurd h (hiso x)
    · exact absurd h.2 (G'.ne_of_adj hx).symm
    · exact h.2
  by_cases hnb : nb ∈ p.support
  · obtain ⟨q, hq⟩ : ∃ q : G'.Walk nb nb, q.IsCycle := ⟨_, hp.rotate hnb⟩
    cases q with
    | nil => exact hq.ne_nil rfl
    | cons h q' =>
      rename_i x
      have hx := hstep x h
      have hne : nb ≠ x := G'.ne_of_adj h
      obtain ⟨y, h2, r, hr⟩ := SimpleGraph.Walk.exists_eq_cons_of_ne hne q'.reverse
      have hy := hstep y h2
      have hmem : s(nb, y) ∈ q'.reverse.edges := by
        rw [hr]; simp
      rw [SimpleGraph.Walk.edges_reverse, List.mem_reverse] at hmem
      have hnd := hq.edges_nodup
      rw [SimpleGraph.Walk.edges_cons, List.nodup_cons] at hnd
      have hxy : y = x := hy.trans hx.symm
      exact hnd.1 (hxy ▸ hmem)
  · have hall : ∀ e, e ∈ p.edges → e ∈ G.edgeSet := by
      intro e he
      induction e using Sym2.ind with
      | _ a b =>
        have hadj := p.adj_of_mem_edges he
        rcases hsub a b hadj with h | h | h
        · exact h
        · exact absurd (h.2 ▸ p.snd_mem_support_of_mem_edges he) hnb
        · exact absurd (h.1 ▸ p.fst_mem_support_of_mem_edges he) hnb
    exact hG (p.transfer G hall) (hp.transfer hall)

theorem treeInv_extend {W H c nb : Nat} {m m' : Nat → Nat} (hT : TreeInv W H c m)
    (hnb : nb < W * H) (hne : nb ≠ c) (hz : m nb = 0)
    (hlink : ∀ x y, Linked W H m' x y ↔
      Linked W H m x y ∨ (x = c ∧ y = nb) ∨ (x = nb ∧ y = c))
    (hnz : ∀ i, m' i ≠ 0 ↔ m i ≠ 0 ∨ i = c ∨ i = nb)
    (hcount : passageCount W H m' = passageCount W H m + 1) : TreeInv W H nb m' := by
  have hle : mazeGraph W H m ≤ mazeGraph W H m' := by
    intro x y h
    exact (hlink x y).2 (Or.inl h)
  have hadj : (mazeGraph W H m').Adj nb c := (hlink nb c).2 (Or.inr (Or.inr ⟨rfl, rfl⟩))
  refine ⟨hnb, ?_, ?_, ?_⟩
  · intro i hi hmi
    rcases (hnz i).1 hmi with h | h | h
    · exact hadj.reachable.trans ((hT.conn i hi h).mono hle)
    · subst h; exact hadj.reachable
    · subst h; exact SimpleGraph.Reachable.refl _
  · have hset : (Finset.range (W * H)).filter (fun i => m' i ≠ 0 ∨ i = nb)
        = insert nb ((Finset.range (W * H)).filter (fun i => m i ≠ 0 ∨ i = c)) := by
      ext i
      simp only [Finset.mem_filter, Finset.mem_range, Finset.mem_insert, hnz]
      constructor
      · rintro ⟨h1, h2⟩
        by_cases h : i = nb
        · exact Or.inl h
        · right; exact ⟨h1, by tauto⟩
      · rintro (h | ⟨h1, h2⟩)
        · subst h; exact ⟨hnb, Or.inr rfl⟩
        · exact ⟨h1, by tauto⟩
    rw [hset, Finset.card_insert_of_not_mem, hcount, hT.count]
    simp only [Finset.mem_filter, Finset.mem_range, not_and, not_or]
    intro _
    exact ⟨by simpa using hz, hne⟩
  · apply acyclic_add_pendant hT.acyc c nb
    · intro x
      exact not_linked_of_zero hz x
    · intro a b h
      exact (hlink a b).1 h

theorem treeInv_refocus {W H c nb : Nat} {m : Nat → Nat} (hT : TreeInv W H nb m)
    (hc : c < W * H) (hmc : m c ≠ 0) (hmn : m nb ≠ 0) : TreeInv W H c m := by
  refine ⟨hc, ?_, ?_, hT.acyc⟩
  · intro i hi hmi
    exact (hT.conn c hc hmc).symm.trans (hT.conn i hi hmi)
  · rw [hT.count]
    congr 1
    apply Finset.filter_congr
    intro i _
    constructor
    · rintro (h | h)
      · exact Or.inl h
      · subst h; exact Or.inl hmn
    · rintro (h | h)
      · exact Or.inl h
      · subst h; exact Or.inl hmc

/-! ## The maze invariant is preserved by the recursion -/

theorem mazeRule (W H : Nat) : DfsRule W H (MazePre W H) (MazeMid W H) (MazePost W H) where
  enter := by
    intro c s hpre
    exact ⟨hpre, fun i h => h, fun i _ _ h0 h1 => absurd h0 h1, by simp⟩
  absent := by
    rintro c s0 ds s d ⟨hT, hmono, hcl, hdone⟩ hn
    refine ⟨hT, hmono, hcl, ?_⟩
    intro d' hd' nb hnb
    rcases List.mem_cons.1 hd' with h | h
    · subst h; rw [hn] at hnb; cases hnb
    · exact hdone d' h nb hnb
  seen := by
    rintro c s0 ds s d nb ⟨hT, hmono, hcl, hdone⟩ hn hz
    refine ⟨hT, hmono, hcl, ?_⟩
    intro d' hd' nb' hnb
    rcases List.mem_cons.1 hd' with h | h
    · subst h; rw [hn] at hnb; cases hnb; exact hz
    · exact hdone d' h nb' hnb
  call := by
    rintro c s0 ds s d nb ⟨hT, _, _, _⟩ hn hz
    have hlt := neighbor_lt hT.cur hn
    exact treeInv_extend hT hlt.1 hlt.2.1 hz (carve_linked hT.cur hn s)
      (carve_nonzero hT.cur hn s) (carve_count hT.cur hn s hz)
  ret := by
    rintro c s0 ds s d nb s' ⟨hT, hmono, hcl, hdone⟩ hn hz ⟨hT', hmono', hcl'⟩
    have hnz := carve_nonzero hT.cur hn s
    have hc' : s'.mazebuf c ≠ 0 := hmono' c ((hnz c).2 (Or.inr (Or.inl rfl)))
    have hnb' : s'.mazebuf nb ≠ 0 := hmono' nb ((hnz nb).2 (Or.inr (Or.inr rfl)))
    have hm2 : ∀ i, s.mazebuf i ≠ 0 → s'.mazebuf i ≠ 0 :=
      fun i h => hmono' i ((hnz i).2 (Or.inl h))
    refine ⟨treeInv_refocus hT' hT.cur hc' hnb', fun i h => hm2 i (hmono i h), ?_, ?_⟩
    · intro i hi hic h0 h1
      by_cases hs : s.mazebuf i = 0
      · by_cases hs1 : (carve W c d nb s).mazebuf i = 0
        · exact hcl' i hi (Or.inr ⟨hs1, h1⟩)
        · rcases (hnz i).1 hs1 with h | h | h
          · exact absurd hs h
          · exact absurd h hic
          · exact hcl' i hi (Or.inl h)
      · intro d' nb' hn'
        exact hm2 nb' (hcl i hi hic h0 hs d' nb' hn')
    · intro d' hd' nb' hnb2
      rcases List.mem_cons.1 hd' with h | h
      · subst h; rw [hn] at hnb2; cases hnb2; exact hnb'
      · exact hm2 nb' (hdone d' h nb' hnb2)
  exit := by
    rintro c s0 ds s ⟨hT, hmono, hcl, hdone⟩ hall
    refine ⟨hT, hmono, ?_⟩
    intro i hi h
    by_cases hic : i = c
    · subst hic
      intro d nb hn
      exact hdone d (hall d (neighbor_lt hT.cur hn).2.2) nb hn
    · rcases h with h | ⟨h0, h1⟩
      · exact absurd h hic
      · exact hcl i hi hic h0 h1

theorem maze_measure (W H : Nat) (c : Nat) (s0 : MazeState) (ds : List Nat) (s : MazeState)
    (d nb : Nat) (hm : MazeMid W H c s0 ds s) (hn : neighbor W H c d = some nb)
    (hz : s.mazebuf nb = 0) :
    unvisited W H nb (carve W c d nb s) < unvisited W H c s0 := by
  obtain ⟨hT, hmono, _, _⟩ := hm
  have hlt := neighbor_lt hT.cur hn
  have hnz := carve_nonzero hT.cur hn s
  unfold unvisited
  apply Finset.card_lt_card
  have hsub : (Finset.range (W * H)).filter
        (fun i => (carve W c d nb s).mazebuf i = 0 ∧ i ≠ nb)
      ⊆ (Finset.range (W * H)).filter (fun i => s0.mazebuf i = 0 ∧ i ≠ c) := by
    intro i hi
    simp only [Finset.mem_filter, Finset.mem_range] at hi ⊢
    obtain ⟨h1, h2, _⟩ := hi
    refine ⟨h1, ?_, ?_⟩
    · by_contra h
      exact (hnz i).2 (Or.inl (hmono i h)) h2
    · intro h
      exact (hnz i).2 (Or.inr (Or.inl h)) h2
  rw [Finset.ssubset_iff_of_subset hsub]
  refine ⟨nb, ?_, ?_⟩
  · simp only [Finset.mem_filter, Finset.mem_range]
    refine ⟨hlt.1, ?_, hlt.2.1⟩
    by_contra h
    exact hmono nb h hz
  · simp

/-! ## The grid is connected -/

theorem interval_closed (n k0 : Nat) (Q : Nat → Prop) (h0 : Q k0) (hk0 : k0 < n)
    (up : ∀ k, k + 1 < n → Q k → Q (k + 1)) (down : ∀ k, k + 1 < n → Q (k + 1) → Q k) :
    ∀ k, k < n → Q k := by
  have hup : ∀ j, k0 + j < n → Q (k0 + j) := by
    intro j
    induction j with
    | zero => intro _; exact h0
    | succ j ih =>
      intro h
      exact up (k0 + j) h (ih (by omega))
  have hdown : ∀ j, j ≤ k0 → Q (k0 - j) := by
    intro j
    induction j with
    | zero => intro _; exact h0
    | succ j ih =>
      intro h
      have h1 := ih (by omega)
      have e : k0 - j = (k0 - (j + 1)) + 1 := by omega
      rw [e] at h1
      exact down _ (by omega) h1
  intro k hk
  rcases le_total k k0 with h | h
  · have := hdown (k0 - k) (by omega)
    have e : k0 - (k0 - k) = k := by omega
    rwa [e] at this
  · have := hup (k - k0) (by omega)
    have e : k0 + (k - k0) = k := by omega
    rwa [e] at this

theorem grid_closed (W H root : Nat) (P : Nat → Prop) (hroot : root < W * H) (h0 : P root)
    (hstep : ∀ i, i < W * H → P i → ∀ d nb, neighbor W H i d = some nb → P nb) :
    ∀ i, i < W * H → P i := by
  have hW := pos_of_cell hroot
  have hr0 := cell_row_lt hroot
  have hc0 := cell_col_lt hroot
  have hidx : ∀ r col, r < H → col < W → W * r + col < W * H := by
    intro r col hr hcol
    have h2 : W * (r + 1) ≤ W * H := Nat.mul_le_mul_left W hr
    rw [Nat.mul_add] at h2
    omega
  have hrow : ∀ col, col < W → P (W * (root / W) + col) := by
    apply interval_closed W (root % W) (fun col => P (W * (root / W) + col))
    · have := Nat.div_add_mod root W
      show P (W * (root / W) + root % W)
      rw [this]; exact h0
    · exact hc0
    · intro k hk hP
      have hdm := divmod_of_eq (W := W) (x := W * (root / W) + k) (by omega) rfl
      apply hstep _ (hidx _ _ hr0 (by omega)) hP 1
      rw [neighbor_some_iff]
      right; left
      refine ⟨rfl, ?_, by omega⟩
      rw [hdm.2]; omega
    · intro k hk hP
      have hdm := divmod_of_eq (W := W) (x := W * (root / W) + (k + 1)) hk rfl
      apply hstep _ (hidx _ _ hr0 hk) hP 3
      rw [neighbor_some_iff]
      right; right; right
      refine ⟨rfl, ?_, by omega⟩
      rw [hdm.2]; omega
  have hcolumn : ∀ col, col < W → ∀ r, r < H → P (W * r + col) := by
    intro col hcol
    apply interval_closed H (root / W) (fun r => P (W * r + col))
    · exact hrow col hcol
    · exact hr0
    · intro k hk hP
      have h2 : W * (k + 2) ≤ W * H := Nat.mul_le_mul_left W hk
      have e : W * (k + 1) + col = W * k + col + W := by rw [Nat.mul_add]; omega
      show P (W * (k + 1) + col)
      rw [e]
      apply hstep _ (hidx _ _ (by omega) hcol) hP 2
      rw [neighbor_some_iff]
      right; right; left
      refine ⟨rfl, ?_, rfl⟩
      rw [Nat.mul_add] at h2
      omega
    · intro k hk hP
      have e : W * (k + 1) + col = W * k + col + W := by rw [Nat.mul_add]; omega
      apply hstep _ (hidx _ _ hk hcol) hP 0
      rw [neighbor_some_iff]
      left
      refine ⟨rfl, by omega, by omega⟩
  intro i hi
  have := hcolumn (i % W) (cell_col_lt hi) (i / W) (cell_row_lt hi)
  rwa [Nat.div_add_mod] at this

/-! ## Results for the run from zeroed `mazebuf` -/

theorem treeInv_init {W H start : Nat} {m : Nat → Nat} (hstart : start < W * H)
    (hzero : ∀ i, i < W * H → m i = 0) : TreeInv W H start m := by
  have hnoE : ∀ i, ¬ openE W H m i := by
    rintro i ⟨h1, _, h3, _⟩
    rw [hzero i h1] at h3
    exact hasFlag_zero _ h3
  have hnoS : ∀ i, ¬ openS W H m i := by
    rintro i ⟨h1, h3, _⟩
    rw [hzero i (by omega)] at h3
    exact hasFlag_zero _ h3
  refine ⟨hstart, ?_, ?_, ?_⟩
  · intro i hi h
    exact absurd (hzero i hi) h
  · have h1 : (Finset.range (W * H)).filter (fun i => m i ≠ 0 ∨ i = start) = {start} := by
      ext i
      simp only [Finset.mem_filter, Finset.mem_range, Finset.mem_singleton]
      constructor
      · rintro ⟨h1, h2 | h2⟩
        · exact absurd (hzero i h1) h2
        · exact h2
      · rintro rfl
        exact ⟨hstart, Or.inr rfl⟩
    rw [h1]
    simp [passageCount, hnoE, hnoS]
  · intro v p hp
    cases p with
    | nil => exact hp.ne_nil rfl
    | cons h _ =>
      rcases h with h | h | h | h
      · exact hnoE _ h.2
      · exact hnoE _ h.2
      · exact hnoS _ h.2
      · exact hnoS _ h.2

theorem unvisited_init (W H start : Nat) (s : MazeState) (hstart : start < W * H) :
    unvisited W H start s < W * H := by
  unfold unvisited
  have h : (Finset.range (W * H)).filter (fun i => s.mazebuf i = 0 ∧ i ≠ start)
      ⊂ Finset.range (W * H) := by
    rw [Finset.ssubset_iff_of_subset (Finset.filter_subset _ _)]
    exact ⟨start, by simpa using hstart, by simp⟩
  simpa using Finset.card_lt_card h

/-- The run from a zeroed `mazebuf` returns, the maze invariant holds of the final state and
every cell has been reached. -/
theorem maze_run (W H start : Nat) (rng : Nat → Nat) (s0 : MazeState) (fuel : Nat)
    (hstart : start < W * H) (hzero : ∀ i, i < W * H → s0.mazebuf i = 0)
    (hfuel : W * H ≤ fuel) :
    ∃ s', gen_maze_dfs W H rng fuel start s0 = some s' ∧ MazePost W H start s0 s' ∧
      ∀ i, i < W * H → i = start ∨ s'.mazebuf i ≠ 0 := by
  obtain ⟨s', hrun, hpost⟩ := dfsRule_total (mazeRule W H) (unvisited W H) (maze_measure W H)
    rng fuel start s0 (treeInv_init hstart hzero)
    (lt_of_lt_of_le (unvisited_init W H start s0 hstart) hfuel)
  refine ⟨s', hrun, hpost, ?_⟩
  obtain ⟨_, _, hcl⟩ := hpost
  apply grid_closed W H start (fun i => i = start ∨ s'.mazebuf i ≠ 0) hstart (Or.inl rfl)
  intro i hi hP d nb hn
  right
  apply hcl i hi _ d nb hn
  rcases hP with h | h
  · exact Or.inl h
  · exact Or.inr ⟨hzero i hi, h⟩

/-! ## More fuel does not change the result -/

theorem enter_overflow (W c : Nat) (s : MazeState) :
    (enter W c s).overflow = (s.overflow || decide (INT_MAX < reqBitIndex W c)) := rfl

theorem carve_overflow (W c d nb : Nat) (s : MazeState) :
    (carve W c d nb s).overflow = s.overflow := rfl

theorem last_cell {W H : Nat} (hW : 0 < W) (hH : 0 < H) :
    (W * H - 1) / W = H - 1 ∧ (W * H - 1) % W = W - 1 := by
  apply divmod_of_eq (by omega)
  obtain ⟨h, rfl⟩ : ∃ h, H = h + 1 := ⟨H - 1, by omega⟩
  rw [Nat.mul_succ, Nat.add_sub_cancel]
  omega

/-- The bit index of the last cell is the largest. -/
theorem reqBitIndex_le_last {W H c : Nat} (hc : c < W * H) :
    reqBitIndex W c ≤ reqBitIndex W (W * H - 1) := by
  have hW := pos_of_cell hc
  have hH : 0 < H := by
    rcases Nat.eq_zero_or_pos H with h | h
    · subst h; simp at hc
    · exact h
  obtain ⟨e1, e2⟩ := last_cell hW hH
  have h1 := cell_row_lt hc
  have h2 := cell_col_lt hc
  unfold reqBitIndex
  rw [e1, e2]
  have h3 : c / W * IMG_PACKED_ROW_W W ≤ (H - 1) * IMG_PACKED_ROW_W W :=
    Nat.mul_le_mul_right _ (by omega)
  omega

theorem fitsRule (W H : Nat) (hfit : reqBitIndex W (W * H - 1) ≤ INT_MAX) :
    DfsRule W H (FitsPre W H) (FitsMid W H) FitsPost where
  enter := by
    rintro c s ⟨hc, h⟩
    refine ⟨hc, ?_⟩
    have hle := le_trans (reqBitIndex_le_last hc) hfit
    rw [enter_overflow, h, Bool.false_or, decide_eq_false_iff_not]
    omega
  absent := by
    rintro c s0 ds s d h _
    exact h
  seen := by
    rintro c s0 ds s d nb h _ _
    exact h
  call := by
    rintro c s0 ds s d nb ⟨hc, h⟩ hn _
    exact ⟨(neighbor_lt hc hn).1, h⟩
  ret := by
    rintro c s0 ds s d nb s' ⟨hc, _⟩ _ _ h'
    exact ⟨hc, h'⟩
  exit := by
    rintro c s0 ds s ⟨_, h⟩ _
    exact h

theorem ovfRule (W H : Nat) : DfsRule W H (OvfPre W) OvfMid OvfPost where
  enter := by
    rintro c s h
    show (enter W c s).overflow = true
    rw [enter_overflow]
    rcases h with h | h
    · rw [decide_eq_true h, Bool.or_true]
    · rw [h, Bool.true_or]
  absent := by
    rintro c s0 ds s d h _
    exact h
  seen := by
    rintro c s0 ds s d nb h _ _
    exact h
  call := by
    rintro c s0 ds s d nb h _ _
    exact Or.inr h
  ret := by
    rintro c s0 ds s d nb s' _ _ _ h'
    exact h'
  exit := by
    rintro c s0 ds s h _
    exact h

/-- In a build where no `int` overflows, a run that starts without overflow ends without. -/
theorem fits_run {W H : Nat} (hfit : IntFits W H) (rng : Nat → Nat) (fuel start : Nat)
    (s0 s' : MazeState) (hstart : start < W * H) (hov : s0.overflow = false)
    (hrun : gen_maze_dfs W H rng fuel start s0 = some s') : s'.overflow = false :=
  dfsRule_partial (fitsRule W H hfit.2) rng fuel start s0 s' ⟨hstart, hov⟩ hrun

/-- A run from a start cell whose bit index exceeds `INT_MAX` returns with `overflow`
raised. -/
theorem overflow_run (W H start : Nat) (rng : Nat → Nat) (s0 : MazeState) (fuel : Nat)
    (hstart : start < W * H) (hzero : ∀ i, i < W * H → s0.mazebuf i = 0)
    (hfuel : W * H ≤ fuel) (hbig : INT_MAX < reqBitIndex W start) :
    ∃ s', gen_maze_dfs W H rng fuel start s0 = some s' ∧ s'.overflow = true := by
  obtain ⟨s', hrun, _, _⟩ := maze_run W H start rng s0 fuel hstart hzero hfuel
  exact ⟨s', hrun, dfsRule_partial (ovfRule W H) rng fuel start s0 s' (Or.inl hbig) hrun⟩

theorem raisedRule (W H : Nat) :
    DfsRule W H (fun c _ => c < W * H) (RaisedMid W H) (RaisedPost W) where
  enter := by
    rintro c s hc
    refine ⟨hc, fun _ h => h, ?_, ?_⟩
    · intro h
      rw [enter_overflow, h, Bool.true_or]
    · rintro i (e | ⟨h0, h1⟩) hbig
      · subst e
        rw [enter_overflow, decide_eq_true hbig, Bool.or_true]
      · exact absurd h0 h1
  absent := by
    rintro c s0 ds s d h _
    exact h
  seen := by
    rintro c s0 ds s d nb h _ _
    exact h
  call := by
    rintro c s0 ds s d nb ⟨hc, _⟩ hn _
    exact (neighbor_lt hc hn).1
  ret := by
    rintro c s0 ds s d nb s' ⟨hc, hg, hm, hr⟩ hn _ ⟨hg', hm', hr'⟩
    have hnz := carve_nonzero hc hn s
    have hmc : s.overflow = true → s'.overflow = true := fun h => hm' h
    refine ⟨hc, fun i h => hg' i ((hnz i).2 (Or.inl (hg i h))), fun h => hmc (hm h), ?_⟩
    rintro i (e | ⟨h0, h1⟩) hbig
    · exact hmc (hr i (Or.inl e) hbig)
    · by_cases hs : s.mazebuf i = 0
      · by_cases hcv : (carve W c d nb s).mazebuf i = 0
        · exact hr' i (Or.inr ⟨hcv, h1⟩) hbig
        · rcases (hnz i).1 hcv with g | g | g
          · exact absurd hs g
          · exact hmc (hr i (Or.inl g) hbig)
          · exact hr' i (Or.inl g) hbig
      · exact hmc (hr i (Or.inr ⟨h0, hs⟩) hbig)
  exit := by
    rintro c s0 ds s ⟨_, hg, hm, hr⟩ _
    exact ⟨hg, hm, hr⟩

/-- A run from a zeroed `mazebuf` and without overflow at the start returns with `overflow`
raised exactly when the bit index of the last cell exceeds `INT_MAX`, whatever the start
cell. -/
theorem run_overflow_iff (W H start : Nat) (rng : Nat → Nat) (s0 : MazeState) (fuel : Nat)
    (hstart : start < W * H) (hzero : ∀ i, i < W * H → s0.mazebuf i = 0)
    (hov : s0.overflow = false) (hfuel : W * H ≤ fuel) :
    ∃ s', gen_maze_dfs W H rng fuel start s0 = some s' ∧
      (s'.overflow = true ↔ INT_MAX < reqBitIndex W (W * H - 1)) := by
  obtain ⟨s', hrun, _, hall⟩ := maze_run W H start rng s0 fuel hstart hzero hfuel
  refine ⟨s', hrun, ?_, ?_⟩
  · intro h
    by_contra hle
    have hf : s'.overflow = false :=
      dfsRule_partial (fitsRule W H (by omega)) rng fuel start s0 s' ⟨hstart, hov⟩ hrun
    rw [h] at hf
    exact Bool.noConfusion hf
  · intro hbig
    obtain ⟨_, _, hr⟩ := dfsRule_partial (raisedRule W H) rng fuel start s0 s' hstart hrun
    have hl : W * H - 1 < W * H := by omega
    apply hr (W * H - 1) _ hbig
    rcases hall _ hl with e | e
    · exact Or.inl e
    · exact Or.inr ⟨hzero _ hl, e⟩

/-- Under `IntFits` the other `int` values of the program fit as well: the number of cells
(hence every cell index and `MAZE_A - MAZE_W`), the file size, and for every cell the byte
offsets up to `req_byte + IMG_PACKED_ROW_W`. -/
theorem intFits_bounds {W H : Nat} (hW : 1 ≤ W) (hH : 1 ≤ H) (hfit : IntFits W H) :
    MAZE_A W H ≤ INT_MAX ∧ FILE_SZ W H ≤ INT_MAX ∧
    ∀ c, c < W * H → reqBitIndex W c / 8 + IMG_PACKED_ROW_W W ≤ INT_MAX := by
  obtain ⟨h, rfl⟩ : ∃ h, H = h + 1 := ⟨H - 1, by omega⟩
  obtain ⟨f1, f2⟩ := hfit
  obtain ⟨e1, e2⟩ := last_cell (W := W) (H := h + 1) (by omega) (by omega)
  have hS : IMG_PACKED_ROW_W W = (2 * W + 32) / 8 := by
    unfold IMG_PACKED_ROW_W PIX_BIT IMG_PIX_W TILE_PIX_W
    congr 1
    omega
  have f1' : 2 * W + 32 ≤ INT_MAX := by
    unfold PIX_BIT IMG_PIX_W TILE_PIX_W at f1
    omega
  unfold reqBitIndex at f2
  rw [e1, e2] at f2
  have hI : INT_MAX = 2147483647 := rfl
  have hWS : W ≤ 4 * IMG_PACKED_ROW_W W := by omega
  have h1 : W * h ≤ 4 * IMG_PACKED_ROW_W W * h := Nat.mul_le_mul_right h hWS
  have h2 : 4 * IMG_PACKED_ROW_W W * h = 4 * (h * IMG_PACKED_ROW_W W) := by ring
  have h3 : h + 1 - 1 = h := by omega
  rw [h3] at f2
  refine ⟨?_, ?_, ?_⟩
  · unfold MAZE_A
    rw [Nat.mul_succ]
    omega
  · unfold FILE_SZ IMG_BYTES IMG_PIX_H TILE_PIX_H TILE_PIX_W
    have e : IMG_PACKED_ROW_W W * (((h + 1) * 2 + 1) * 1)
        = 2 * (h * IMG_PACKED_ROW_W W) + 3 * IMG_PACKED_ROW_W W := by ring
    have h32 : IMG_OFFSET = 32 := by decide
    rw [e, h32]
    rcases Nat.eq_zero_or_pos h with h0 | hpos
    · subst h0
      omega
    · have : IMG_PACKED_ROW_W W ≤ h * IMG_PACKED_ROW_W W := Nat.le_mul_of_pos_left _ hpos
      omega
  · intro c hc
    have hle := reqBitIndex_le_last hc
    unfold reqBitIndex at hle
    rw [e1, e2, h3] at hle
    unfold reqBitIndex
    omega

/-! ## Pixel addressing -/

theorem pixel_iff (W : Nat) (fb : Nat → Nat) (y x : Nat) :
    pixel W fb y x = true ↔
      hasFlag (fb (IMG_OFFSET + y * IMG_PACKED_ROW_W W + x / 8)) (0x80 >>> (x % 8)) := by
  unfold pixel hasFlag
  simp

theorem mask_disjoint : ∀ k, k < 8 → ∀ j, j < 8 →
    (hasFlag (0x80 >>> k) (0x80 >>> j) ↔ k = j) := by
  decide

theorem addr_inj {S y q y' q' : Nat} (hq : q < S) (hq' : q' < S)
    (h : y * S + q = y' * S + q') : y = y' ∧ q = q' := by
  have h1 := divmod_of_eq (W := S) (x := y * S + q) (q := y) hq (by rw [Nat.mul_comm])
  have h2 := divmod_of_eq (W := S) (x := y * S + q) (q := y') hq' (by rw [h, Nat.mul_comm])
  exact ⟨h1.1.symm.trans h2.1, h1.2.symm.trans h2.2⟩

/-- Setting the pixel at `(py, px)` changes that pixel bit and no other. -/
theorem pixel_setPixel (W : Nat) (s : MazeState) {py px y x : Nat}
    (hpx : px < 8 * IMG_PACKED_ROW_W W) (hx : x < 8 * IMG_PACKED_ROW_W W) :
    pixel W (setPixel W s py px).filebuf y x = true ↔
      pixel W s.filebuf y x = true ∨ (y = py ∧ x = px) := by
  rw [pixel_iff, pixel_iff]
  unfold setPixel MazeState.orFile setByte
  simp only
  by_cases ha : IMG_OFFSET + y * IMG_PACKED_ROW_W W + x / 8
      = IMG_OFFSET + py * IMG_PACKED_ROW_W W + px / 8
  · rw [if_pos ha]
    have hinj := @addr_inj (IMG_PACKED_ROW_W W) y (x / 8) py (px / 8)
      (by omega) (by omega) (by omega)
    rw [hasFlag_or, ha, mask_disjoint (px % 8) (Nat.mod_lt _ (by norm_num)) (x % 8)
      (Nat.mod_lt _ (by norm_num))]
    constructor
    · rintro (h | h)
      · exact Or.inl h
      · exact Or.inr ⟨hinj.1, by omega⟩
    · rintro (h | h)
      · exact Or.inl h
      · right; rw [h.2]
  · rw [if_neg ha]
    constructor
    · intro h; exact Or.inl h
    · rintro (h | h)
      · exact h
      · exfalso; apply ha; rw [h.1, h.2]

theorem cellCol_lt {W H c : Nat} (hc : c < W * H) : cellCol W c + 1 < 8 * IMG_PACKED_ROW_W W := by
  have h1 := cell_col_lt hc
  have h2 := stride_bits W
  unfold cellCol
  omega

theorem pix_addr_bounds {W H y x : Nat} (hy : y < IMG_PIX_H H)
    (hx : x < 8 * IMG_PACKED_ROW_W W) :
    IMG_OFFSET ≤ IMG_OFFSET + y * IMG_PACKED_ROW_W W + x / 8 ∧
      IMG_OFFSET + y * IMG_PACKED_ROW_W W + x / 8 < FILE_SZ W H := by
  unfold FILE_SZ IMG_BYTES
  have h1 : (y + 1) * IMG_PACKED_ROW_W W ≤ IMG_PIX_H H * IMG_PACKED_ROW_W W :=
    Nat.mul_le_mul_right _ hy
  rw [Nat.add_mul, Nat.mul_comm (IMG_PIX_H H)] at h1
  constructor
  · omega
  · omega

/-! ## The picture invariant is preserved by the recursion -/

theorem pixInv_congr {W H : Nat} {E E' : Nat → Prop} {s : MazeState}
    (h : PixInv W H E s) (hE : ∀ i, i < W * H → (E i ↔ E' i)) : PixInv W H E' s := by
  intro y x hy hx
  rw [h y x hy hx]
  constructor
  · rintro (⟨i, h1, h2, h3⟩ | h)
    · exact Or.inl ⟨i, h1, (hE i h1).1 h2, h3⟩
    · exact Or.inr h
  · rintro (⟨i, h1, h2, h3⟩ | h)
    · exact Or.inl ⟨i, h1, (hE i h1).2 h2, h3⟩
    · exact Or.inr h

theorem fileRule (W H : Nat) : DfsRule W H (FilePre W H) (FileMid W H) (FilePost W H) where
  enter := by
    rintro c s ⟨hc, hP⟩
    refine ⟨hc, fun i h => h, ?_⟩
    intro y x hy hx
    have hcc := cellCol_lt hc
    unfold enter
    rw [pixel_setPixel W _ (by omega) hx]
    have h0 := hP y x hy hx
    simp only [setPixel, MazeState.orFile, MazeState.checkInt] at h0 ⊢
    rw [h0]
    constructor
    · rintro ((⟨i, h1, h2, h3⟩ | h) | h)
      · exact Or.inl ⟨i, h1, Or.inl h2.1, h3⟩
      · exact Or.inr h
      · exact Or.inl ⟨c, hc, Or.inr rfl, h⟩
    · rintro (⟨i, h1, h2, h3⟩ | h)
      · by_cases hic : i = c
        · subst hic; exact Or.inr h3
        · rcases h2 with h2 | h2
          · exact Or.inl (Or.inl ⟨i, h1, ⟨h2, hic⟩, h3⟩)
          · exact absurd h2 hic
      · exact Or.inl (Or.inr h)
  absent := by
    rintro c s0 ds s d h _
    exact h
  seen := by
    rintro c s0 ds s d nb h _ _
    exact h
  call := by
    rintro c s0 ds s d nb ⟨hc, hmono, hP⟩ hn hz
    have hlt := neighbor_lt hc hn
    have hnz := carve_nonzero hc hn s
    refine ⟨hlt.1, ?_⟩
    have hent : ∀ i, ((carve W c d nb s).mazebuf i ≠ 0 ∧ i ≠ nb) ↔
        (s.mazebuf i ≠ 0 ∨ i = c) := by
      intro i
      rw [hnz]
      constructor
      · rintro ⟨h1 | h1 | h1, h2⟩
        · exact Or.inl h1
        · exact Or.inr h1
        · exact absurd h1 h2
      · rintro (h | h)
        · refine ⟨Or.inl h, ?_⟩
          intro h'; subst h'; exact h hz
        · refine ⟨Or.inr (Or.inl h), ?_⟩
          intro h'; rw [h] at h'; exact hlt.2.1 h'.symm
    intro y x hy hx
    simp only [hent]
    rcases carve_shape hc hn with ⟨b, hb, hcol, hcb, hm, hr, hcl⟩ | ⟨b, hb, hcb, hm, hr, hcl⟩
    · have hbc := cellCol_lt hb
      rw [hm s]
      simp only [openE_addE s.mazebuf hb hcol, openS_addE]
      have hfile : (carve W c d nb s).filebuf
          = (setPixel W s (cellRow W b) (cellCol W b + 1)).filebuf := by
        simp only [carve, hr, hcl]
        rfl
      rw [hfile, pixel_setPixel W _ hbc hx, hP y x hy hx]
      constructor
      · rintro ((h | ⟨i, h1, h2⟩ | h) | h)
        · exact Or.inl h
        · exact Or.inr (Or.inl ⟨i, Or.inl h1, h2⟩)
        · exact Or.inr (Or.inr h)
        · exact Or.inr (Or.inl ⟨b, Or.inr rfl, h⟩)
      · rintro (h | ⟨i, h1 | h1, h2⟩ | h)
        · exact Or.inl (Or.inl h)
        · exact Or.inl (Or.inr (Or.inl ⟨i, h1, h2⟩))
        · subst h1; exact Or.inr h2
        · exact Or.inl (Or.inr (Or.inr h))
    · have hW := pos_of_cell hc
      have hbc := cellCol_lt (show b < W * H by omega)
      rw [hm s]
      simp only [openS_addS s.mazebuf hb, openE_addS hW]
      have hfile : (carve W c d nb s).filebuf
          = (setPixel W s (cellRow W b + 1) (cellCol W b)).filebuf := by
        simp only [carve, hr, hcl]
        rfl
      rw [hfile, pixel_setPixel W _ (by omega) hx, hP y x hy hx]
      constructor
      · rintro ((h | h | ⟨i, h1, h2⟩) | h)
        · exact Or.inl h
        · exact Or.inr (Or.inl h)
        · exact Or.inr (Or.inr ⟨i, Or.inl h1, h2⟩)
        · exact Or.inr (Or.inr ⟨b, Or.inr rfl, h⟩)
      · rintro (h | h | ⟨i, h1 | h1, h2⟩)
        · exact Or.inl (Or.inl h)
        · exact Or.inl (Or.inr (Or.inl h))
        · exact Or.inl (Or.inr (Or.inr ⟨i, h1, h2⟩))
        · subst h1; exact Or.inr h2
  ret := by
    rintro c s0 ds s d nb s' ⟨hc, hmono, _⟩ hn hz ⟨hmono', hP'⟩
    have hnz := carve_nonzero hc hn s
    have hc' : s'.mazebuf c ≠ 0 := hmono' c ((hnz c).2 (Or.inr (Or.inl rfl)))
    have hnb' : s'.mazebuf nb ≠ 0 := hmono' nb ((hnz nb).2 (Or.inr (Or.inr rfl)))
    refine ⟨hc, fun i h => hmono' i ((hnz i).2 (Or.inl (hmono i h))), ?_⟩
    apply pixInv_congr hP'
    intro i _
    constructor
    · rintro (h | h)
      · exact Or.inl h
      · subst h; exact Or.inl hnb'
    · rintro (h | h)
      · exact Or.inl h
      · subst h; exact Or.inl hc'
  exit := by
    rintro c s0 ds s ⟨_, hmono, hP⟩ _
    exact ⟨hmono, hP⟩

theorem pixInv_init {W H start : Nat} {s0 : MazeState}
    (hzero : ∀ i, i < W * H → s0.mazebuf i = 0)
    (hfile : ∀ j, IMG_OFFSET ≤ j → j < FILE_SZ W H → s0.filebuf j = 0) :
    PixInv W H (fun i => s0.mazebuf i ≠ 0 ∧ i ≠ start) s0 := by
  intro y x hy hx
  have hb := pix_addr_bounds (W := W) (H := H) hy hx
  rw [pixel_iff, hfile _ hb.1 hb.2]
  constructor
  · intro h; exact absurd h (hasFlag_zero _)
  · rintro (⟨i, h1, h2, _⟩ | ⟨i, h1, _⟩ | ⟨i, h1, _⟩)
    · exact absurd (hzero i h1) h2.1
    · exfalso
      have := h1.2.2.1
      rw [hzero i h1.1] at this
      exact hasFlag_zero _ this
    · exfalso
      have := h1.2.1
      rw [hzero i (by have := h1.1; omega)] at this
      exact hasFlag_zero _ this

/-- The run from zeroed `mazebuf` and zeroed pixel area: the maze invariant and the picture
invariant hold of the final state, in which every cell has been entered. -/
theorem picture_run (W H start : Nat) (rng : Nat → Nat) (s0 : MazeState) (fuel : Nat)
    (hstart : start < W * H) (hzero : ∀ i, i < W * H → s0.mazebuf i = 0)
    (hfile : ∀ j, IMG_OFFSET ≤ j → j < FILE_SZ W H → s0.filebuf j = 0)
    (hfuel : W * H ≤ fuel) :
    ∃ s', gen_maze_dfs W H rng fuel start s0 = some s' ∧ PixInv W H (fun _ => True) s' := by
  obtain ⟨s', hrun, _, hall⟩ := maze_run W H start rng s0 fuel hstart hzero hfuel
  have hpost := dfsRule_partial (fileRule W H) rng fuel start s0 s'
    ⟨hstart, pixInv_init hzero hfile⟩ hrun
  refine ⟨s', hrun, pixInv_congr hpost.2 ?_⟩
  intro i hi
  constructor
  · intro _; trivial
  · intro _
    rcases hall i hi with h | h
    · exact Or.inr h
    · exact Or.inl h

/-! ## Every entered cell has its pixel set, whatever the initial picture -/

theorem grows_refl (W : Nat) (s : MazeState) : Grows W s s :=
  ⟨fun _ h => h, fun _ _ _ h => h⟩

theorem grows_trans {W : Nat} {s1 s2 s3 : MazeState} (h1 : Grows W s1 s2)
    (h2 : Grows W s2 s3) : Grows W s1 s3 :=
  ⟨fun i h => h2.1 i (h1.1 i h), fun y x hx h => h2.2 y x hx (h1.2 y x hx h)⟩

theorem grows_enter {W H c : Nat} (hc : c < W * H) (s : MazeState) :
    Grows W s (enter W c s) := by
  refine ⟨fun _ h => h, ?_⟩
  intro y x hx h
  have hcc := cellCol_lt hc
  unfold enter
  rw [pixel_setPixel W _ (by omega) hx]
  exact Or.inl h

theorem passCol_lt {W H c : Nat} (hc : c < W * H) (d : Nat) :
    passCol W c d < 8 * IMG_PACKED_ROW_W W := by
  have hcc := cellCol_lt hc
  unfold passCol
  split_ifs <;> omega

theorem grows_carve {W H c d nb : Nat} (hc : c < W * H)
    (hn : neighbor W H c d = some nb) (s : MazeState) :
    Grows W s (carve W c d nb s) := by
  refine ⟨fun i h => (carve_nonzero hc hn s i).2 (Or.inl h), ?_⟩
  intro y x hx h
  unfold carve
  rw [pixel_setPixel W _ (passCol_lt hc d) hx]
  exact Or.inl h

theorem visitRule (W H : Nat) :
    DfsRule W H (VisitPre W H) (VisitMid W H) (VisitPost W H) where
  enter := by
    intro c s hc
    refine ⟨hc, grows_enter hc s, ?_, fun i _ _ h0 h1 => absurd h0 h1⟩
    have hcc := cellCol_lt hc
    unfold cellPix enter
    rw [pixel_setPixel W _ (by omega) (by omega)]
    exact Or.inr ⟨rfl, rfl⟩
  absent := by
    rintro c s0 ds s d h _
    exact h
  seen := by
    rintro c s0 ds s d nb h _ _
    exact h
  call := by
    rintro c s0 ds s d nb ⟨hc, _, _, _⟩ hn _
    exact (neighbor_lt hc hn).1
  ret := by
    rintro c s0 ds s d nb s' ⟨hc, hg, hpc, hnew⟩ hn hz ⟨hg', hpn, hnew'⟩
    have hlt := neighbor_lt hc hn
    have hgc := grows_carve hc hn s
    have hg2 := grows_trans hgc hg'
    have hcol : ∀ i, i < W * H → cellCol W i < 8 * IMG_PACKED_ROW_W W := by
      intro i hi
      have := cellCol_lt hi
      omega
    refine ⟨hc, grows_trans hg hg2, hg2.2 _ _ (hcol c hc) hpc, ?_⟩
    intro i hi hic h0 h1
    by_cases hs : s.mazebuf i = 0
    · by_cases hs1 : (carve W c d nb s).mazebuf i = 0
      · exact hnew' i hi hs1 h1
      · rcases (carve_nonzero hc hn s i).1 hs1 with h | h | h
        · exact absurd hs h
        · exact absurd h hic
        · subst h; exact hpn
    · exact hg2.2 _ _ (hcol i hi) (hnew i hi hic h0 hs)
  exit := by
    rintro c s0 ds s ⟨hc, hg, hpc, hnew⟩ _
    refine ⟨hg, hpc, ?_⟩
    intro i hi h0 h1
    by_cases hic : i = c
    · subst hic; exact hpc
    · exact hnew i hi hic h0 h1

/-! ## Claims about the picture -/

theorem cell_of_pix {W i j : Nat} (hr : cellRow W j = cellRow W i)
    (hc : cellCol W j = cellCol W i) : j = i := by
  unfold cellRow at hr
  unfold cellCol at hc
  have h1 := Nat.div_add_mod i W
  have h2 := Nat.div_add_mod j W
  have h3 : j / W = i / W := by omega
  have h4 : j % W = i % W := by omega
  rw [h3, h4] at h2
  omega

theorem cell_pix_succ {W i : Nat} (h : i % W + 1 < W) :
    cellRow W (i + 1) = cellRow W i ∧ cellCol W (i + 1) = cellCol W i + 2 := by
  have := cell_succ h
  unfold cellRow cellCol
  omega

theorem cell_pix_addW {W i : Nat} (hW : 0 < W) :
    cellRow W (i + W) = cellRow W i + 2 ∧ cellCol W (i + W) = cellCol W i := by
  have := cell_add_W (c := i) hW
  unfold cellRow cellCol
  omega

theorem cellRow_lt {W H c : Nat} (hc : c < W * H) : cellRow W c + 1 < IMG_PIX_H H + 1 := by
  have := cell_row_lt hc
  unfold cellRow IMG_PIX_H TILE_PIX_H TILE_PIX_W
  omega

theorem openS_pos {W H : Nat} {m : Nat → Nat} {i : Nat} (h : openS W H m i) : 0 < W := by
  rcases Nat.eq_zero_or_pos W with h0 | h0
  · subst h0
    have := h.1
    simp at this
  · exact h0

/-- Claim C6, as stated for every grid, fails for `MAZE_W = 1`, `MAZE_H = 33554433` and
start cell 33554432 (the last row): the bit index assigned to `req_bit` in the first call is
`33554432 * 4 * 8 * 2 + 0 * 2 + 1 = 2147483649`, above `INT_MAX`, so the run from zeroed
buffers returns with `overflow` raised: the C program has no defined picture. -/
theorem C6_overflows_tall_grid :
    (1 ≤ 1 ∧ 1 ≤ 33554433 ∧ 33554432 < 1 * 33554433 ∧ 1 * 33554433 ≤ 33554433) ∧
    IMG_PACKED_ROW_W 1 = 4 ∧ reqBitIndex 1 33554432 = 2147483649 ∧
    INT_MAX < reqBitIndex 1 33554432 ∧ ¬ IntFits 1 33554433 ∧
    ∃ s', gen_maze_dfs 1 33554433 (fun n => 5 * n + 1) 33554433 33554432
        (initState zeroBuf zeroBuf 0) = some s' ∧ s'.overflow = true :=
  ⟨⟨by decide, by decide, by decide, by decide⟩, by decide, by decide, by decide, by decide,
    overflow_run 1 33554433 33554432 (fun n => 5 * n + 1) (initState zeroBuf zeroBuf 0)
      33554433 (by decide) (fun _ _ => rfl) (by decide) (by decide)⟩

/-- Claim C6, amended: for every grid with `W, H ≥ 1` in which no `int` overflows
(`IntFits`: `2W + 32` and the bit index of the last cell do not exceed `INT_MAX`), start cell
and sequence of draws, `gen_maze_dfs(start)` on a zeroed `mazebuf` and zeroed pixel area
returns without overflow, and then the pixel bit at stored row `y`, column `x` is 1 if and
only if `(y, x) = (2r+1, 2c+1)` for a cell `(r, c)` or `(y, x)` is midway between the pixels
of two adjacent cells joined by an open passage of `mazebuf`; and for adjacent cells the
passage is open exactly when the pixel between them is set, so the picture determines the
passage set. -/
theorem C6_bit_mapping (W H start : Nat) (rng : Nat → Nat) (s0 : MazeState) (fuel : Nat)
    (_hW : 1 ≤ W) (_hH : 1 ≤ H) (hfit : IntFits W H) (hstart : start < W * H)
    (hzero : ∀ i, i < W * H → s0.mazebuf i = 0)
    (hfile : ∀ j, IMG_OFFSET ≤ j → j < FILE_SZ W H → s0.filebuf j = 0)
    (hov : s0.overflow = false) (hfuel : W * H ≤ fuel) :
    ∃ s', gen_maze_dfs W H rng fuel start s0 = some s' ∧ s'.overflow = false ∧
      (∀ y x, y < IMG_PIX_H H → x < 8 * IMG_PACKED_ROW_W W →
        (pixel W s'.filebuf y x = true ↔
          (∃ r c, r < H ∧ c < W ∧ y = 2 * r + 1 ∧ x = 2 * c + 1) ∨
          (∃ a b, Linked W H s'.mazebuf a b ∧ 2 * y = cellRow W a + cellRow W b ∧
            2 * x = cellCol W a + cellCol W b))) ∧
      (∀ i, i < W * H → i % W + 1 < W →
        (openE W H s'.mazebuf i ↔
          pixel W s'.filebuf (cellRow W i) (cellCol W i + 1) = true)) ∧
      (∀ i, i + W < W * H →
        (openS W H s'.mazebuf i ↔
          pixel W s'.filebuf (cellRow W i + 1) (cellCol W i) = true)) := by
  have hW := pos_of_cell hstart
  obtain ⟨s', hrun, hP⟩ := picture_run W H start rng s0 fuel hstart hzero hfile hfuel
  refine ⟨s', hrun, fits_run hfit rng fuel start s0 s' hstart hov hrun, ?_, ?_, ?_⟩
  · intro y x hy hx
    rw [hP y x hy hx]
    constructor
    · rintro (⟨i, h1, _, h2, h3⟩ | ⟨i, h1, h2, h3⟩ | ⟨i, h1, h2, h3⟩)
      · exact Or.inl ⟨i / W, i % W, cell_row_lt h1, cell_col_lt h1, h2, h3⟩
      · have hs := cell_pix_succ h1.2.1
        exact Or.inr ⟨i, i + 1, Or.inl ⟨rfl, h1⟩, by omega, by omega⟩
      · have hs := cell_pix_addW (i := i) hW
        exact Or.inr ⟨i, i + W, Or.inr (Or.inr (Or.inl ⟨rfl, h1⟩)), by omega, by omega⟩
    · rintro (⟨r, c, hr, hc, h2, h3⟩ | ⟨a, b, hl, h2, h3⟩)
      · have hdm := divmod_of_eq (W := W) (x := W * r + c) hc rfl
        have hlt : W * r + c < W * H := by
          have h2 : W * (r + 1) ≤ W * H := Nat.mul_le_mul_left W hr
          rw [Nat.mul_add] at h2
          omega
        refine Or.inl ⟨W * r + c, hlt, trivial, ?_, ?_⟩
        · unfold cellRow; rw [hdm.1]; exact h2
        · unfold cellCol; rw [hdm.2]; exact h3
      · rcases hl with ⟨h, ho⟩ | ⟨h, ho⟩ | ⟨h, ho⟩ | ⟨h, ho⟩
        · subst h
          have hs := cell_pix_succ ho.2.1
          exact Or.inr (Or.inl ⟨a, ho, by omega, by omega⟩)
        · subst h
          have hs := cell_pix_succ ho.2.1
          exact Or.inr (Or.inl ⟨b, ho, by omega, by omega⟩)
        · subst h
          have hs := cell_pix_addW (i := a) hW
          exact Or.inr (Or.inr ⟨a, ho, by omega, by omega⟩)
        · subst h
          have hs := cell_pix_addW (i := b) hW
          exact Or.inr (Or.inr ⟨b, ho, by omega, by omega⟩)
  · intro i hi hcol
    have hy := cellRow_lt hi
    have hx := cellCol_lt hi
    rw [hP _ _ (by omega) hx]
    constructor
    · intro h
      exact Or.inr (Or.inl ⟨i, h, rfl, rfl⟩)
    · rintro (⟨j, _, _, h2, h3⟩ | ⟨j, h1, h2, h3⟩ | ⟨j, h1, h2, h3⟩)
      · exfalso; unfold cellCol at h3; omega
      · have := cell_of_pix h2.symm (by omega)
        subst this; exact h1
      · exfalso; unfold cellRow at h2; omega
  · intro i hi
    have hy := cellRow_lt hi
    have hx := cellCol_lt (show i < W * H by omega)
    have hrow := row_of_lt hi
    have hy2 : cellRow W i + 1 < IMG_PIX_H H := by
      unfold cellRow IMG_PIX_H TILE_PIX_H TILE_PIX_W
      omega
    rw [hP _ _ hy2 (by omega)]
    constructor
    · intro h
      exact Or.inr (Or.inr ⟨i, h, rfl, rfl⟩)
    · rintro (⟨j, _, _, h2, h3⟩ | ⟨j, h1, h2, h3⟩ | ⟨j, h1, h2, h3⟩)
      · exfalso; unfold cellRow at h2; omega
      · exfalso; unfold cellRow at h2; omega
      · have := cell_of_pix (show cellRow W j = cellRow W i by omega) h3.symm
        subst this; exact h1

theorem C6_bit_mapping_witness :
    (1 ≤ 2 ∧ 1 ≤ 3 ∧ IntFits 2 3 ∧ 4 < 2 * 3 ∧ (∀ i, i < 2 * 3 → zeroBuf i = 0) ∧
      (∀ j, IMG_OFFSET ≤ j → j < FILE_SZ 2 3 → zeroBuf j = 0) ∧
      (initState zeroBuf zeroBuf 0).overflow = false ∧ 2 * 3 ≤ 6) ∧
    ∃ s', gen_maze_dfs 2 3 (fun n => 5 * n + 1) 6 4 (initState zeroBuf zeroBuf 0) = some s' ∧
      s'.overflow = false ∧
      (∀ y x, y < IMG_PIX_H 3 → x < 8 * IMG_PACKED_ROW_W 2 →
        (pixel 2 s'.filebuf y x = true ↔
          (∃ r c, r < 3 ∧ c < 2 ∧ y = 2 * r + 1 ∧ x = 2 * c + 1) ∨
          (∃ a b, Linked 2 3 s'.mazebuf a b ∧ 2 * y = cellRow 2 a + cellRow 2 b ∧
            2 * x = cellCol 2 a + cellCol 2 b))) ∧
      (∀ i, i < 2 * 3 → i % 2 + 1 < 2 →
        (openE 2 3 s'.mazebuf i ↔
          pixel 2 s'.filebuf (cellRow 2 i) (cellCol 2 i + 1) = true)) ∧
      (∀ i, i + 2 < 2 * 3 →
        (openS 2 3 s'.mazebuf i ↔
          pixel 2 s'.filebuf (cellRow 2 i + 1) (cellCol 2 i) = true)) :=
  ⟨⟨by decide, by decide, by decide, by decide, fun _ _ => rfl, fun _ _ _ => rfl, rfl,
      by decide⟩,
    C6_bit_mapping 2 3 4 (fun n => 5 * n + 1) (initState zeroBuf zeroBuf 0) 6
      (by decide) (by decide) (by decide) (by decide) (fun _ _ => rfl) (fun _ _ _ => rfl)
      rfl (by decide)⟩

/-- Claim C7, as stated for every grid, fails for `MAZE_W = MAZE_H = 23170` and the last
cell 536848899 as start cell: the stride is 5796 bytes and the bit index assigned to
`req_bit` in the first call is `23169 * 5796 * 8 * 2 + 23169 * 2 + 1 = 2148646723`, above
`INT_MAX`, so the run returns with `overflow` raised: the C program does not set a defined
pixel for that cell. -/
theorem C7_overflows_square_grid :
    (1 ≤ 23170 ∧ 536848899 < 23170 * 23170 ∧ 23170 * 23170 ≤ 536848900) ∧
    IMG_PACKED_ROW_W 23170 = 5796 ∧ reqBitIndex 23170 536848899 = 2148646723 ∧
    INT_MAX < reqBitIndex 23170 536848899 ∧ ¬ IntFits 23170 23170 ∧
    ∃ s', gen_maze_dfs 23170 23170 (fun n => 5 * n + 1) 536848900 536848899
        (initState zeroBuf zeroBuf 0) = some s' ∧ s'.overflow = true :=
  ⟨⟨by decide, by decide, by decide⟩, by decide, by decide, by decide, by decide,
    overflow_run 23170 23170 536848899 (fun n => 5 * n + 1) (initState zeroBuf zeroBuf 0)
      536848900 (by decide) (fun _ _ => rfl) (by decide) (by decide)⟩

/-- Claim C7, amended: for every grid with `W, H ≥ 1` in which no `int` overflows
(`IntFits`), start cell and sequence of draws, the root call `gen_maze_dfs(start)` on a
zeroed `mazebuf` returns without overflow (whatever `filebuf` held before), and then the
pixel bit at stored row `2*(i/W)+1`, column `2*(i%W)+1` is set for every cell index `i`
below `W*H`. -/
theorem C7_all_cells_visited (W H start : Nat) (rng : Nat → Nat) (s0 : MazeState)
    (fuel : Nat) (_hW : 1 ≤ W) (_hH : 1 ≤ H) (hfit : IntFits W H) (hstart : start < W * H)
    (hzero : ∀ i, i < W * H → s0.mazebuf i = 0) (hov : s0.overflow = false)
    (hfuel : W * H ≤ fuel) :
    ∃ s', gen_maze_dfs W H rng fuel start s0 = some s' ∧ s'.overflow = false ∧
      ∀ i, i < W * H → pixel W s'.filebuf (2 * (i / W) + 1) (2 * (i % W) + 1) = true := by
  obtain ⟨s', hrun, _, hall⟩ := maze_run W H start rng s0 fuel hstart hzero hfuel
  obtain ⟨_, hps, hnew⟩ := dfsRule_partial (visitRule W H) rng fuel start s0 s' hstart hrun
  refine ⟨s', hrun, fits_run hfit rng fuel start s0 s' hstart hov hrun, ?_⟩
  intro i hi
  rcases hall i hi with h | h
  · subst h; exact hps
  · exact hnew i hi (hzero i hi) h

theorem C7_all_cells_visited_witness :
    (1 ≤ 2 ∧ 1 ≤ 3 ∧ IntFits 2 3 ∧ 4 < 2 * 3 ∧ (∀ i, i < 2 * 3 → zeroBuf i = 0) ∧
      (initState zeroBuf zeroBuf 0).overflow = false ∧ 2 * 3 ≤ 6) ∧
    ∃ s', gen_maze_dfs 2 3 (fun n => 5 * n + 1) 6 4 (initState zeroBuf zeroBuf 0) = some s' ∧
      s'.overflow = false ∧
      ∀ i, i < 2 * 3 → pixel 2 s'.filebuf (2 * (i / 2) + 1) (2 * (i % 2) + 1) = true :=
  ⟨⟨by decide, by decide, by decide, by decide, fun _ _ => rfl, rfl, by decide⟩,
    C7_all_cells_visited 2 3 4 (fun n => 5 * n + 1) (initState zeroBuf zeroBuf 0) 6
      (by decide) (by decide) (by decide) (by decide) (fun _ _ => rfl) rfl (by decide)⟩

/-- Claim C10, as stated for every grid, fails for `MAZE_W = 1`, `MAZE_H = 40000000` and
start cell 39999999: the bit index assigned to `req_bit` in the first call is
`39999999 * 4 * 8 * 2 + 1 = 2559999937`, above `INT_MAX`, so the run returns with `overflow`
raised: nothing is guaranteed about which bits the C program writes. -/
theorem C10_overflows_tall_grid :
    (1 ≤ 1 ∧ 1 ≤ 40000000 ∧ 39999999 < 1 * 40000000 ∧ 1 * 40000000 ≤ 40000000) ∧
    reqBitIndex 1 39999999 = 2559999937 ∧ INT_MAX < reqBitIndex 1 39999999 ∧
    ¬ IntFits 1 40000000 ∧
    ∃ s', gen_maze_dfs 1 40000000 (fun n => 5 * n + 1) 40000000 39999999
        (initState zeroBuf zeroBuf 0) = some s' ∧ s'.overflow = true :=
  ⟨⟨by decide, by decide, by decide, by decide⟩, by decide, by decide, by decide,
    overflow_run 1 40000000 39999999 (fun n => 5 * n + 1) (initState zeroBuf zeroBuf 0)
      40000000 (by decide) (fun _ _ => rfl) (by decide) (by decide)⟩

/-- Claim C10, amended: for every grid with `W, H ≥ 1` in which no `int` overflows
(`IntFits`), start cell and sequence of draws, the generation from a zeroed `mazebuf` and
zeroed pixel area returns without overflow, and then every pixel-data bit whose column
within its stored row is at least `2W+1` (the bits that pad the row out to
`IMG_PACKED_ROW_W` bytes) is 0. -/
theorem C10_padding_zero (W H start : Nat) (rng : Nat → Nat) (s0 : MazeState) (fuel : Nat)
    (_hW : 1 ≤ W) (_hH : 1 ≤ H) (hfit : IntFits W H) (hstart : start < W * H)
    (hzero : ∀ i, i < W * H → s0.mazebuf i = 0)
    (hfile : ∀ j, IMG_OFFSET ≤ j → j < FILE_SZ W H → s0.filebuf j = 0)
    (hov : s0.overflow = false) (hfuel : W * H ≤ fuel) :
    ∃ s', gen_maze_dfs W H rng fuel start s0 = some s' ∧ s'.overflow = false ∧
      ∀ y x, y < IMG_PIX_H H → 2 * W + 1 ≤ x → x < 8 * IMG_PACKED_ROW_W W →
        pixel W s'.filebuf y x = false := by
  have hW := pos_of_cell hstart
  obtain ⟨s', hrun, hP⟩ := picture_run W H start rng s0 fuel hstart hzero hfile hfuel
  refine ⟨s', hrun, fits_run hfit rng fuel start s0 s' hstart hov hrun, ?_⟩
  intro y x hy hlo hx
  rw [← Bool.not_eq_true, hP y x hy hx]
  have hcol : ∀ i, cellCol W i + 1 ≤ 2 * W := by
    intro i
    have := Nat.mod_lt i hW
    unfold cellCol
    omega
  rintro (⟨i, _, _, _, h3⟩ | ⟨i, h1, _, h3⟩ | ⟨i, _, _, h3⟩)
  · have := hcol i; omega
  · have := h1.2.1
    unfold cellCol at h3
    omega
  · have := hcol i; omega

theorem C10_padding_zero_witness :
    (1 ≤ 2 ∧ 1 ≤ 3 ∧ IntFits 2 3 ∧ 4 < 2 * 3 ∧ (∀ i, i < 2 * 3 → zeroBuf i = 0) ∧
      (∀ j, IMG_OFFSET ≤ j → j < FILE_SZ 2 3 → zeroBuf j = 0) ∧
      (initState zeroBuf zeroBuf 0).overflow = false ∧ 2 * 3 ≤ 6) ∧
    ∃ s', gen_maze_dfs 2 3 (fun n => 5 * n + 1) 6 4 (initState zeroBuf zeroBuf 0) = some s' ∧
      s'.overflow = false ∧
      ∀ y x, y < IMG_PIX_H 3 → 2 * 2 + 1 ≤ x → x < 8 * IMG_PACKED_ROW_W 2 →
        pixel 2 s'.filebuf y x = false :=
  ⟨⟨by decide, by decide, by decide, by decide, fun _ _ => rfl, fun _ _ _ => rfl, rfl,
      by decide⟩,
    C10_padding_zero 2 3 4 (fun n => 5 * n + 1) (initState zeroBuf zeroBuf 0) 6
      (by decide) (by decide) (by decide) (by decide) (fun _ _ => rfl) (fun _ _ _ => rfl)
      rfl (by decide)⟩

/-! ## All accesses are in bounds -/

theorem changed_refl (s : MazeState) : Changed s s :=
  ⟨fun _ h => h, fun _ h => h, fun _ h => absurd rfl h, fun _ h => absurd rfl h⟩

theorem changed_trans {s1 s2 s3 : MazeState} (h1 : Changed s1 s2) (h2 : Changed s2 s3) :
    Changed s1 s3 := by
  obtain ⟨a1, b1, c1, d1⟩ := h1
  obtain ⟨a2, b2, c2, d2⟩ := h2
  refine ⟨fun i h => a2 i (a1 i h), fun j h => b2 j (b1 j h), ?_, ?_⟩
  · intro i h
    by_cases e : s3.mazebuf i = s2.mazebuf i
    · rw [e] at h; exact a2 i (c1 i h)
    · exact c2 i e
  · intro j h
    by_cases e : s3.filebuf j = s2.filebuf j
    · rw [e] at h; exact b2 j (d1 j h)
    · exact d2 j e

theorem changed_setPixel (W : Nat) (s : MazeState) (y x : Nat) :
    Changed s (setPixel W s y x) := by
  refine ⟨fun _ h => h, fun j h => List.mem_cons_of_mem _ h, fun _ h => absurd rfl h, ?_⟩
  intro j h
  simp only [setPixel, MazeState.orFile, setByte] at h ⊢
  by_cases e : j = IMG_OFFSET + y * IMG_PACKED_ROW_W W + x / 8
  · rw [e]; exact List.mem_cons_self _ _
  · rw [if_neg e] at h; exact absurd rfl h

theorem changed_enter (W c : Nat) (s : MazeState) : Changed s (enter W c s) := by
  have h := changed_setPixel W { s with draws := s.draws + 3 } (cellRow W c) (cellCol W c)
  exact h

theorem changed_readMaze (s : MazeState) (i : Nat) : Changed s (s.readMaze i) :=
  ⟨fun _ h => List.mem_cons_of_mem _ h, fun _ h => h, fun _ h => absurd rfl h,
    fun _ h => absurd rfl h⟩

theorem changed_orMaze (s : MazeState) (i f : Nat) : Changed s (s.orMaze i f) := by
  refine ⟨fun _ h => List.mem_cons_of_mem _ h, fun _ h => h, ?_, fun _ h => absurd rfl h⟩
  intro k h
  simp only [MazeState.orMaze, setByte] at h ⊢
  by_cases e : k = i
  · rw [e]; exact List.mem_cons_self _ _
  · rw [if_neg e] at h; exact absurd rfl h

theorem changed_carve (W c d nb : Nat) (s : MazeState) : Changed s (carve W c d nb s) := by
  unfold carve
  exact changed_trans (changed_readMaze s nb)
    (changed_trans (changed_orMaze _ c _)
      (changed_trans (changed_orMaze _ nb _) (changed_setPixel W _ _ _)))

theorem logOK_setPixel {W H : Nat} {s : MazeState} (h : LogOK W H s) {y x : Nat}
    (hy : y < IMG_PIX_H H) (hx : x < 8 * IMG_PACKED_ROW_W W) :
    LogOK W H (setPixel W s y x) := by
  refine ⟨h.1, ?_⟩
  intro j hj
  simp only [setPixel, MazeState.orFile, List.mem_cons] at hj
  rcases hj with e | hj
  · rw [e]; exact pix_addr_bounds hy hx
  · exact h.2 j hj

theorem logOK_readMaze {W H : Nat} {s : MazeState} (h : LogOK W H s) {i : Nat}
    (hi : i < W * H) : LogOK W H (s.readMaze i) := by
  refine ⟨?_, h.2⟩
  intro k hk
  simp only [MazeState.readMaze, List.mem_cons] at hk
  rcases hk with e | hk
  · rw [e]; exact hi
  · exact h.1 k hk

theorem logOK_orMaze {W H : Nat} {s : MazeState} (h : LogOK W H s) {i : Nat}
    (hi : i < W * H) (f : Nat) : LogOK W H (s.orMaze i f) := by
  refine ⟨?_, h.2⟩
  intro k hk
  simp only [MazeState.orMaze, List.mem_cons] at hk
  rcases hk with e | hk
  · rw [e]; exact hi
  · exact h.1 k hk

theorem passRow_lt {W H c : Nat} (hc : c < W * H) (d : Nat) : passRow W c d < IMG_PIX_H H := by
  have := cell_row_lt hc
  unfold passRow cellRow IMG_PIX_H TILE_PIX_H TILE_PIX_W
  split_ifs <;> omega

theorem logRule (W H : Nat) : DfsRule W H (LogPre W H) (LogMid W H) (LogPost W H) where
  enter := by
    rintro c s ⟨hc, hl⟩
    refine ⟨hc, ?_, changed_enter W c s⟩
    have hy := cellRow_lt hc
    have hx := cellCol_lt hc
    exact logOK_setPixel (s := { s with draws := s.draws + 3 }) hl (by omega) (by omega)
  absent := by
    rintro c s0 ds s d h _
    exact h
  seen := by
    rintro c s0 ds s d nb ⟨hc, hl, hch⟩ hn _
    exact ⟨hc, logOK_readMaze hl (neighbor_lt hc hn).1,
      changed_trans hch (changed_readMaze s nb)⟩
  call := by
    rintro c s0 ds s d nb ⟨hc, hl, _⟩ hn _
    have hlt := neighbor_lt hc hn
    refine ⟨hlt.1, ?_⟩
    unfold carve
    exact logOK_setPixel
      (logOK_orMaze (logOK_orMaze (logOK_readMaze hl hlt.1) hc _) hlt.1 _)
      (passRow_lt hc d) (passCol_lt hc d)
  ret := by
    rintro c s0 ds s d nb s' ⟨hc, _, hch⟩ _ _ ⟨hl', hch'⟩
    exact ⟨hc, hl', changed_trans hch (changed_trans (changed_carve W c d nb s) hch')⟩
  exit := by
    rintro c s0 ds s ⟨_, hl, hch⟩ _
    exact ⟨hl, hch⟩

/-- Claim C9, as stated for every grid, fails for `MAZE_W = 2`, `MAZE_H = 33554433` and
start cell 67108864 (row 33554432, column 0): the bit index assigned to `req_bit` in the first
call is `33554432 * 4 * 8 * 2 + 0 * 2 + 1 = 2147483649`, above `INT_MAX`, so the run returns
with `overflow` raised: the index `req_byte` derived from it is not defined by the C
program, and neither is the byte it writes through `img_data`. -/
theorem C9_overflows_index :
    (1 ≤ 2 ∧ 1 ≤ 33554433 ∧ 67108864 < 2 * 33554433 ∧ 2 * 33554433 ≤ 67108866) ∧
    IMG_PACKED_ROW_W 2 = 4 ∧ reqBitIndex 2 67108864 = 2147483649 ∧
    INT_MAX < reqBitIndex 2 67108864 ∧ ¬ IntFits 2 33554433 ∧
    ∃ s', gen_maze_dfs 2 33554433 (fun n => 5 * n + 1) 67108866 67108864
        (initState zeroBuf zeroBuf 0) = some s' ∧ s'.overflow = true :=
  ⟨⟨by decide, by decide, by decide, by decide⟩, by decide, by decide, by decide, by decide,
    overflow_run 2 33554433 67108864 (fun n => 5 * n + 1) (initState zeroBuf zeroBuf 0)
      67108866 (by decide) (fun _ _ => rfl) (by decide) (by decide)⟩

/-- Claim C9, amended: for every grid with `W, H ≥ 1` in which no `int` overflows
(`IntFits`), start cell below `W*H` and sequence of draws, the run of `gen_maze_dfs(start)`
from a zeroed `mazebuf` returns without overflow, every index used to read or write
`mazebuf` is below `W*H`, every byte of `filebuf` written lies in the pixel data region from
`IMG_OFFSET` up to `FILE_SZ`, the two buffers change at logged indices only, and so the 32
header and colour table bytes keep their values. -/
theorem C9_in_bounds (W H start : Nat) (rng : Nat → Nat) (mazebuf filebuf : Nat → Nat)
    (k fuel : Nat) (_hW : 1 ≤ W) (_hH : 1 ≤ H) (hfit : IntFits W H) (hstart : start < W * H)
    (hzero : ∀ i, i < W * H → mazebuf i = 0) (hfuel : W * H ≤ fuel) :
    ∃ s', gen_maze_dfs W H rng fuel start (initState mazebuf filebuf k) = some s' ∧
      s'.overflow = false ∧
      (∀ i, i ∈ s'.mazeLog → i < W * H) ∧
      (∀ j, j ∈ s'.fileLog → IMG_OFFSET ≤ j ∧ j < FILE_SZ W H) ∧
      (∀ i, s'.mazebuf i ≠ mazebuf i → i ∈ s'.mazeLog) ∧
      (∀ j, s'.filebuf j ≠ filebuf j → j ∈ s'.fileLog) ∧
      (∀ j, j < 32 → s'.filebuf j = filebuf j) := by
  obtain ⟨s', hrun, _, _⟩ :=
    maze_run W H start rng (initState mazebuf filebuf k) fuel hstart hzero hfuel
  have hinit : LogPre W H start (initState mazebuf filebuf k) := by
    refine ⟨hstart, ?_, ?_⟩
    · intro i hi; simp [initState] at hi
    · intro j hj; simp [initState] at hj
  obtain ⟨hl, _, _, hm, hf⟩ := dfsRule_partial (logRule W H) rng fuel start _ s' hinit hrun
  refine ⟨s', hrun, fits_run hfit rng fuel start _ s' hstart rfl hrun, hl.1, hl.2, hm, hf, ?_⟩
  intro j hj
  by_contra hne
  have := (hl.2 j (hf j hne)).1
  have h32 : IMG_OFFSET = 32 := by decide
  omega

theorem C9_in_bounds_witness :
    (1 ≤ 2 ∧ 1 ≤ 3 ∧ IntFits 2 3 ∧ 4 < 2 * 3 ∧ (∀ i, i < 2 * 3 → zeroBuf i = 0) ∧
      2 * 3 ≤ 6) ∧
    ∃ s', gen_maze_dfs 2 3 (fun n => 5 * n + 1) 6 4 (initState zeroBuf zeroBuf 0) = some s' ∧
      s'.overflow = false ∧
      (∀ i, i ∈ s'.mazeLog → i < 2 * 3) ∧
      (∀ j, j ∈ s'.fileLog → IMG_OFFSET ≤ j ∧ j < FILE_SZ 2 3) ∧
      (∀ i, s'.mazebuf i ≠ zeroBuf i → i ∈ s'.mazeLog) ∧
      (∀ j, s'.filebuf j ≠ zeroBuf j → j ∈ s'.fileLog) ∧
      (∀ j, j < 32 → s'.filebuf j = zeroBuf j) :=
  ⟨⟨by decide, by decide, by decide, by decide, fun _ _ => rfl, by decide⟩,
    C9_in_bounds 2 3 4 (fun n => 5 * n + 1) zeroBuf zeroBuf 0 6
      (by decide) (by decide) (by decide) (by decide) (fun _ _ => rfl) (by decide)⟩

/-! ## Bit-level claims -/

theorem or_two_pow_of_set (i m : Nat) (h : m &&& 2 ^ i ≠ 0) : m ||| 2 ^ i = m := by
  have hbit : m.testBit i = true := by
    by_contra hb
    apply h
    apply Nat.eq_of_testBit_eq
    intro j
    rw [Nat.testBit_and, Nat.testBit_two_pow, Nat.zero_testBit]
    by_cases e : i = j
    · subst e; simp [hb]
    · simp [e]
  apply Nat.eq_of_testBit_eq
  intro j
  rw [Nat.testBit_or, Nat.testBit_two_pow]
  by_cases e : i = j
  · subst e; simp [hbit]
  · simp [e]

theorem or_mask_of_set (k : Nat) (hk : k < 8) (m : Nat) (h : hasFlag m (0x80 >>> k)) :
    m ||| (0x80 >>> k) = m := by
  unfold hasFlag at h
  interval_cases k
  · exact or_two_pow_of_set 7 m h
  · exact or_two_pow_of_set 6 m h
  · exact or_two_pow_of_set 5 m h
  · exact or_two_pow_of_set 4 m h
  · exact or_two_pow_of_set 3 m h
  · exact or_two_pow_of_set 2 m h
  · exact or_two_pow_of_set 1 m h
  · exact or_two_pow_of_set 0 m h

/-- Claim C12: for every buffer, byte index and bit position 0..7, the pixel-set operation
`buf[byte] |= (0x80 >> bit)` leaves a buffer in which that bit is already set unchanged, and
applying the operation twice gives the same buffer as applying it once. -/
theorem C12_bit_set_idempotent (buf : Nat → Nat) (j k : Nat) (hk : k < 8) :
    (hasFlag (buf j) (0x80 >>> k) → setByte buf j (buf j ||| (0x80 >>> k)) = buf) ∧
    setByte (setByte buf j (buf j ||| (0x80 >>> k))) j
        (setByte buf j (buf j ||| (0x80 >>> k)) j ||| (0x80 >>> k))
      = setByte buf j (buf j ||| (0x80 >>> k)) ∧
    (∀ s : MazeState, ((s.orFile j (0x80 >>> k)).orFile j (0x80 >>> k)).filebuf
      = (s.orFile j (0x80 >>> k)).filebuf) := by
  have h2 : ∀ b : Nat → Nat, setByte (setByte b j (b j ||| (0x80 >>> k))) j
        (setByte b j (b j ||| (0x80 >>> k)) j ||| (0x80 >>> k))
      = setByte b j (b j ||| (0x80 >>> k)) := by
    intro b
    funext i
    unfold setByte
    by_cases e : i = j
    · simp only [e, if_true]
      rw [Nat.or_assoc, Nat.or_self]
    · simp only [e, if_false]
  refine ⟨?_, h2 buf, fun s => h2 s.filebuf⟩
  intro h
  funext i
  unfold setByte
  by_cases e : i = j
  · rw [if_pos e, e]
    exact or_mask_of_set k hk _ h
  · rw [if_neg e]

theorem C12_bit_set_idempotent_witness :
    3 < 8 ∧
    ((hasFlag (setByte zeroBuf 40 0x10 40) (0x80 >>> 3) →
        setByte (setByte zeroBuf 40 0x10) 40 (setByte zeroBuf 40 0x10 40 ||| (0x80 >>> 3))
          = setByte zeroBuf 40 0x10) ∧
      setByte (setByte (setByte zeroBuf 40 0x10) 40
          (setByte zeroBuf 40 0x10 40 ||| (0x80 >>> 3))) 40
          (setByte (setByte zeroBuf 40 0x10) 40
            (setByte zeroBuf 40 0x10 40 ||| (0x80 >>> 3)) 40 ||| (0x80 >>> 3))
        = setByte (setByte zeroBuf 40 0x10) 40
            (setByte zeroBuf 40 0x10 40 ||| (0x80 >>> 3)) ∧
      (∀ s : MazeState, ((s.orFile 40 (0x80 >>> 3)).orFile 40 (0x80 >>> 3)).filebuf
        = (s.orFile 40 (0x80 >>> 3)).filebuf)) :=
  ⟨by decide, C12_bit_set_idempotent (setByte zeroBuf 40 0x10) 40 3 (by decide)⟩

/-- Claim C13, as stated for every grid and cell, fails for `MAZE_W = 1`,
`MAZE_H = 33554433` and cell 33554432 (row 33554432, column 0): the expression assigned to
`req_bit` has the value `33554432 * 4 * 8 * 2 + 0 * 2 + 1 = 2147483649`, above `INT_MAX`, so
the statements before the neighbour loop of `gen_maze_dfs(33554432)` raise `overflow`, and the
call returns with it raised: the bit that the C program sets for this cell is not defined. -/
theorem C13_overflows_last_row :
    (1 ≤ 1 ∧ 1 ≤ 33554433 ∧ 33554432 < 1 * 33554433) ∧
    33554432 / 1 * IMG_PACKED_ROW_W 1 * 8 * 2 = 2147483648 ∧
    reqBitIndex 1 33554432 = 2147483649 ∧ INT_MAX < reqBitIndex 1 33554432 ∧
    gen_maze_dfs 1 33554433 (fun n => n) (33554432 + 1) 33554432 (initState zeroBuf zeroBuf 0)
      = (dirOrder (fun n => n) (initState zeroBuf zeroBuf 0).draws).foldlM
          (fun s d =>
            step 1 33554433 (gen_maze_dfs 1 33554433 (fun n => n) 33554432) 33554432 d s)
          (enter 1 33554432 (initState zeroBuf zeroBuf 0)) ∧
    (enter 1 33554432 (initState zeroBuf zeroBuf 0)).overflow = true ∧
    ∃ s', gen_maze_dfs 1 33554433 (fun n => n) (33554432 + 1) 33554432
        (initState zeroBuf zeroBuf 0) = some s' ∧ s'.overflow = true :=
  ⟨⟨by decide, by decide, by decide⟩, by decide, by decide, by decide,
    by rw [gen_maze_dfs, dfs_body_eq], rfl,
    overflow_run 1 33554433 33554432 (fun n => n) (initState zeroBuf zeroBuf 0)
      (33554432 + 1) (by decide) (fun _ _ => rfl) (by decide) (by decide)⟩

/-- Claim C13, amended: for every grid with `W, H ≥ 1` in which no `int` overflows
(`IntFits`) and cell index `i` below `W*H`, with `row = i / W` and `col = i % W`, the
statement before the neighbour loop of `gen_maze_dfs(i)` writes the byte
`IMG_OFFSET + (2*row+1)*IMG_PACKED_ROW_W + (2*col+1)/8` of `filebuf` with the mask
`0x80 >> ((2*col+1) % 8)`, which sets the pixel at stored row `2*row+1`, column `2*col+1` and
no other pixel; the bit index fits in an `int` and no overflow is raised. -/
theorem C13_cell_pixel (W H i : Nat) (rng : Nat → Nat) (fuel : Nat) (s : MazeState)
    (_hW : 1 ≤ W) (_hH : 1 ≤ H) (hfit : IntFits W H) (hi : i < W * H) :
    img_data W (reqBitIndex W i / 8)
      = IMG_OFFSET + (2 * (i / W) + 1) * IMG_PACKED_ROW_W W + (2 * (i % W) + 1) / 8 ∧
    reqBitIndex W i % 8 = (2 * (i % W) + 1) % 8 ∧
    gen_maze_dfs W H rng (fuel + 1) i s
      = (dirOrder rng s.draws).foldlM
          (fun s d => step W H (gen_maze_dfs W H rng fuel) i d s) (enter W i s) ∧
    (enter W i s).filebuf
      = setByte s.filebuf
          (IMG_OFFSET + (2 * (i / W) + 1) * IMG_PACKED_ROW_W W + (2 * (i % W) + 1) / 8)
          (s.filebuf
              (IMG_OFFSET + (2 * (i / W) + 1) * IMG_PACKED_ROW_W W + (2 * (i % W) + 1) / 8)
            ||| (0x80 >>> ((2 * (i % W) + 1) % 8))) ∧
    (enter W i s).fileLog
      = (IMG_OFFSET + (2 * (i / W) + 1) * IMG_PACKED_ROW_W W + (2 * (i % W) + 1) / 8)
          :: s.fileLog ∧
    (∀ y x, x < 8 * IMG_PACKED_ROW_W W →
      (pixel W (enter W i s).filebuf y x = true ↔
        pixel W s.filebuf y x = true ∨ (y = 2 * (i / W) + 1 ∧ x = 2 * (i % W) + 1))) ∧
    reqBitIndex W i ≤ INT_MAX ∧ (enter W i s).overflow = s.overflow := by
  have hle := le_trans (reqBitIndex_le_last hi) hfit.2
  have hov : (enter W i s).overflow = s.overflow := by
    rw [enter_overflow, decide_eq_false (by omega), Bool.or_false]
  refine ⟨?_, ?_, ?_, rfl, rfl, ?_, hle, hov⟩
  · unfold img_data reqBitIndex
    rw [req_byte_eq]
    have : (2 * (i / W) + 1) * IMG_PACKED_ROW_W W
        = 2 * (i / W * IMG_PACKED_ROW_W W) + IMG_PACKED_ROW_W W := by ring
    rw [this]; omega
  · unfold reqBitIndex
    rw [req_bit_eq]
  · rw [gen_maze_dfs, dfs_body_eq]
  · intro y x hx
    have hcc := cellCol_lt hi
    unfold enter
    rw [pixel_setPixel W _ (by omega) hx]
    rfl

theorem C13_cell_pixel_witness :
    (1 ≤ 5 ∧ 1 ≤ 3 ∧ IntFits 5 3 ∧ 13 < 5 * 3) ∧
    (img_data 5 (reqBitIndex 5 13 / 8)
      = IMG_OFFSET + (2 * (13 / 5) + 1) * IMG_PACKED_ROW_W 5 + (2 * (13 % 5) + 1) / 8 ∧
    reqBitIndex 5 13 % 8 = (2 * (13 % 5) + 1) % 8 ∧
    gen_maze_dfs 5 3 (fun n => n) (2 + 1) 13 (initState zeroBuf zeroBuf 0)
      = (dirOrder (fun n => n) (initState zeroBuf zeroBuf 0).draws).foldlM
          (fun s d => step 5 3 (gen_maze_dfs 5 3 (fun n => n) 2) 13 d s)
          (enter 5 13 (initState zeroBuf zeroBuf 0)) ∧
    (enter 5 13 (initState zeroBuf zeroBuf 0)).filebuf
      = setByte (initState zeroBuf zeroBuf 0).filebuf
          (IMG_OFFSET + (2 * (13 / 5) + 1) * IMG_PACKED_ROW_W 5 + (2 * (13 % 5) + 1) / 8)
          ((initState zeroBuf zeroBuf 0).filebuf
              (IMG_OFFSET + (2 * (13 / 5) + 1) * IMG_PACKED_ROW_W 5 + (2 * (13 % 5) + 1) / 8)
            ||| (0x80 >>> ((2 * (13 % 5) + 1) % 8))) ∧
    (enter 5 13 (initState zeroBuf zeroBuf 0)).fileLog
      = (IMG_OFFSET + (2 * (13 / 5) + 1) * IMG_PACKED_ROW_W 5 + (2 * (13 % 5) + 1) / 8)
          :: (initState zeroBuf zeroBuf 0).fileLog ∧
    (∀ y x, x < 8 * IMG_PACKED_ROW_W 5 →
      (pixel 5 (enter 5 13 (initState zeroBuf zeroBuf 0)).filebuf y x = true ↔
        pixel 5 (initState zeroBuf zeroBuf 0).filebuf y x = true ∨
          (y = 2 * (13 / 5) + 1 ∧ x = 2 * (13 % 5) + 1))) ∧
    reqBitIndex 5 13 ≤ INT_MAX ∧
    (enter 5 13 (initState zeroBuf zeroBuf 0)).overflow
      = (initState zeroBuf zeroBuf 0).overflow) :=
  ⟨⟨by decide, by decide, by decide, by decide⟩,
    C13_cell_pixel 5 3 13 (fun n => n) 2 (initState zeroBuf zeroBuf 0)
      (by decide) (by decide) (by decide) (by decide)⟩

theorem dfs_body_reqBit (W H : Nat) (rng : Nat → Nat)
    (call : Nat → MazeState → Option MazeState) (c : Nat) (s : MazeState) :
    dfs_body W H rng call c s
      = [0, 1, 2, 3].foldlM
          (fun st i => visit_dir W H call c (c % W) (reqBitIndex W c / 8)
            (reqBitIndex W c % 8) ((shuffle_dirs rng s.draws).getD i 0) st)
          (enter W c s) := by
  unfold dfs_body enter reqBitIndex
  simp only [orFile_cell]

/-- Claim C14, as stated for every cell, fails for `MAZE_W = MAZE_H = 23170`, the last
cell 536848899 (row 23169, column 23169) and direction NORTH, whose bounds check passes: the
expression assigned to `req_bit` has the value `23169 * 5796 * 8 * 2 + 23169 * 2 + 1
= 2148646723`, above `INT_MAX`, so the state in which the NORTH case sets its bit and calls
`gen_maze_dfs(next)` has `overflow` raised, and so has the state in which the call on that
cell returns: the values of `req_byte` and `req_bit` that address the passage bit are not
defined by the C program. -/
theorem C14_overflows_north_carve :
    (536848899 < 23170 * 23170 ∧ neighbor 23170 23170 536848899 NORTH = some 536825729) ∧
    reqBitIndex 23170 536848899 = 2148646723 ∧ INT_MAX < reqBitIndex 23170 536848899 ∧
    ¬ IntFits 23170 23170 ∧
    (carve 23170 536848899 NORTH 536825729
      (enter 23170 536848899 (initState zeroBuf zeroBuf 0))).overflow = true ∧
    ∃ s', gen_maze_dfs 23170 23170 (fun _ => 0) (23170 * 23170) 536848899
        (initState zeroBuf zeroBuf 0) = some s' ∧ s'.overflow = true :=
  ⟨⟨by decide, by decide⟩, by decide, by decide, by decide, rfl,
    overflow_run 23170 23170 536848899 (fun _ => 0) (initState zeroBuf zeroBuf 0)
      (23170 * 23170) (by decide) (fun _ _ => rfl) (le_refl _) (by decide)⟩

/-- Claim C14, amended: in every grid in which no `int` overflows (`IntFits`), for every cell
`c = (row, col)` and direction whose bounds check passes, the bit set when carving is the
pixel between the two cell pixels: north at stored row `2*row`, column `2*col+1`; south at
row `2*row+2`, column `2*col+1`; east at row `2*row+1`, column `2*col+2` (bit 0, mask `0x80`,
of the next byte when the bit-in-byte of the cell is 7); west at row `2*row+1`, column
`2*col`.  The `switch` case calls `gen_maze_dfs(next)` after the two mask updates and after
setting exactly that pixel, and carving from the neighbour back toward `c` addresses the same
pixel.  The bit indices of `c` and of the neighbour fit in an `int`, the body of the call
hands `req_byte` and `req_bit` derived from the bit index of `c` to the `switch`, and no
overflow is raised. -/
theorem C14_passage_pixel (W H c d nb : Nat) (call : Nat → MazeState → Option MazeState)
    (s : MazeState) (hfit : IntFits W H) (hc : c < W * H)
    (hn : neighbor W H c d = some nb) :
    (d = NORTH → passRow W c d = 2 * (c / W) ∧ passCol W c d = 2 * (c % W) + 1) ∧
    (d = SOUTH → passRow W c d = 2 * (c / W) + 2 ∧ passCol W c d = 2 * (c % W) + 1) ∧
    (d = EAST → passRow W c d = 2 * (c / W) + 1 ∧ passCol W c d = 2 * (c % W) + 2 ∧
      (reqBitIndex W c % 8 = 7 →
        passCol W c d / 8 = (2 * (c % W) + 1) / 8 + 1 ∧ passCol W c d % 8 = 0 ∧
          0x80 >>> (passCol W c d % 8) = 0x80)) ∧
    (d = WEST → passRow W c d = 2 * (c / W) + 1 ∧ passCol W c d = 2 * (c % W)) ∧
    (s.mazebuf nb = 0 →
      visit_dir W H call c (c % W) (reqBitIndex W c / 8) (reqBitIndex W c % 8) d s
        = call nb (carve W c d nb s)) ∧
    (carve W c d nb s).filebuf
      = setByte s.filebuf
          (IMG_OFFSET + passRow W c d * IMG_PACKED_ROW_W W + passCol W c d / 8)
          (s.filebuf (IMG_OFFSET + passRow W c d * IMG_PACKED_ROW_W W + passCol W c d / 8)
            ||| (0x80 >>> (passCol W c d % 8))) ∧
    (∀ y x, x < 8 * IMG_PACKED_ROW_W W →
      (pixel W (carve W c d nb s).filebuf y x = true ↔
        pixel W s.filebuf y x = true ∨ (y = passRow W c d ∧ x = passCol W c d))) ∧
    (∀ d', neighbor W H nb d' = some c →
      passRow W nb d' = passRow W c d ∧ passCol W nb d' = passCol W c d) ∧
    reqBitIndex W c ≤ INT_MAX ∧ reqBitIndex W nb ≤ INT_MAX ∧
    (∀ (rng : Nat → Nat) (s0 : MazeState),
      dfs_body W H rng call c s0
        = [0, 1, 2, 3].foldlM
            (fun st i => visit_dir W H call c (c % W) (reqBitIndex W c / 8)
              (reqBitIndex W c % 8) ((shuffle_dirs rng s0.draws).getD i 0) st)
            (enter W c s0) ∧
      (enter W c s0).overflow = s0.overflow) ∧
    (carve W c d nb s).overflow = s.overflow := by
  have hlt := neighbor_lt hc hn
  have hle := le_trans (reqBitIndex_le_last hc) hfit.2
  have hle' := le_trans (reqBitIndex_le_last hlt.1) hfit.2
  have hbody : ∀ (rng : Nat → Nat) (s0 : MazeState),
      dfs_body W H rng call c s0
        = [0, 1, 2, 3].foldlM
            (fun st i => visit_dir W H call c (c % W) (reqBitIndex W c / 8)
              (reqBitIndex W c % 8) ((shuffle_dirs rng s0.draws).getD i 0) st)
            (enter W c s0) ∧
      (enter W c s0).overflow = s0.overflow := by
    intro rng s0
    refine ⟨dfs_body_reqBit W H rng call c s0, ?_⟩
    rw [enter_overflow, decide_eq_false (by omega), Bool.or_false]
  refine ⟨?_, ?_, ?_, ?_, ?_, rfl, ?_, ?_, hle, hle', hbody, rfl⟩
  · intro h; subst h
    simp [passRow, passCol, cellRow, cellCol, NORTH, EAST, WEST]
  · intro h; subst h
    simp [passRow, passCol, cellRow, cellCol, NORTH, EAST, WEST, SOUTH]
  · intro h; subst h
    have hbit : reqBitIndex W c % 8 = (2 * (c % W) + 1) % 8 := by
      unfold reqBitIndex; rw [req_bit_eq]
    have h1 : passRow W c EAST = 2 * (c / W) + 1 := by
      simp [passRow, cellRow, NORTH, EAST, SOUTH]
    have h2 : passCol W c EAST = 2 * (c % W) + 2 := by
      simp [passCol, cellCol, EAST]
    refine ⟨h1, h2, ?_⟩
    intro h7
    rw [h2]
    have e : (2 * (c % W) + 2) % 8 = 0 := by omega
    rw [e]
    exact ⟨by omega, rfl, rfl⟩
  · intro h; subst h
    simp [passRow, passCol, cellRow, cellCol, NORTH, EAST, WEST, SOUTH]
  · intro hz
    have hv := visit_dir_eq_step W H call c d s
    unfold reqBitIndex
    rw [hv]
    unfold step
    rw [hn]
    simp only [TILE_UNVISITED]
    rw [if_pos hz]
  · intro y x hx
    unfold carve
    rw [pixel_setPixel W _ (passCol_lt hc d) hx]
    rfl
  · intro d' hn'
    have hW := pos_of_cell hc
    rcases carve_shape hc hn with ⟨b, _, hcol, hcb, _, hr, hcl⟩ | ⟨b, _, hcb, _, hr, hcl⟩ <;>
      rcases carve_shape hlt.1 hn' with
        ⟨b', _, hcol', hcb', _, hr', hcl'⟩ | ⟨b', _, hcb', _, hr', hcl'⟩
    · have e : b' = b := by omega
      subst e
      exact ⟨hr'.trans hr.symm, hcl'.trans hcl.symm⟩
    · exfalso
      have hm := Nat.mod_lt b hW
      omega
    · exfalso
      have hm := Nat.mod_lt b' hW
      omega
    · have e : b' = b := by omega
      subst e
      exact ⟨hr'.trans hr.symm, hcl'.trans hcl.symm⟩

theorem C14_passage_pixel_witness :
    (IntFits 4 3 ∧ 7 < 4 * 3 ∧ neighbor 4 3 7 WEST = some 6) ∧
    ((WEST = NORTH → passRow 4 7 WEST = 2 * (7 / 4) ∧ passCol 4 7 WEST = 2 * (7 % 4) + 1) ∧
    (WEST = SOUTH → passRow 4 7 WEST = 2 * (7 / 4) + 2 ∧ passCol 4 7 WEST = 2 * (7 % 4) + 1) ∧
    (WEST = EAST → passRow 4 7 WEST = 2 * (7 / 4) + 1 ∧ passCol 4 7 WEST = 2 * (7 % 4) + 2 ∧
      (reqBitIndex 4 7 % 8 = 7 →
        passCol 4 7 WEST / 8 = (2 * (7 % 4) + 1) / 8 + 1 ∧ passCol 4 7 WEST % 8 = 0 ∧
          0x80 >>> (passCol 4 7 WEST % 8) = 0x80)) ∧
    (WEST = WEST → passRow 4 7 WEST = 2 * (7 / 4) + 1 ∧ passCol 4 7 WEST = 2 * (7 % 4)) ∧
    ((initState zeroBuf zeroBuf 0).mazebuf 6 = 0 →
      visit_dir 4 3 (fun _ st => some st) 7 (7 % 4) (reqBitIndex 4 7 / 8)
          (reqBitIndex 4 7 % 8) WEST (initState zeroBuf zeroBuf 0)
        = (fun _ st => some st) 6 (carve 4 7 WEST 6 (initState zeroBuf zeroBuf 0))) ∧
    (carve 4 7 WEST 6 (initState zeroBuf zeroBuf 0)).filebuf
      = setByte (initState zeroBuf zeroBuf 0).filebuf
          (IMG_OFFSET + passRow 4 7 WEST * IMG_PACKED_ROW_W 4 + passCol 4 7 WEST / 8)
          ((initState zeroBuf zeroBuf 0).filebuf
              (IMG_OFFSET + passRow 4 7 WEST * IMG_PACKED_ROW_W 4 + passCol 4 7 WEST / 8)
            ||| (0x80 >>> (passCol 4 7 WEST % 8))) ∧
    (∀ y x, x < 8 * IMG_PACKED_ROW_W 4 →
      (pixel 4 (carve 4 7 WEST 6 (initState zeroBuf zeroBuf 0)).filebuf y x = true ↔
        pixel 4 (initState zeroBuf zeroBuf 0).filebuf y x = true ∨
          (y = passRow 4 7 WEST ∧ x = passCol 4 7 WEST))) ∧
    (∀ d', neighbor 4 3 6 d' = some 7 →
      passRow 4 6 d' = passRow 4 7 WEST ∧ passCol 4 6 d' = passCol 4 7 WEST) ∧
    reqBitIndex 4 7 ≤ INT_MAX ∧ reqBitIndex 4 6 ≤ INT_MAX ∧
    (∀ (rng : Nat → Nat) (s0 : MazeState),
      dfs_body 4 3 rng (fun _ st => some st) 7 s0
        = [0, 1, 2, 3].foldlM
            (fun st i => visit_dir 4 3 (fun _ st => some st) 7 (7 % 4) (reqBitIndex 4 7 / 8)
              (reqBitIndex 4 7 % 8) ((shuffle_dirs rng s0.draws).getD i 0) st)
            (enter 4 7 s0) ∧
      (enter 4 7 s0).overflow = s0.overflow) ∧
    (carve 4 7 WEST 6 (initState zeroBuf zeroBuf 0)).overflow
      = (initState zeroBuf zeroBuf 0).overflow) :=
  ⟨⟨by decide, by decide, by decide⟩,
    C14_passage_pixel 4 3 7 WEST 6 (fun _ st => some st) (initState zeroBuf zeroBuf 0)
      (by decide) (by decide) (by decide)⟩

/-! ## The shuffle -/

theorem shuffle_dirs_eq (rng : Nat → Nat) (k : Nat) :
    shuffle_dirs rng k
      = shuffleOf (rng k % (3 + 1)) (rng (k + 1) % (2 + 1)) (rng (k + 2) % (1 + 1)) := rfl

theorem shuffleOf_perm : ∀ a, a < 4 → ∀ b, b < 3 → ∀ c, c < 2 →
    (shuffleOf a b c).Perm [NORTH, EAST, SOUTH, WEST] := by
  decide

theorem shuffleOf_nodup :
    (((List.range 4).product ((List.range 3).product (List.range 2))).map
      (fun t => shuffleOf t.1 t.2.1 t.2.2)).Nodup := by
  decide

theorem shuffleOf_injective : ∀ a, a < 4 → ∀ b, b < 3 → ∀ c, c < 2 →
    ∀ a', a' < 4 → ∀ b', b' < 3 → ∀ c', c' < 2 →
    shuffleOf a b c = shuffleOf a' b' c' → a = a' ∧ b = b' ∧ c = c' := by
  intro a ha b hb c hc a' ha' b' hb' c' hc' h
  have h1 : (a, b, c) ∈ (List.range 4).product ((List.range 3).product (List.range 2)) := by
    simp [List.mem_product, ha, hb, hc]
  have h2 : (a', b', c') ∈ (List.range 4).product ((List.range 3).product (List.range 2)) := by
    simp [List.mem_product, ha', hb', hc']
  have := List.inj_on_of_nodup_map shuffleOf_nodup h1 h2 h
  simpa using this

theorem shuffleOf_surjective (l : List Nat) (hl : l.Perm [NORTH, EAST, SOUTH, WEST]) :
    ∃ a, a < 4 ∧ ∃ b, b < 3 ∧ ∃ c, c < 2 ∧ shuffleOf a b c = l := by
  have hlen := hl.length_eq
  have hnd : l.Nodup := hl.nodup_iff.2 (by decide)
  have hmem : ∀ e, e ∈ l → e < 4 := by
    intro e he
    have := hl.subset he
    revert this
    simp only [NORTH, EAST, SOUTH, WEST, List.mem_cons, List.mem_singleton, List.not_mem_nil,
      or_false]
    omega
  match l, hlen, hnd, hmem with
  | [w, x, y, z], _, hnd, hmem =>
    have hw := hmem w (by simp)
    have hx := hmem x (by simp)
    have hy := hmem y (by simp)
    have hz := hmem z (by simp)
    clear hmem hl
    interval_cases w <;> interval_cases x <;> interval_cases y <;> interval_cases z <;>
      first
        | (exfalso; revert hnd; decide)
        | decide

/-- Claim C15: for all non-negative values returned by `rand()`, the array `dirs` after the
shuffle loop is a permutation of `NORTH, EAST, SOUTH, WEST`; the order is the function
`shuffleOf` of the three reduced draws `j3 < 4`, `j2 < 3`, `j1 < 2`, and that function is a
bijection from the 24 triples onto the 24 permutations, so that every permutation arises from
exactly one triple of reduced draws. -/
theorem C15_shuffle_bijection :
    (∀ (rng : Nat → Nat) (k : Nat),
      (shuffle_dirs rng k).Perm [NORTH, EAST, SOUTH, WEST] ∧
      shuffle_dirs rng k = shuffleOf (rng k % 4) (rng (k + 1) % 3) (rng (k + 2) % 2)) ∧
    (∀ a, a < 4 → ∀ b, b < 3 → ∀ c, c < 2 →
      (shuffleOf a b c).Perm [NORTH, EAST, SOUTH, WEST]) ∧
    (∀ a, a < 4 → ∀ b, b < 3 → ∀ c, c < 2 → ∀ a', a' < 4 → ∀ b', b' < 3 → ∀ c', c' < 2 →
      shuffleOf a b c = shuffleOf a' b' c' → a = a' ∧ b = b' ∧ c = c') ∧
    (∀ l : List Nat, l.Perm [NORTH, EAST, SOUTH, WEST] →
      ∃ a, a < 4 ∧ ∃ b, b < 3 ∧ ∃ c, c < 2 ∧ shuffleOf a b c = l) ∧
    (List.permutations [NORTH, EAST, SOUTH, WEST]).length = 24 := by
  refine ⟨?_, shuffleOf_perm, shuffleOf_injective, shuffleOf_surjective,
    by rw [List.length_permutations]; rfl⟩
  · intro rng k
    refine ⟨?_, rfl⟩
    rw [shuffle_dirs_eq]
    exact shuffleOf_perm _ (Nat.mod_lt _ (by norm_num)) _ (Nat.mod_lt _ (by norm_num)) _
      (Nat.mod_lt _ (by norm_num))

/-! ## Byte order -/

theorem bytes32_roundtrip (b0 b1 b2 b3 : Nat) (h0 : b0 < 256) (h1 : b1 < 256)
    (h2 : b2 < 256) (h3 : b3 < 256) :
    [(b0 * 16777216 + b1 * 65536 + b2 * 256 + b3) / 16777216 % 256,
      (b0 * 16777216 + b1 * 65536 + b2 * 256 + b3) / 65536 % 256,
      (b0 * 16777216 + b1 * 65536 + b2 * 256 + b3) / 256 % 256,
      (b0 * 16777216 + b1 * 65536 + b2 * 256 + b3) % 256] = [b0, b1, b2, b3] := by
  have e0 : (b0 * 16777216 + b1 * 65536 + b2 * 256 + b3) / 16777216 % 256 = b0 := by omega
  have e1 : (b0 * 16777216 + b1 * 65536 + b2 * 256 + b3) / 65536 % 256 = b1 := by omega
  have e2 : (b0 * 16777216 + b1 * 65536 + b2 * 256 + b3) / 256 % 256 = b2 := by omega
  have e3 : (b0 * 16777216 + b1 * 65536 + b2 * 256 + b3) % 256 = b3 := by omega
  rw [e0, e1, e2, e3]

theorem bytes16_roundtrip (b0 b1 : Nat) (h0 : b0 < 256) (h1 : b1 < 256) :
    [(b0 * 256 + b1) / 256 % 256, (b0 * 256 + b1) % 256] = [b0, b1] := by
  have e0 : (b0 * 256 + b1) / 256 % 256 = b0 := by omega
  have e1 : (b0 * 256 + b1) % 256 = b1 := by omega
  rw [e0, e1]

theorem mem32_le_32 (be : Bool) (x : Nat) :
    mem32 be (le_32 be x)
      = [x % 256, x / 256 % 256, x / 65536 % 256, x / 16777216 % 256] := by
  have h0 : x % 4294967296 % 256 = x % 256 := by omega
  have h1 : x % 4294967296 / 256 % 256 = x / 256 % 256 := by omega
  have h2 : x % 4294967296 / 65536 % 256 = x / 65536 % 256 := by omega
  have h3 : x % 4294967296 / 16777216 % 256 = x / 16777216 % 256 := by omega
  cases be
  · have h : is_be false = false := by decide
    simp only [le_32, h, mem32, Bool.false_eq_true, if_false]
    rw [h0, h1, h2, h3]
  · have h : is_be true = true := by decide
    simp only [le_32, h, mem32, val32, if_true, List.getD_cons_zero, List.getD_cons_succ,
      List.set_cons_zero, List.set_cons_succ]
    rw [h0, h1, h2, h3]
    exact bytes32_roundtrip _ _ _ _ (Nat.mod_lt _ (by norm_num)) (Nat.mod_lt _ (by norm_num))
      (Nat.mod_lt _ (by norm_num)) (Nat.mod_lt _ (by norm_num))

theorem mem16_le_16 (be : Bool) (x : Nat) :
    mem16 be (le_16 be x) = [x % 256, x / 256 % 256] := by
  have h0 : x % 65536 % 256 = x % 256 := by omega
  have h1 : x % 65536 / 256 % 256 = x / 256 % 256 := by omega
  cases be
  · have h : is_be false = false := by decide
    simp only [le_16, h, mem16, Bool.false_eq_true, if_false]
    rw [h0, h1]
  · have h : is_be true = true := by decide
    simp only [le_16, h, mem16, val16, if_true, List.getD_cons_zero, List.getD_cons_succ,
      List.set_cons_zero, List.set_cons_succ]
    rw [h0, h1]
    exact bytes16_roundtrip _ _ (Nat.mod_lt _ (by norm_num)) (Nat.mod_lt _ (by norm_num))

theorem and_255 (v : Nat) : v &&& 0xFF = v % 256 :=
  Nat.and_pow_two_sub_one_eq_mod v 8

theorem storeBytes_four (buf : Nat → Nat) (k a b c d : Nat) :
    storeBytes buf k [a, b, c, d] k = a ∧ storeBytes buf k [a, b, c, d] (k + 1) = b ∧
    storeBytes buf k [a, b, c, d] (k + 2) = c ∧ storeBytes buf k [a, b, c, d] (k + 3) = d := by
  simp only [storeBytes, setByte]
  refine ⟨?_, ?_, ?_, ?_⟩ <;> split_ifs <;> first | rfl | omega

theorem storeBytes_two (buf : Nat → Nat) (k a b : Nat) :
    storeBytes buf k [a, b] k = a ∧ storeBytes buf k [a, b] (k + 1) = b := by
  simp only [storeBytes, setByte]
  refine ⟨?_, ?_⟩ <;> split_ifs <;> first | rfl | omega

/-- Claim C17: for every 32-bit value `v` and both host byte orders, storing `le_32(v)` in
host byte order writes the bytes `v & 0xFF`, `(v >> 8) & 0xFF`, `(v >> 16) & 0xFF`,
`(v >> 24) & 0xFF` in increasing address order; for every 16-bit value `w`, storing
`le_16(w)` writes `w & 0xFF` then `w >> 8`; so the three header writers produce the same
bytes on little-endian and on big-endian hosts. -/
theorem C17_little_endian (be : Bool) (v w : Nat) (_hv : v < 4294967296) (hw : w < 65536) :
    mem32 be (le_32 be v)
      = [v &&& 0xFF, (v >>> 8) &&& 0xFF, (v >>> 16) &&& 0xFF, (v >>> 24) &&& 0xFF] ∧
    (∀ (buf : Nat → Nat) (k : Nat),
      store32 be buf k (le_32 be v) k = v &&& 0xFF ∧
      store32 be buf k (le_32 be v) (k + 1) = (v >>> 8) &&& 0xFF ∧
      store32 be buf k (le_32 be v) (k + 2) = (v >>> 16) &&& 0xFF ∧
      store32 be buf k (le_32 be v) (k + 3) = (v >>> 24) &&& 0xFF) ∧
    mem16 be (le_16 be w) = [w &&& 0xFF, w >>> 8] ∧
    (∀ (buf : Nat → Nat) (k : Nat),
      store16 be buf k (le_16 be w) k = w &&& 0xFF ∧
      store16 be buf k (le_16 be w) (k + 1) = w >>> 8) ∧
    (∀ (W H : Nat) (buf : Nat → Nat),
      write_headers W H be buf = write_headers W H false buf) := by
  have a0 : v &&& 0xFF = v % 256 := and_255 v
  have a1 : (v >>> 8) &&& 0xFF = v / 256 % 256 := by
    rw [and_255, Nat.shiftRight_eq_div_pow]
  have a2 : (v >>> 16) &&& 0xFF = v / 65536 % 256 := by
    rw [and_255, Nat.shiftRight_eq_div_pow]
  have a3 : (v >>> 24) &&& 0xFF = v / 16777216 % 256 := by
    rw [and_255, Nat.shiftRight_eq_div_pow]
  have c0 : w &&& 0xFF = w % 256 := and_255 w
  have c1 : w >>> 8 = w / 256 % 256 := by
    rw [Nat.shiftRight_eq_div_pow]
    have : w / 2 ^ 8 = w / 256 := rfl
    omega
  have e32 : mem32 be (le_32 be v)
      = [v &&& 0xFF, (v >>> 8) &&& 0xFF, (v >>> 16) &&& 0xFF, (v >>> 24) &&& 0xFF] := by
    rw [mem32_le_32, a0, a1, a2, a3]
  have e16 : mem16 be (le_16 be w) = [w &&& 0xFF, w >>> 8] := by
    rw [mem16_le_16, c0, c1]
  refine ⟨e32, ?_, e16, ?_, ?_⟩
  · intro buf k
    unfold store32
    rw [e32]
    exact storeBytes_four buf k _ _ _ _
  · intro buf k
    unfold store16
    rw [e16]
    exact storeBytes_two buf k _ _
  · intro W H buf
    unfold write_headers write_info_header write_file_header store32 store16
    simp only [mem32_le_32, mem16_le_16]

theorem C17_little_endian_witness :
    (305419896 < 4294967296 ∧ 43981 < 65536) ∧
    (mem32 true (le_32 true 305419896)
      = [305419896 &&& 0xFF, (305419896 >>> 8) &&& 0xFF, (305419896 >>> 16) &&& 0xFF,
          (305419896 >>> 24) &&& 0xFF] ∧
    (∀ (buf : Nat → Nat) (k : Nat),
      store32 true buf k (le_32 true 305419896) k = 305419896 &&& 0xFF ∧
      store32 true buf k (le_32 true 305419896) (k + 1) = (305419896 >>> 8) &&& 0xFF ∧
      store32 true buf k (le_32 true 305419896) (k + 2) = (305419896 >>> 16) &&& 0xFF ∧
      store32 true buf k (le_32 true 305419896) (k + 3) = (305419896 >>> 24) &&& 0xFF) ∧
    mem16 true (le_16 true 43981) = [43981 &&& 0xFF, 43981 >>> 8] ∧
    (∀ (buf : Nat → Nat) (k : Nat),
      store16 true buf k (le_16 true 43981) k = 43981 &&& 0xFF ∧
      store16 true buf k (le_16 true 43981) (k + 1) = 43981 >>> 8) ∧
    (∀ (W H : Nat) (buf : Nat → Nat),
      write_headers W H true buf = write_headers W H false buf)) :=
  ⟨⟨by decide, by decide⟩, C17_little_endian true 305419896 43981 (by decide) (by decide)⟩

/-! ## Matching direction flags -/

theorem tile_lt : TILE_N < 2 ^ 4 ∧ TILE_E < 2 ^ 4 ∧ TILE_S < 2 ^ 4 ∧ TILE_W < 2 ^ 4 := by
  decide

theorem flagsOK_addE {W H : Nat} {m : Nat → Nat} (h : FlagsOK W H m) {b : Nat}
    (hb : b < W * H) (hcol : b % W + 1 < W) : FlagsOK W H (addE m b) := by
  intro i hi
  obtain ⟨hlt, hN, hE, hS, hWf⟩ := h i hi
  have hb1 := succ_lt_of_col hb hcol
  refine ⟨?_, ?_, ?_, ?_, ?_⟩
  · unfold addE
    split_ifs
    · exact Nat.or_lt_two_pow (h b hb).1 tile_lt.2.1
    · exact Nat.or_lt_two_pow (h (b + 1) hb1).1 tile_lt.2.2.2
    · exact hlt
  · intro hf
    obtain ⟨h1, h2⟩ := hN ((flags_addE m b i).2.2.2.1 hf)
    exact ⟨h1, (flags_addE m b (i - W)).2.2.1.2 h2⟩
  · intro hf
    rcases (flags_addE m b i).1.1 hf with h0 | h0
    · obtain ⟨h1, h2⟩ := hE h0
      exact ⟨h1, (flags_addE m b (i + 1)).2.1.2 (Or.inl h2)⟩
    · subst h0
      exact ⟨by omega, (flags_addE m i (i + 1)).2.1.2 (Or.inr rfl)⟩
  · intro hf
    obtain ⟨h1, h2⟩ := hS ((flags_addE m b i).2.2.1.1 hf)
    exact ⟨h1, (flags_addE m b (i + W)).2.2.2.2 h2⟩
  · intro hf
    rcases (flags_addE m b i).2.1.1 hf with h0 | h0
    · obtain ⟨h1, h2⟩ := hWf h0
      exact ⟨h1, (flags_addE m b (i - 1)).1.2 (Or.inl h2)⟩
    · subst h0
      have hs := cell_succ hcol
      refine ⟨by omega, ?_⟩
      have e : b + 1 - 1 = b := by omega
      rw [e]
      exact (flags_addE m b b).1.2 (Or.inr rfl)

theorem flagsOK_addS {W H : Nat} {m : Nat → Nat} (h : FlagsOK W H m) {b : Nat}
    (hb : b + W < W * H) : FlagsOK W H (addS W m b) := by
  have hW : 0 < W := by
    rcases Nat.eq_zero_or_pos W with h0 | h0
    · subst h0; simp at hb
    · exact h0
  intro i hi
  obtain ⟨hlt, hN, hE, hS, hWf⟩ := h i hi
  refine ⟨?_, ?_, ?_, ?_, ?_⟩
  · unfold addS
    split_ifs
    · exact Nat.or_lt_two_pow (h b (by omega)).1 tile_lt.2.2.1
    · exact Nat.or_lt_two_pow (h (b + W) hb).1 tile_lt.1
    · exact hlt
  · intro hf
    rcases (flags_addS hW m b i).2.1.1 hf with h0 | h0
    · obtain ⟨h1, h2⟩ := hN h0
      exact ⟨h1, (flags_addS hW m b (i - W)).1.2 (Or.inl h2)⟩
    · subst h0
      refine ⟨by omega, ?_⟩
      have e : b + W - W = b := by omega
      rw [e]
      exact (flags_addS hW m b b).1.2 (Or.inr rfl)
  · intro hf
    obtain ⟨h1, h2⟩ := hE ((flags_addS hW m b i).2.2.1.1 hf)
    exact ⟨h1, (flags_addS hW m b (i + 1)).2.2.2.2 h2⟩
  · intro hf
    rcases (flags_addS hW m b i).1.1 hf with h0 | h0
    · obtain ⟨h1, h2⟩ := hS h0
      exact ⟨h1, (flags_addS hW m b (i + W)).2.1.2 (Or.inl h2)⟩
    · subst h0
      exact ⟨hb, (flags_addS hW m i (i + W)).2.1.2 (Or.inr rfl)⟩
  · intro hf
    obtain ⟨h1, h2⟩ := hWf ((flags_addS hW m b i).2.2.2.1 hf)
    exact ⟨h1, (flags_addS hW m b (i - 1)).2.2.1.2 h2⟩

theorem flagsOK_carve {W H c d nb : Nat} (hc : c < W * H)
    (hn : neighbor W H c d = some nb) {s : MazeState} (h : FlagsOK W H s.mazebuf) :
    FlagsOK W H (carve W c d nb s).mazebuf := by
  rcases carve_shape hc hn with ⟨b, hb, hcol, _, hm, _, _⟩ | ⟨b, hb, _, hm, _, _⟩
  · rw [hm s]; exact flagsOK_addE h hb hcol
  · rw [hm s]; exact flagsOK_addS h hb

theorem flagsRule (W H : Nat) :
    DfsRule W H (FlagsPre W H) (FlagsMid W H) (FlagsPost W H) where
  enter := by
    rintro c s h
    exact h
  absent := by
    rintro c s0 ds s d h _
    exact h
  seen := by
    rintro c s0 ds s d nb h _ _
    exact h
  call := by
    rintro c s0 ds s d nb ⟨hc, h⟩ hn _
    exact ⟨(neighbor_lt hc hn).1, flagsOK_carve hc hn h⟩
  ret := by
    rintro c s0 ds s d nb s' ⟨hc, _⟩ _ _ h'
    exact ⟨hc, h'⟩
  exit := by
    rintro c s0 ds s ⟨_, h⟩ _
    exact h

theorem flagsOK_of_match {W H : Nat} {m : Nat → Nat} (h : FlagsMatch W H m) :
    FlagsOK W H m := by
  intro i hi
  obtain ⟨hN, hE, hS, hWf, hm⟩ := h i hi
  refine ⟨?_, hN.1, hE.1, hS.1, hWf.1⟩
  have e : TILE_N ||| TILE_E ||| TILE_S ||| TILE_W = 2 ^ 4 - 1 := by decide
  rw [e, Nat.and_pow_two_sub_one_eq_mod] at hm
  rw [← hm]
  exact Nat.mod_lt _ (by norm_num)

end BmpMaze
